import Mathlib

/-!
# go-datastore: keys, basic batch and the datastore decorators

A shallow embedding of `src/key/key.go`, `src/batch.go`,
`src/autobatch/autobatch.go` and `src/delayed/delayed.go`, and models from the
specification of the retry wrapper, the namespace translator and the query
ordering, of which the sources hold only tests.

* Go interface values are method tables (`Key`, `Datastore`, `Batching`) over an
  explicit state; a nil interface value is `none`.
* A Go `map[string]op` is an association list; `range` over it visits a
  permutation of the entries chosen by a `RangeOrder` argument.
* A Go result pair `(x, err)` is a Lean pair whose error component is an
  `Option`, `none` being the nil error.
* Calls that matter only by being made (a wait of the delay, an invocation of a
  backend, the opening of a batch) are observed through wrappers that record or
  count them in the state.
-/

set_option autoImplicit false

/-! ## Keys (`src/key/key.go`) -/

/-- The `Key` interface of `src/key/key.go`, restricted to the methods used by the
embedded code.  An argument of interface type may be nil, hence `Option K`. -/
class Key (K : Type) where
  /-- Canonical string form (`fmt.Stringer`). -/
  String : K → String
  /-- Equality of two keys. -/
  Equal : K → Option K → Bool
  /-- Whether this key is sorted lower than another. -/
  Less : K → Option K → Bool
  /-- Whether this key contains another as a strict prefix. -/
  IsDescendantOf : K → Option K → Bool

/-- Modelled from the spec: the implementations of `Equal` and `Less` (StrKey,
BytesKey) are not part of the sources.  The spec requires equality and `Less` to
be total and consistent with the lexicographic comparison of the representation,
and a nil key to be neither equal to nor above a non-nil key. -/
structure LawfulKey (K : Type) [Key K] : Prop where
  equal_nil : ∀ a : K, Key.Equal a none = false
  less_nil : ∀ a : K, Key.Less a none = false
  equal_iff : ∀ a b : K, Key.Equal a (some b) = true ↔ a = b
  less_irrefl : ∀ a : K, Key.Less a (some a) = false
  less_asymm : ∀ a b : K, Key.Less a (some b) = true → Key.Less b (some a) = false
  less_total : ∀ a b : K, a ≠ b → Key.Less a (some b) = true ∨ Key.Less b (some a) = true

/-- Modelled from the spec: the text-backed key representation, a path-like
string.  The implementation (StrKey) is not part of the sources. -/
structure StrKey where
  string : String
  deriving DecidableEq

/-- Modelled from the spec: the operations of the text-backed key; equality and
order are those of the backing string, and a descendant is strictly longer than
the ancestor and has it as a prefix ending at a segment separator (every longer
key descends from the root `/`). -/
instance : Key StrKey where
  String k := k.string
  Equal k k2 :=
    match k2 with
    | none => false
    | some k2 => decide (k.string.data = k2.string.data)
  Less k k2 :=
    match k2 with
    | none => false
    | some k2 => decide (k.string.data < k2.string.data)
  IsDescendantOf k other :=
    match other with
    | none => false
    | some o =>
      decide (o.string.data.length < k.string.data.length) &&
        (decide (o.string.data = ['/']) || (o.string.data ++ ['/']).isPrefixOf k.string.data)

/-- Constructor of a text-backed key from its string. -/
def NewStrKey (s : String) : StrKey := ⟨s⟩

namespace key

/-- `Compare` of `src/key/key.go`. -/
def Compare {K : Type} [Key K] (a b : Option K) : Int :=
  match a with
  | none =>
    match b with
    | none => 0
    | some _ => -1
  | some a =>
    if Key.Equal a b then 0
    else if Key.Less a b then -1
    else 1

end key

/-! ## Go maps -/

/-- A Go `map[string]α`: an association list in which a key string occurs at most
once (see `GoMap.WF`). -/
abbrev GoMap (α : Type) := List (String × α)

/-- The read `v, ok := m[k]`. -/
def GoMap.lookup {α : Type} : GoMap α → String → Option α
  | [], _ => none
  | (k1, v) :: m, k => if k1 = k then some v else GoMap.lookup m k

/-- The assignment `m[k] = v`: overwrite the entry of `k`, or add one. -/
def GoMap.insert {α : Type} : GoMap α → String → α → GoMap α
  | [], k, v => [(k, v)]
  | (k1, v1) :: m, k, v => if k1 = k then (k, v) :: m else (k1, v1) :: GoMap.insert m k v

/-- The statement `delete(m, k)`. -/
def GoMap.delete {α : Type} : GoMap α → String → GoMap α
  | [], _ => []
  | (k1, v) :: m, k => if k1 = k then GoMap.delete m k else (k1, v) :: GoMap.delete m k

/-- The key strings of a map. -/
def GoMap.keys {α : Type} (m : GoMap α) : List String := m.map Prod.fst

/-- Representation invariant of a Go map: no key string occurs twice. -/
def GoMap.WF {α : Type} (m : GoMap α) : Prop := (GoMap.keys m).Nodup

/-- The order in which one `range` loop visits the entries of a map.  Go leaves
it unspecified; a loop takes it as an argument. -/
abbrev RangeOrder (α : Type) := GoMap α → List (String × α)

/-- A range order visits every entry of the map exactly once. -/
def RangeOrder.Valid {α : Type} (ord : RangeOrder α) : Prop := ∀ m : GoMap α, (ord m).Perm m

/-! ## The datastore interfaces and the basic batch (`src/batch.go`) -/

namespace ds

/-- A Go `error` value; `ErrNotFound` is the sentinel of the datastore package,
`wrapped msg cause` an error that wraps `cause` (the verb `%w`). -/
inductive Error
  | ErrNotFound
  | other (msg : String)
  | wrapped (msg : String) (cause : Error)
  deriving DecidableEq

/-- A Go `[]byte`; the nil slice is the empty list. -/
abbrev Bytes := List UInt8

/-- The struct `op` of `src/batch.go` (and of `src/autobatch/autobatch.go`). -/
structure op (K : Type) where
  key : K
  delete : Bool
  value : Bytes
  deriving DecidableEq

/-- The key-value methods of the `Datastore` interface, as a method table over
the store's state `T`: every method returns its Go results and the next state. -/
structure Datastore (K T : Type) where
  Get : K → T → (Bytes × Option Error) × T
  Has : K → T → (Bool × Option Error) × T
  GetSize : K → T → (Int × Option Error) × T
  Put : K → Bytes → T → Option Error × T
  Delete : K → T → Option Error × T

/-- The `Batch` interface: the methods of a batch with state `B` over a store with
state `T`. -/
structure Batch (K B T : Type) where
  Put : K → Bytes → B → T → Option Error × B × T
  Delete : K → B → T → Option Error × B × T
  Commit : B → T → Option Error × T

/-- The `Batching` interface: a `Datastore` with `Batch()`; `batch` holds the
methods of the batches it hands out, `Close` is the store's `Close()`. -/
structure Batching (K B T : Type) extends Datastore K T where
  Batch : T → Except Error B × T
  batch : ds.Batch K B T
  Close : T → Option Error × T

/-- The struct `basicBatch`: `target` is the method table of the target store,
whose state is passed to `Commit`. -/
structure basicBatch (K T : Type) where
  ops : GoMap (op K)
  target : Datastore K T

/-- `NewBasicBatch`. -/
def NewBasicBatch {K T : Type} (ds : Datastore K T) : basicBatch K T :=
  { ops := [], target := ds }

/-- `basicBatch.Put`. -/
def basicBatch.Put {K T : Type} [Key K] (bt : basicBatch K T) (key : K) (val : Bytes) :
    Option Error × basicBatch K T :=
  (none, { bt with
    ops := GoMap.insert bt.ops (Key.String key) { key := key, delete := false, value := val } })

/-- `basicBatch.Delete`. -/
def basicBatch.Delete {K T : Type} [Key K] (bt : basicBatch K T) (key : K) :
    Option Error × basicBatch K T :=
  (none, { bt with
    ops := GoMap.insert bt.ops (Key.String key) { key := key, delete := true, value := [] } })

/-- The loop of `basicBatch.Commit` over the entries in the order of the `range`:
apply each op to the target, stop at the first error. -/
def basicBatch.commitLoop {K T : Type} (target : Datastore K T) :
    List (String × op K) → T → Option Error × T
  | [], t => (none, t)
  | (_, o) :: rest, t =>
    match (if o.delete then target.Delete o.key t else target.Put o.key o.value t) with
    | (some err, t1) => (some err, t1)
    | (none, t1) => basicBatch.commitLoop target rest t1

/-- `basicBatch.Commit`. -/
def basicBatch.Commit {K T : Type} (ord : RangeOrder (op K)) (bt : basicBatch K T) (t : T) :
    Option Error × T :=
  basicBatch.commitLoop bt.target (ord bt.ops) t

/-- A store without native batching as a `Batching` store: `Batch()` returns
`NewBasicBatch` over the store itself (as `Delayed.Batch` of
`src/delayed/delayed.go` does); `ord` is the range order of `Commit`. -/
def basicBatching {K T : Type} [Key K] (store : Datastore K T) (ord : RangeOrder (op K)) :
    Batching K (basicBatch K T) T :=
  { toDatastore := store
    Batch := fun t => (Except.ok (NewBasicBatch store), t)
    batch :=
      { Put := fun k v b t => ((basicBatch.Put b k v).1, (basicBatch.Put b k v).2, t)
        Delete := fun k b t => ((basicBatch.Delete b k).1, (basicBatch.Delete b k).2, t)
        Commit := fun b t => basicBatch.Commit ord b t }
    Close := fun t => (none, t) }

/-- One call received by a recording store, with the error it returned. -/
inductive Call (K : Type)
  | Put (key : K) (value : Bytes) (err : Option Error)
  | Delete (key : K) (err : Option Error)
  deriving DecidableEq

/-- A store that forwards to `store` and appends every `Put` and `Delete` call it
receives, with the returned error, to a log (the counting closure of the
failstore tests, as state). -/
def recording {K T : Type} (store : Datastore K T) : Datastore K (T × List (Call K)) :=
  { Get := fun k s => ((store.Get k s.1).1, ((store.Get k s.1).2, s.2))
    Has := fun k s => ((store.Has k s.1).1, ((store.Has k s.1).2, s.2))
    GetSize := fun k s => ((store.GetSize k s.1).1, ((store.GetSize k s.1).2, s.2))
    Put := fun k v s =>
      ((store.Put k v s.1).1, ((store.Put k v s.1).2, s.2 ++ [Call.Put k v (store.Put k v s.1).1]))
    Delete := fun k s =>
      ((store.Delete k s.1).1, ((store.Delete k s.1).2, s.2 ++ [Call.Delete k (store.Delete k s.1).1])) }

/-- Modelled from the spec: the in-memory map store (MapDatastore), which is not
part of the sources: a map from the canonical key string to the value. -/
abbrev MapDatastore := GoMap Bytes

/-- Modelled from the spec: the methods of the in-memory map store.  No operation
fails except that `Get` and `GetSize` of a missing key return `ErrNotFound`
(`GetSize` with the size -1). -/
def MapDatastore.store {K : Type} [Key K] : Datastore K MapDatastore :=
  { Get := fun k s =>
      match GoMap.lookup s (Key.String k) with
      | some v => ((v, none), s)
      | none => (([], some Error.ErrNotFound), s)
    Has := fun k s => (((GoMap.lookup s (Key.String k)).isSome, none), s)
    GetSize := fun k s =>
      match GoMap.lookup s (Key.String k) with
      | some v => (((v.length : Int), none), s)
      | none => ((-1, some Error.ErrNotFound), s)
    Put := fun k v s => (none, GoMap.insert s (Key.String k) v)
    Delete := fun k s => (none, GoMap.delete s (Key.String k)) }

/-- Modelled from the spec: a store like the failstore of the retry tests, whose
`Put` and `Delete` fail with `err` and leave the wrapped map store untouched. -/
def failingStore {K : Type} [Key K] (err : Error) : Datastore K MapDatastore :=
  { Get := MapDatastore.store.Get
    Has := MapDatastore.store.Has
    GetSize := MapDatastore.store.GetSize
    Put := fun _ _ s => (some err, s)
    Delete := fun _ s => (some err, s) }

/-- Invariant of a map of ops that `Put` and `Delete` (of the basic batch and of
the auto-batching buffer) establish: it is a map, and every entry is stored under
the canonical string of its op's key. -/
def OpsWF {K : Type} [Key K] (m : GoMap (op K)) : Prop :=
  GoMap.WF m ∧ ∀ e ∈ m, e.1 = Key.String e.2.key

/-- What committing an op leaves in a map store under the op's key: nothing after
a delete, the value after a put. -/
def op.effect {K : Type} (o : op K) : Option Bytes :=
  if o.delete then none else some o.value

end ds

/-! ## The auto-batching decorator (`src/autobatch/autobatch.go`) -/

namespace autobatch

open ds

/-- The struct `Datastore`: `child` is the state of the child store, whose method
table is an argument of every method. -/
structure Datastore (K W : Type) where
  child : W
  buffer : GoMap (op K)
  maxBufferEntries : Int

/-- `NewAutoBatching`. -/
def NewAutoBatching {K W : Type} (d : W) (size : Int) : Datastore K W :=
  { child := d, buffer := [], maxBufferEntries := size }

/-- The loop of `Flush` over the entries in the order of the `range`: replay each
buffered op into the batch, stop at the first error. -/
def flushLoop {K B W : Type} (c : Batching K B W) :
    List (String × op K) → B → W → Option Error × B × W
  | [], b, w => (none, b, w)
  | (_, o) :: rest, b, w =>
    match (if o.delete then c.batch.Delete o.key b w else c.batch.Put o.key o.value b w) with
    | (some err, b1, w1) => (some err, b1, w1)
    | (none, b1, w1) => flushLoop c rest b1 w1

/-- `Datastore.Flush`. -/
def Flush {K B W : Type} (c : Batching K B W) (ord : RangeOrder (op K)) (d : Datastore K W) :
    Option Error × Datastore K W :=
  match c.Batch d.child with
  | (Except.error err, w) => (some err, { d with child := w })
  | (Except.ok b, w) =>
    match flushLoop c (ord d.buffer) b w with
    | (some err, _, w1) => (some err, { d with child := w1 })
    | (none, b1, w1) =>
      ((c.batch.Commit b1 w1).1,
        { child := (c.batch.Commit b1 w1).2, buffer := [],
          maxBufferEntries := d.maxBufferEntries })

/-- `Datastore.Delete`. -/
def Delete {K B W : Type} [Key K] (c : Batching K B W) (ord : RangeOrder (op K)) (k : K)
    (d : Datastore K W) : Option Error × Datastore K W :=
  let d1 : Datastore K W :=
    { d with buffer := GoMap.insert d.buffer (Key.String k) { key := k, delete := true, value := [] } }
  if (d1.buffer.length : Int) > d1.maxBufferEntries then Flush c ord d1 else (none, d1)

/-- `Datastore.Get`. -/
def Get {K B W : Type} [Key K] (c : Batching K B W) (k : K) (d : Datastore K W) :
    (Bytes × Option Error) × Datastore K W :=
  match GoMap.lookup d.buffer (Key.String k) with
  | some o =>
    if o.delete then (([], some Error.ErrNotFound), d) else ((o.value, none), d)
  | none => ((c.Get k d.child).1, { d with child := (c.Get k d.child).2 })

/-- `Datastore.Put`. -/
def Put {K B W : Type} [Key K] (c : Batching K B W) (ord : RangeOrder (op K)) (k : K)
    (val : Bytes) (d : Datastore K W) : Option Error × Datastore K W :=
  let d1 : Datastore K W :=
    { d with buffer := GoMap.insert d.buffer (Key.String k) { key := k, delete := false, value := val } }
  if (d1.buffer.length : Int) > d1.maxBufferEntries then Flush c ord d1 else (none, d1)

/-- The loop of `Sync` over the entries in the order of the `range`: an op at or
under `pfx` is put into the batch and deleted from the buffer; the first batch
error stops the loop. -/
def syncLoop {K B W : Type} [Key K] (c : Batching K B W) (pfx : Option K) :
    List (String × op K) → GoMap (op K) → B → W → Option Error × GoMap (op K) × B × W
  | [], buf, b, w => (none, buf, b, w)
  | (key, o) :: rest, buf, b, w =>
    if !(Key.Equal o.key pfx || Key.IsDescendantOf o.key pfx) then
      syncLoop c pfx rest buf b w
    else
      match (if o.delete then c.batch.Delete o.key b w else c.batch.Put o.key o.value b w) with
      | (some err, b1, w1) => (some err, buf, b1, w1)
      | (none, b1, w1) => syncLoop c pfx rest (GoMap.delete buf key) b1 w1

/-- `Datastore.Sync`. -/
def Sync {K B W : Type} [Key K] (c : Batching K B W) (ord : RangeOrder (op K))
    (pfx : Option K) (d : Datastore K W) : Option Error × Datastore K W :=
  match c.Batch d.child with
  | (Except.error err, w) => (some err, { d with child := w })
  | (Except.ok b, w) =>
    match syncLoop c pfx (ord d.buffer) d.buffer b w with
    | (some err, buf, _, w1) => (some err, { d with child := w1, buffer := buf })
    | (none, buf, b1, w1) =>
      ((c.batch.Commit b1 w1).1,
        { child := (c.batch.Commit b1 w1).2, buffer := buf,
          maxBufferEntries := d.maxBufferEntries })

/-- `Datastore.Has`. -/
def Has {K B W : Type} [Key K] (c : Batching K B W) (k : K) (d : Datastore K W) :
    (Bool × Option Error) × Datastore K W :=
  match GoMap.lookup d.buffer (Key.String k) with
  | some o => ((!o.delete, none), d)
  | none => ((c.Has k d.child).1, { d with child := (c.Has k d.child).2 })

/-- `Datastore.GetSize`. -/
def GetSize {K B W : Type} [Key K] (c : Batching K B W) (k : K) (d : Datastore K W) :
    (Int × Option Error) × Datastore K W :=
  match GoMap.lookup d.buffer (Key.String k) with
  | some o =>
    if o.delete then ((-1, some Error.ErrNotFound), d) else (((o.value.length : Int), none), d)
  | none => ((c.GetSize k d.child).1, { d with child := (c.GetSize k d.child).2 })

end autobatch


/-! ## Observing the calls of a commit -/

namespace ds

/-- The error a recorded call returned. -/
def Call.err {K : Type} : Call K → Option Error
  | Call.Put _ _ e => e
  | Call.Delete _ e => e

/-- The canonical string of the key a recorded call was made with. -/
def Call.keyString {K : Type} [Key K] : Call K → String
  | Call.Put k _ _ => Key.String k
  | Call.Delete k _ => Key.String k

/-- The call `Commit` makes for an op, with the error it returned. -/
def Call.ofOp {K : Type} (o : op K) (e : Option Error) : Call K :=
  if o.delete then Call.Delete o.key e else Call.Put o.key o.value e

/-- The state of `store` after it has received a recorded call. -/
def Call.run {K T : Type} (store : Datastore K T) (t : T) : Call K → T
  | Call.Put k v _ => (store.Put k v t).2
  | Call.Delete k _ => (store.Delete k t).2

/-- A write call on a batch. -/
inductive Write (K : Type)
  | Put (key : K) (val : Bytes)
  | Delete (key : K)
  deriving DecidableEq

/-- The key of a write call. -/
def Write.key {K : Type} : Write K → K
  | Write.Put k _ => k
  | Write.Delete k => k

/-- The successful target call that applies a write. -/
def Write.call {K : Type} : Write K → Call K
  | Write.Put k v => Call.Put k v none
  | Write.Delete k => Call.Delete k none

/-- The content a write leaves under its key. -/
def Write.effect {K : Type} : Write K → Option Bytes
  | Write.Put _ v => some v
  | Write.Delete _ => none

/-- One write call on a basic batch (`Put` or `Delete`; both return nil). -/
def basicBatch.write {K T : Type} [Key K] (bt : basicBatch K T) : Write K → basicBatch K T
  | Write.Put k v => (basicBatch.Put bt k v).2
  | Write.Delete k => (basicBatch.Delete bt k).2

/-- A sequence of write calls on a basic batch. -/
def basicBatch.writes {K T : Type} [Key K] (bt : basicBatch K T) (ws : List (Write K)) :
    basicBatch K T :=
  ws.foldl basicBatch.write bt

/-- The last write of a sequence whose key has the canonical string `s`. -/
def lastWrite {K : Type} [Key K] (ws : List (Write K)) (s : String) : Option (Write K) :=
  ws.reverse.find? (fun w => decide (Key.String w.key = s))

/-- The content of a map store under the key string `s` after the writes `ws`
reached it, `old` being the content before: what the last write to `s` leaves, or
`old` when nothing was written to `s`. -/
def contentAfter {K : Type} [Key K] (ws : List (Write K)) (s : String) (old : Option Bytes) :
    Option Bytes :=
  match lastWrite ws s with
  | some w => w.effect
  | none => old

/-- The op a write call stores in the batch. -/
def Write.op {K : Type} : Write K → op K
  | Write.Put k v => { key := k, delete := false, value := v }
  | Write.Delete k => { key := k, delete := true, value := [] }

/-- The batch call `Flush` and `Sync` make for a buffered op. -/
def op.write {K : Type} (o : op K) : Write K :=
  if o.delete then Write.Delete o.key else Write.Put o.key o.value

end ds

/-! ## Sequences of calls on the decorator -/

namespace autobatch

open ds

/-- The test of `Sync`: the key equals `pfx` or is a descendant of it. -/
def atOrUnder {K : Type} [Key K] (pfx : Option K) (k : K) : Bool :=
  Key.Equal k pfx || Key.IsDescendantOf k pfx

/-- A write or flush call on the decorator. -/
inductive Cmd (K : Type)
  | Put (k : K) (val : Bytes)
  | Delete (k : K)
  | Flush
  | Sync (pfx : Option K)

/-- One call on the decorator, with the range order of its loop. -/
def Cmd.step {K B W : Type} [Key K] (c : Batching K B W) (ord : RangeOrder (op K)) :
    Cmd K → Datastore K W → Option Error × Datastore K W
  | Cmd.Put k val, d => autobatch.Put c ord k val d
  | Cmd.Delete k, d => autobatch.Delete c ord k d
  | Cmd.Flush, d => autobatch.Flush c ord d
  | Cmd.Sync pfx, d => autobatch.Sync c ord pfx d

/-- A sequence of calls on the decorator; the call number `n` runs on the child
method table `c n` with the range order `ord n`, and its error is dropped. -/
def run {K B W : Type} [Key K] (c : Nat → Batching K B W) (ord : Nat → RangeOrder (op K)) :
    Nat → List (Cmd K) → Datastore K W → Datastore K W
  | _, [], d => d
  | n, cmd :: rest, d => run c ord (n + 1) rest (Cmd.step (c n) (ord n) cmd d).2

/-- The map store as the child of the decorator: its batches are basic batches
over the store itself; call number `n` commits in the range order `ordC n`. -/
def mapChild {K : Type} [Key K] (ordC : Nat → RangeOrder (op K)) (n : Nat) :
    Batching K (basicBatch K MapDatastore) MapDatastore :=
  basicBatching MapDatastore.store (ordC n)

/-- The same calls made directly on a plain map store: `Put` and `Delete` reach
the store, `Flush` and `Sync` have nothing to do. -/
def plain {K : Type} [Key K] : List (Cmd K) → MapDatastore → MapDatastore
  | [], s => s
  | Cmd.Put k val :: rest, s => plain rest ((MapDatastore.store (K := K)).Put k val s).2
  | Cmd.Delete k :: rest, s => plain rest ((MapDatastore.store (K := K)).Delete k s).2
  | Cmd.Flush :: rest, s => plain rest s
  | Cmd.Sync _ :: rest, s => plain rest s

/-- What a read through the decorator sees under a key string: the effect of the
buffered op, or else the child's content. -/
def view {K : Type} (d : Datastore K MapDatastore) (s : String) : Option Bytes :=
  match GoMap.lookup d.buffer s with
  | some o => o.effect
  | none => GoMap.lookup d.child s

end autobatch

/-! ## Joining keys (`src/key/key.go`) -/

/-- Further members of the `Key` interface type: the method `Child`, whose
argument may be nil, and the text-backed keys as values of the interface type
(`Join` returns one of them). -/
class KeyChild (K : Type) where
  /-- The child key of this key. -/
  Child : K → Option K → K
  /-- A text-backed key as a value of the interface type. -/
  ofStrKey : StrKey → K

/-- Modelled from the spec: `Child` of the text-backed key; the string form of the
child is this key's string followed by the other's (a nil key adds nothing). -/
instance : KeyChild StrKey where
  Child k k2 :=
    match k2 with
    | none => k
    | some k2 => ⟨k.string ++ k2.string⟩
  ofStrKey k := k

namespace key

/-- The type `KeySlice`, a slice of (non-nil) keys. -/
abbrev KeySlice (K : Type) := List K

/-- The loop of `Join` over `p[1:]`: `key = key.Child(k)`. -/
def KeySlice.joinLoop {K : Type} [KeyChild K] : K → List K → K
  | key, [] => key
  | key, k :: rest => KeySlice.joinLoop (KeyChild.Child key (some k)) rest

/-- `KeySlice.Join`. -/
def KeySlice.Join {K : Type} [KeyChild K] (p : KeySlice K) : K :=
  match p with
  | [] => KeyChild.ofStrKey (NewStrKey "")
  | k0 :: rest => KeySlice.joinLoop k0 rest

end key

/-! ## Closing the decorator, and counting the batches of a child -/

namespace ds

/-- A child that forwards to `c` and counts the batches it opens: `Batch()`
increments the counter, every other method leaves it alone. -/
def countingBatches {K B W : Type} (c : Batching K B W) : Batching K B (W × Nat) :=
  { Get := fun k s => ((c.Get k s.1).1, ((c.Get k s.1).2, s.2))
    Has := fun k s => ((c.Has k s.1).1, ((c.Has k s.1).2, s.2))
    GetSize := fun k s => ((c.GetSize k s.1).1, ((c.GetSize k s.1).2, s.2))
    Put := fun k v s => ((c.Put k v s.1).1, ((c.Put k v s.1).2, s.2))
    Delete := fun k s => ((c.Delete k s.1).1, ((c.Delete k s.1).2, s.2))
    Batch := fun s => ((c.Batch s.1).1, ((c.Batch s.1).2, s.2 + 1))
    batch :=
      { Put := fun k v b s =>
          ((c.batch.Put k v b s.1).1, (c.batch.Put k v b s.1).2.1,
            ((c.batch.Put k v b s.1).2.2, s.2))
        Delete := fun k b s =>
          ((c.batch.Delete k b s.1).1, (c.batch.Delete k b s.1).2.1,
            ((c.batch.Delete k b s.1).2.2, s.2))
        Commit := fun b s => ((c.batch.Commit b s.1).1, ((c.batch.Commit b s.1).2, s.2)) }
    Close := fun s => ((c.Close s.1).1, ((c.Close s.1).2, s.2)) }

end ds

namespace autobatch

open ds

/-- `Datastore.Close`. -/
def Close {K B W : Type} (c : Batching K B W) (ord : RangeOrder (op K)) (d : Datastore K W) :
    Option Error × Datastore K W :=
  let r1 := Flush c ord d
  let r2 := c.Close r1.2.child
  let d2 : Datastore K W := { r1.2 with child := r2.2 }
  if r1.1 ≠ none then (r1.1, d2)
  else if r2.1 ≠ none then (r2.1, d2)
  else (none, d2)

/-- The value of `len(d.buffer)` right after `Put` or `Delete` has assigned the
entry of `k`. -/
def sizeAfter {K W : Type} [Key K] (d : Datastore K W) (k : K) : Int :=
  ((GoMap.insert d.buffer (Key.String k) { key := k, delete := true, value := [] }).length : Int)

/-- The decorator after `Put` has assigned the entry of `k`, before the test of
the buffer size. -/
def afterPut {K W : Type} [Key K] (d : Datastore K W) (k : K) (val : Bytes) : Datastore K W :=
  { d with buffer := GoMap.insert d.buffer (Key.String k) { key := k, delete := false, value := val } }

/-- The decorator after `Delete` has assigned the entry of `k`, before the test of
the buffer size. -/
def afterDelete {K W : Type} [Key K] (d : Datastore K W) (k : K) : Datastore K W :=
  { d with buffer := GoMap.insert d.buffer (Key.String k) { key := k, delete := true, value := [] } }

/-- The decorator over the counting child, `n` batches having been opened. -/
def counted {K W : Type} (d : Datastore K W) (n : Nat) : Datastore K (W × Nat) :=
  { child := (d.child, n), buffer := d.buffer, maxBufferEntries := d.maxBufferEntries }

end autobatch

/-! ## The delay injector (`src/delayed/delayed.go`) -/

namespace delayed

open ds

/-- The wrapped store as the wrapper uses it: the `Datastore` interface with
`Sync` and `Query`, and the package function `ds.DiskUsage` applied to the store
(that function is not part of the sources).  The methods act on a world `W` that
the delay acts on too, so that the order of a wait and a call is observable. -/
structure Store (K Q R W : Type) extends ds.Datastore K W where
  Sync : Option K → W → Option Error × W
  Query : Q → W → (R × Option Error) × W
  DiskUsage : W → (Nat × Option Error) × W

/-- The struct `Delayed`: the inner store and the delay, whose `Wait()` is a step
of the world. -/
structure Delayed (K Q R W : Type) where
  ds : Store K Q R W
  delay : W → W

/-- `New`. -/
def New {K Q R W : Type} (store : Store K Q R W) (delay : W → W) : Delayed K Q R W :=
  { ds := store, delay := delay }

/-- `Delayed.Put`. -/
def Delayed.Put {K Q R W : Type} (dds : Delayed K Q R W) (key : K) (value : Bytes) (w : W) :
    Option Error × W :=
  dds.ds.Put key value (dds.delay w)

/-- `Delayed.Sync`. -/
def Delayed.Sync {K Q R W : Type} (dds : Delayed K Q R W) (pfx : Option K) (w : W) :
    Option Error × W :=
  dds.ds.Sync pfx (dds.delay w)

/-- `Delayed.Get`. -/
def Delayed.Get {K Q R W : Type} (dds : Delayed K Q R W) (key : K) (w : W) :
    (Bytes × Option Error) × W :=
  dds.ds.Get key (dds.delay w)

/-- `Delayed.Has`. -/
def Delayed.Has {K Q R W : Type} (dds : Delayed K Q R W) (key : K) (w : W) :
    (Bool × Option Error) × W :=
  dds.ds.Has key (dds.delay w)

/-- `Delayed.GetSize`. -/
def Delayed.GetSize {K Q R W : Type} (dds : Delayed K Q R W) (key : K) (w : W) :
    (Int × Option Error) × W :=
  dds.ds.GetSize key (dds.delay w)

/-- `Delayed.Delete`. -/
def Delayed.Delete {K Q R W : Type} (dds : Delayed K Q R W) (key : K) (w : W) :
    Option Error × W :=
  dds.ds.Delete key (dds.delay w)

/-- `Delayed.Query`. -/
def Delayed.Query {K Q R W : Type} (dds : Delayed K Q R W) (q : Q) (w : W) :
    (R × Option Error) × W :=
  dds.ds.Query q (dds.delay w)

/-- The wrapper as a value of the `Datastore` interface (its key-value methods). -/
def Delayed.asDatastore {K Q R W : Type} (dds : Delayed K Q R W) : ds.Datastore K W :=
  { Get := dds.Get, Has := dds.Has, GetSize := dds.GetSize, Put := dds.Put,
    Delete := dds.Delete }

/-- `Delayed.Batch`. -/
def Delayed.Batch {K Q R W : Type} (dds : Delayed K Q R W) (w : W) :
    (basicBatch K W × Option Error) × W :=
  ((NewBasicBatch dds.asDatastore, none), w)

/-- `Delayed.DiskUsage`. -/
def Delayed.DiskUsage {K Q R W : Type} (dds : Delayed K Q R W) (w : W) :
    (Nat × Option Error) × W :=
  dds.ds.DiskUsage (dds.delay w)

/-- What a traced world records: a wait of the delay, or a call received by the
inner store with its arguments. -/
inductive Event (K Q : Type)
  | Wait
  | Put (key : K) (value : Bytes)
  | Sync (pfx : Option K)
  | Get (key : K)
  | Has (key : K)
  | GetSize (key : K)
  | Delete (key : K)
  | Query (q : Q)
  | DiskUsage

/-- Whether an event is a wait. -/
def Event.isWait {K Q : Type} : Event K Q → Bool
  | Event.Wait => true
  | _ => false

/-- The inner call that applies an op. -/
def Event.ofOp {K Q : Type} (o : op K) : Event K Q :=
  if o.delete then Event.Delete o.key else Event.Put o.key o.value

/-- An inner store that forwards to `st` and records every call it receives in
the world's trace. -/
def traced {K Q R T : Type} (st : Store K Q R T) : Store K Q R (T × List (Event K Q)) :=
  { Get := fun k s => ((st.Get k s.1).1, ((st.Get k s.1).2, s.2 ++ [Event.Get k]))
    Has := fun k s => ((st.Has k s.1).1, ((st.Has k s.1).2, s.2 ++ [Event.Has k]))
    GetSize := fun k s => ((st.GetSize k s.1).1, ((st.GetSize k s.1).2, s.2 ++ [Event.GetSize k]))
    Put := fun k v s => ((st.Put k v s.1).1, ((st.Put k v s.1).2, s.2 ++ [Event.Put k v]))
    Delete := fun k s => ((st.Delete k s.1).1, ((st.Delete k s.1).2, s.2 ++ [Event.Delete k]))
    Sync := fun p s => ((st.Sync p s.1).1, ((st.Sync p s.1).2, s.2 ++ [Event.Sync p]))
    Query := fun q s => ((st.Query q s.1).1, ((st.Query q s.1).2, s.2 ++ [Event.Query q]))
    DiskUsage := fun s => ((st.DiskUsage s.1).1, ((st.DiskUsage s.1).2, s.2 ++ [Event.DiskUsage])) }

/-- A delay whose `Wait()` records the wait in the world's trace. -/
def tracedWait {K Q T : Type} (s : T × List (Event K Q)) : T × List (Event K Q) :=
  (s.1, s.2 ++ [Event.Wait])

/-- The delay injector over the traced inner store and the traced delay. -/
def tracedDelayed {K Q R T : Type} (st : Store K Q R T) :
    Delayed K Q R (T × List (Event K Q)) :=
  New (traced st) tracedWait

end delayed

/-! ## The retry wrapper (tests in `src/retrystore/retrystore_test.go`) -/

namespace retrystore

open ds

/-- Modelled from the spec: the struct `Datastore` of the retry wrapper, which is
not part of the sources, with the fields its tests set: the wrapped store (its
key-value methods), the retry count and the classifier of transient errors. -/
structure Datastore (K T : Type) where
  Batching : ds.Datastore K T
  Retries : Nat
  TempErrFunc : Error → Bool

/-- Modelled from the spec: the distinct error of an exhausted retry budget, which
wraps the last underlying error; its message is the one the tests look for. -/
def errRetries (err : Error) : Error :=
  Error.wrapped "ran out of retries trying to get past temporary error" err

/-- Modelled from the spec: an operation is attempted; a nil error or an error
that is not transient is returned unchanged; a transient error is retried while
retries are left (`n` of them), and with none left the call fails with
`errRetries` of the last error. -/
def attempts {S α : Type} (temp : Error → Bool) (op : S → (α × Option Error) × S) :
    Nat → S → (α × Option Error) × S
  | 0, s =>
    match (op s).1.2 with
    | none => op s
    | some err =>
      if temp err then (((op s).1.1, some (errRetries err)), (op s).2) else op s
  | n + 1, s =>
    match (op s).1.2 with
    | none => op s
    | some err => if temp err then attempts temp op n (op s).2 else op s

/-- Modelled from the spec: the retry policy of the wrapper applied to an
operation of the wrapped store. -/
def Datastore.runOp {K T α : Type} (d : Datastore K T) (op : T → (α × Option Error) × T)
    (t : T) : (α × Option Error) × T :=
  attempts d.TempErrFunc op d.Retries t

/-- An operation that returns only an error, as one that returns a unit value. -/
def unitOp {S : Type} (f : S → Option Error × S) : S → (Unit × Option Error) × S :=
  fun s => (((), (f s).1), (f s).2)

/-- Modelled from the spec: `Get` of the wrapper. -/
def Datastore.Get {K T : Type} (d : Datastore K T) (k : K) (t : T) : (Bytes × Option Error) × T :=
  d.runOp (d.Batching.Get k) t

/-- Modelled from the spec: `Has` of the wrapper. -/
def Datastore.Has {K T : Type} (d : Datastore K T) (k : K) (t : T) : (Bool × Option Error) × T :=
  d.runOp (d.Batching.Has k) t

/-- Modelled from the spec: `GetSize` of the wrapper. -/
def Datastore.GetSize {K T : Type} (d : Datastore K T) (k : K) (t : T) :
    (Int × Option Error) × T :=
  d.runOp (d.Batching.GetSize k) t

/-- Modelled from the spec: `Put` of the wrapper. -/
def Datastore.Put {K T : Type} (d : Datastore K T) (k : K) (v : Bytes) (t : T) :
    Option Error × T :=
  ((d.runOp (unitOp (d.Batching.Put k v)) t).1.2, (d.runOp (unitOp (d.Batching.Put k v)) t).2)

/-- Modelled from the spec: `Delete` of the wrapper. -/
def Datastore.Delete {K T : Type} (d : Datastore K T) (k : K) (t : T) : Option Error × T :=
  ((d.runOp (unitOp (d.Batching.Delete k)) t).1.2, (d.runOp (unitOp (d.Batching.Delete k)) t).2)

/-- An operation of the datastore with its arguments. -/
inductive Op (K : Type)
  | Get (k : K)
  | Has (k : K)
  | GetSize (k : K)
  | Put (k : K) (v : Bytes)
  | Delete (k : K)

/-- The value an operation returns next to its error. -/
inductive Val
  | bytes (b : Bytes)
  | bool (b : Bool)
  | size (n : Int)
  | unit
  deriving DecidableEq

/-- An operation that returns `f` of the value `op` returns. -/
def mapVal {S α β : Type} (f : α → β) (op : S → (α × Option Error) × S) :
    S → (β × Option Error) × S :=
  fun s => ((f (op s).1.1, (op s).1.2), (op s).2)

/-- One invocation of an operation on a store. -/
def Op.invoke {K T : Type} (st : ds.Datastore K T) : Op K → T → (Val × Option Error) × T
  | Op.Get k => mapVal Val.bytes (st.Get k)
  | Op.Has k => mapVal Val.bool (st.Has k)
  | Op.GetSize k => mapVal Val.size (st.GetSize k)
  | Op.Put k v => mapVal (fun _ => Val.unit) (unitOp (st.Put k v))
  | Op.Delete k => mapVal (fun _ => Val.unit) (unitOp (st.Delete k))

/-- One call of an operation on the wrapper. -/
def Datastore.call {K T : Type} (d : Datastore K T) : Op K → T → (Val × Option Error) × T
  | Op.Get k => mapVal Val.bytes (d.Get k)
  | Op.Has k => mapVal Val.bool (d.Has k)
  | Op.GetSize k => mapVal Val.size (d.GetSize k)
  | Op.Put k v => mapVal (fun _ => Val.unit) (unitOp (d.Put k v))
  | Op.Delete k => mapVal (fun _ => Val.unit) (unitOp (d.Delete k))

/-- The state of a store after `n` invocations of an operation. -/
def stateAfter {S α : Type} (op : S → (α × Option Error) × S) : Nat → S → S
  | 0, s => s
  | n + 1, s => stateAfter op n (op s).2

/-- A store that forwards to `store` and counts the invocations of its methods
(the counting closure of the failstore tests, as state). -/
def counting {K T : Type} (store : ds.Datastore K T) : ds.Datastore K (T × Nat) :=
  { Get := fun k s => ((store.Get k s.1).1, ((store.Get k s.1).2, s.2 + 1))
    Has := fun k s => ((store.Has k s.1).1, ((store.Has k s.1).2, s.2 + 1))
    GetSize := fun k s => ((store.GetSize k s.1).1, ((store.GetSize k s.1).2, s.2 + 1))
    Put := fun k v s => ((store.Put k v s.1).1, ((store.Put k v s.1).2, s.2 + 1))
    Delete := fun k s => ((store.Delete k s.1).1, ((store.Delete k s.1).2, s.2 + 1)) }

/-- An operation that counts its invocations. -/
def countedOp {S α : Type} (op : S → (α × Option Error) × S) :
    S × Nat → (α × Option Error) × (S × Nat) :=
  fun s => ((op s.1).1, ((op s.1).2, s.2 + 1))

end retrystore

/-! ## The namespace translator (example in `src/namespace/example_test.go`) -/

namespace nsds

open ds

/-- Modelled from the spec: the namespace translator, which is not part of the
sources: a wrapped store (its key-value methods) and a fixed key put in front of
every key. -/
structure Datastore (K T : Type) where
  child : ds.Datastore K T
  pfx : K

/-- Modelled from the spec: `Wrap`. -/
def Wrap {K T : Type} (child : ds.Datastore K T) (pfx : K) : Datastore K T :=
  { child := child, pfx := pfx }

/-- Modelled from the spec: the key forwarded for a caller's key, `pfx.Child(key)`. -/
def Datastore.ConvertKey {K T : Type} [KeyChild K] (d : Datastore K T) (k : K) : K :=
  KeyChild.Child d.pfx (some k)

/-- Modelled from the spec: `Put` of the translator. -/
def Datastore.Put {K T : Type} [KeyChild K] (d : Datastore K T) (k : K) (v : Bytes) (t : T) :
    Option Error × T :=
  d.child.Put (d.ConvertKey k) v t

/-- Modelled from the spec: `Get` of the translator. -/
def Datastore.Get {K T : Type} [KeyChild K] (d : Datastore K T) (k : K) (t : T) :
    (Bytes × Option Error) × T :=
  d.child.Get (d.ConvertKey k) t

/-- Modelled from the spec: `Has` of the translator. -/
def Datastore.Has {K T : Type} [KeyChild K] (d : Datastore K T) (k : K) (t : T) :
    (Bool × Option Error) × T :=
  d.child.Has (d.ConvertKey k) t

/-- Modelled from the spec: `GetSize` of the translator. -/
def Datastore.GetSize {K T : Type} [KeyChild K] (d : Datastore K T) (k : K) (t : T) :
    (Int × Option Error) × T :=
  d.child.GetSize (d.ConvertKey k) t

/-- Modelled from the spec: `Delete` of the translator. -/
def Datastore.Delete {K T : Type} [KeyChild K] (d : Datastore K T) (k : K) (t : T) :
    Option Error × T :=
  d.child.Delete (d.ConvertKey k) t

end nsds

/-! ## Query ordering (tests in `src/query/order_test.go`) -/

namespace query

open ds

/-- Modelled from the spec: an entry of a result sequence, a key and a value. -/
structure Entry (K : Type) where
  Key : K
  Value : Bytes
  deriving DecidableEq

/-- Modelled from the spec: a comparator criterion; `Compare` returns a negative
number, zero or a positive number. -/
abbrev Order (K : Type) := Entry K → Entry K → Int

/-- Modelled from the spec: the criterion "order by key", which compares with the
key model's `Less` (through `key.Compare`). -/
def OrderByKey {K : Type} [Key K] : Order K :=
  fun a b => key.Compare (some a.Key) (some b.Key)

/-- Modelled from the spec: the descending variant, which inverts the result, not
the comparands. -/
def OrderByKeyDescending {K : Type} [Key K] : Order K :=
  fun a b => - key.Compare (some a.Key) (some b.Key)

/-- Modelled from the spec: whether `a` comes before `b`: the first criterion that
does not report equal decides; entries all criteria report equal are not before
one another. -/
def Less {K : Type} : List (Order K) → Entry K → Entry K → Bool
  | [], _, _ => false
  | cmp :: rest, a, b => if cmp a b = 0 then Less rest a b else decide (cmp a b < 0)

/-- Modelled from the spec: `NaiveOrder` on the materialized result set: without
criteria the entries are returned as they are; otherwise they are sorted by a
stable sort, an entry staying before the later entries it is not after. -/
def NaiveOrder {K : Type} (entries : List (Entry K)) (orders : List (Order K)) :
    List (Entry K) :=
  match orders with
  | [] => entries
  | _ :: _ => entries.insertionSort (fun a b => Less orders b a = false)

end query

/-! ## Sample values -/

namespace sample

open ds

/-- The range order that visits the entries back to front. -/
def backwards {α : Type} : RangeOrder α := fun m => m.reverse

/-- A map store as the child of the decorator, committing in list order. -/
def mapChild : Batching StrKey (basicBatch StrKey MapDatastore) MapDatastore :=
  basicBatching MapDatastore.store id

/-- A child whose batches fail to commit: every write of the target fails. -/
def failingChild : Batching StrKey (basicBatch StrKey MapDatastore) MapDatastore :=
  basicBatching (failingStore (Error.other "write failed")) id

/-- A decorator over a child holding `/a`, with a buffered put of `/a` and a
buffered delete of `/b`. -/
def buffered : autobatch.Datastore StrKey MapDatastore :=
  { child := [("/a", [7])]
    buffer := [("/a", { key := NewStrKey "/a", delete := false, value := [1, 2] }),
               ("/b", { key := NewStrKey "/b", delete := true, value := [] })]
    maxBufferEntries := 4 }

/-- Three writes, two of them to `/a`. -/
def writes : List (ds.Write StrKey) :=
  [ds.Write.Put (NewStrKey "/a") [1], ds.Write.Put (NewStrKey "/b") [2],
   ds.Write.Delete (NewStrKey "/a")]

/-- Five calls on the decorator. -/
def cmds : List (autobatch.Cmd StrKey) :=
  [autobatch.Cmd.Put (NewStrKey "/a") [1], autobatch.Cmd.Put (NewStrKey "/b") [2],
   autobatch.Cmd.Delete (NewStrKey "/a"), autobatch.Cmd.Sync (some (NewStrKey "/a")),
   autobatch.Cmd.Put (NewStrKey "/c") [3]]

/-- Three puts to distinct keys. -/
def puts : List (StrKey × ds.Bytes) :=
  [(NewStrKey "/a", [1]), (NewStrKey "/b", [2]), (NewStrKey "/c", [3])]

/-- A slice of two keys. -/
def keys : key.KeySlice StrKey := [NewStrKey "/a", NewStrKey "/b"]

/-- The map store with a `Sync` that has nothing to do, a `Query` that returns
every entry and a disk usage of the number of entries. -/
def fullMapStore : delayed.Store StrKey Unit (List (String × ds.Bytes)) ds.MapDatastore :=
  { toDatastore := ds.MapDatastore.store
    Sync := fun _ s => (none, s)
    Query := fun _ s => ((s, none), s)
    DiskUsage := fun s => ((s.length, none), s) }

/-- The error of the failstore in the retry tests. -/
def myErr : ds.Error := ds.Error.other "this is an actual error"

/-- The transient error of the retry tests. -/
def tempErr : ds.Error := ds.Error.other "this is a temp error"

/-- The failstore of `TestRetryFailure`: every operation fails with `myErr`. -/
def alwaysFailing : ds.Datastore StrKey ds.MapDatastore :=
  { Get := fun _ s => (([], some myErr), s)
    Has := fun _ s => ((false, some myErr), s)
    GetSize := fun _ s => ((-1, some myErr), s)
    Put := fun _ _ s => (some myErr, s)
    Delete := fun _ s => (some myErr, s) }

/-- The error the failstore of `TestRealErrorAfterTemp` returns at its
invocation number `count`. -/
def flakyErr (count : Nat) : ds.Error := if count < 3 then tempErr else myErr

/-- The failstore of `TestRealErrorAfterTemp`; the state is its closure's
`count`: the first two invocations fail with `tempErr`, the later ones with
`myErr`. -/
def flaky : ds.Datastore StrKey Nat :=
  { Get := fun _ s => (([], some (flakyErr (s + 1))), s + 1)
    Has := fun _ s => ((false, some (flakyErr (s + 1))), s + 1)
    GetSize := fun _ s => ((-1, some (flakyErr (s + 1))), s + 1)
    Put := fun _ _ s => (some (flakyErr (s + 1)), s + 1)
    Delete := fun _ s => (some (flakyErr (s + 1)), s + 1) }

/-- The entries of the keys `/ab/c`, `/ab/cd`, `/a`, `/abce`, `/abcf`, `/ab`, in
this order. -/
def entries : List (query.Entry StrKey) :=
  [{ Key := NewStrKey "/ab/c", Value := [1] }, { Key := NewStrKey "/ab/cd", Value := [2] },
   { Key := NewStrKey "/a", Value := [3] }, { Key := NewStrKey "/abce", Value := [4] },
   { Key := NewStrKey "/abcf", Value := [5] }, { Key := NewStrKey "/ab", Value := [6] }]

end sample

/-! ## Theorems -/

theorem StrKey.ext_data {a b : StrKey} (h : a.string.data = b.string.data) : a = b := by
  cases a with
  | mk sa =>
    cases b with
    | mk sb =>
      have : sa = sb := String.ext h
      subst this
      rfl

/-- The canonical string of a text-backed key determines the key. -/
theorem strKey_String_injective : Function.Injective (Key.String : StrKey → String) := by
  intro a b h
  cases a
  cases b
  simp only [Key.String] at h
  rw [h]

/-- The text-backed key model satisfies the laws the spec requires of keys. -/
theorem strKey_lawful : LawfulKey StrKey where
  equal_nil _ := rfl
  less_nil _ := rfl
  equal_iff a b := by
    show decide (a.string.data = b.string.data) = true ↔ a = b
    rw [decide_eq_true_iff]
    exact ⟨StrKey.ext_data, fun h => by rw [h]⟩
  less_irrefl a := by
    show decide (a.string.data < a.string.data) = false
    rw [decide_eq_false_iff_not]
    exact lt_irrefl _
  less_asymm a b := by
    show decide (a.string.data < b.string.data) = true →
      decide (b.string.data < a.string.data) = false
    rw [decide_eq_true_iff, decide_eq_false_iff_not]
    exact fun h => lt_asymm h
  less_total a b hne := by
    show decide (a.string.data < b.string.data) = true ∨
      decide (b.string.data < a.string.data) = true
    rw [decide_eq_true_iff, decide_eq_true_iff]
    rcases lt_trichotomy a.string.data b.string.data with h | h | h
    · exact Or.inl h
    · exact absurd (StrKey.ext_data h) hne
    · exact Or.inr h

section CompareLemmas

variable {K : Type} [Key K]

theorem Compare_some_some_cases (h : LawfulKey K) (a b : K) :
    (a = b ∧ key.Compare (some a) (some b) = 0) ∨
    (a ≠ b ∧ Key.Less a (some b) = true ∧ Key.Less b (some a) = false ∧
      key.Compare (some a) (some b) = -1) ∨
    (a ≠ b ∧ Key.Less a (some b) = false ∧ Key.Less b (some a) = true ∧
      key.Compare (some a) (some b) = 1) := by
  by_cases hab : a = b
  · left
    refine ⟨hab, ?_⟩
    have : Key.Equal a (some b) = true := (h.equal_iff a b).2 hab
    simp [key.Compare, this]
  · right
    have hne : Key.Equal a (some b) = false := by
      cases hE : Key.Equal a (some b) with
      | false => rfl
      | true => exact absurd ((h.equal_iff a b).1 hE) hab
    rcases h.less_total a b hab with hl | hl
    · left
      exact ⟨hab, hl, h.less_asymm a b hl, by simp [key.Compare, hne, hl]⟩
    · right
      have hl2 : Key.Less a (some b) = false := h.less_asymm b a hl
      exact ⟨hab, hl2, hl, by simp [key.Compare, hne, hl2]⟩

end CompareLemmas

/-- C9: `Compare` is antisymmetric and reflexive: for all keys `k1`, `k2` (nil
included) `Compare k1 k2 = -Compare k2 k1`, and `Compare k k = 0` for every key. -/
theorem Compare_antisymm_refl {K : Type} [Key K] (h : LawfulKey K) (k1 k2 : Option K) :
    key.Compare k1 k2 = - key.Compare k2 k1 ∧ key.Compare k1 k1 = 0 := by
  constructor
  · cases k1 with
    | none =>
      cases k2 with
      | none => rfl
      | some b => simp [key.Compare, h.equal_nil, h.less_nil]
    | some a =>
      cases k2 with
      | none => simp [key.Compare, h.equal_nil, h.less_nil]
      | some b =>
        rcases Compare_some_some_cases h a b with ⟨hab, hc⟩ | ⟨hab, _, _, hc⟩ | ⟨hab, _, _, hc⟩
        · subst hab
          rw [hc]
          rfl
        · rcases Compare_some_some_cases h b a with
            ⟨hba, _⟩ | ⟨_, hl, _, _⟩ | ⟨_, _, _, hc2⟩
          · exact absurd hba.symm hab
          · simp_all
          · rw [hc, hc2]
        · rcases Compare_some_some_cases h b a with
            ⟨hba, _⟩ | ⟨_, _, _, hc2⟩ | ⟨_, hl, _, _⟩
          · exact absurd hba.symm hab
          · rw [hc, hc2]
            rfl
          · simp_all
  · cases k1 with
    | none => rfl
    | some a =>
      have : Key.Equal a (some a) = true := (h.equal_iff a a).2 rfl
      simp [key.Compare, this]

/-- Witness of C9 on the text-backed keys `/a` and `/ab`. -/
theorem Compare_antisymm_refl_witness :
    key.Compare (some (NewStrKey "/a")) (some (NewStrKey "/ab"))
        = - key.Compare (some (NewStrKey "/ab")) (some (NewStrKey "/a")) ∧
      key.Compare (some (NewStrKey "/a")) (some (NewStrKey "/a")) = 0 :=
  Compare_antisymm_refl strKey_lawful (some (NewStrKey "/a")) (some (NewStrKey "/ab"))

/-- C10: `Compare` returns -1/0/+1 per `Less`/`Equal` with nil as the least key:
`Compare nil nil = 0`; for a non-nil `k`, `Compare nil k = -1` and
`Compare k nil = +1`; for non-nil `a`, `b` the result is `0` exactly when
`a.Equal(b)`, `-1` exactly when `a.Less(b)` and `+1` exactly when `b.Less(a)`. -/
theorem Compare_spec {K : Type} [Key K] (h : LawfulKey K) (a b : K) :
    key.Compare (none : Option K) none = 0 ∧
    key.Compare none (some a) = -1 ∧
    key.Compare (some a) none = 1 ∧
    (key.Compare (some a) (some b) = 0 ↔ Key.Equal a (some b) = true) ∧
    (key.Compare (some a) (some b) = -1 ↔ Key.Less a (some b) = true) ∧
    (key.Compare (some a) (some b) = 1 ↔ Key.Less b (some a) = true) := by
  refine ⟨rfl, rfl, by simp [key.Compare, h.equal_nil, h.less_nil], ?_, ?_, ?_⟩
  · rw [h.equal_iff]
    rcases Compare_some_some_cases h a b with ⟨hab, hc⟩ | ⟨hab, _, _, hc⟩ | ⟨hab, _, _, hc⟩
    · subst hab
      simp [hc]
    · simp [hc, hab]
    · simp [hc, hab]
  · rcases Compare_some_some_cases h a b with ⟨hab, hc⟩ | ⟨hab, hl, _, hc⟩ | ⟨hab, hl, _, hc⟩
    · subst hab
      simp [hc, h.less_irrefl]
    · simp [hc, hl]
    · simp [hc, hl]
  · rcases Compare_some_some_cases h a b with ⟨hab, hc⟩ | ⟨hab, _, hl, hc⟩ | ⟨hab, _, hl, hc⟩
    · subst hab
      simp [hc, h.less_irrefl]
    · simp [hc, hl]
    · simp [hc, hl]

/-- Witness of C10 on the text-backed keys `/a` and `/ab`. -/
theorem Compare_spec_witness :
    key.Compare (none : Option StrKey) none = 0 ∧
    key.Compare none (some (NewStrKey "/a")) = -1 ∧
    key.Compare (some (NewStrKey "/a")) none = 1 ∧
    (key.Compare (some (NewStrKey "/a")) (some (NewStrKey "/ab")) = 0 ↔
      Key.Equal (NewStrKey "/a") (some (NewStrKey "/ab")) = true) ∧
    (key.Compare (some (NewStrKey "/a")) (some (NewStrKey "/ab")) = -1 ↔
      Key.Less (NewStrKey "/a") (some (NewStrKey "/ab")) = true) ∧
    (key.Compare (some (NewStrKey "/a")) (some (NewStrKey "/ab")) = 1 ↔
      Key.Less (NewStrKey "/ab") (some (NewStrKey "/a")) = true) :=
  Compare_spec strKey_lawful (NewStrKey "/a") (NewStrKey "/ab")

/-! ### Range orders -/

theorem sample.backwards_valid {α : Type} : RangeOrder.Valid (sample.backwards (α := α)) :=
  fun m => List.reverse_perm m

theorem sample.buffered_wf : ds.OpsWF sample.buffered.buffer := by
  refine ⟨by unfold GoMap.WF GoMap.keys; decide, ?_⟩
  intro e he
  simp only [sample.buffered, List.mem_cons, List.mem_singleton, List.not_mem_nil, or_false] at he
  rcases he with he | he <;> rw [he] <;> rfl

theorem RangeOrder.id_valid {α : Type} : RangeOrder.Valid (id : RangeOrder α) :=
  fun m => List.Perm.refl m

/-! ### Go maps -/

section GoMapLemmas

variable {α : Type}

theorem GoMap.lookup_insert_self (m : GoMap α) (k : String) (v : α) :
    GoMap.lookup (GoMap.insert m k v) k = some v := by
  induction m with
  | nil => simp [GoMap.insert, GoMap.lookup]
  | cons e m ih =>
    obtain ⟨k1, v1⟩ := e
    by_cases h : k1 = k
    · simp [GoMap.insert, GoMap.lookup, h]
    · simp [GoMap.insert, GoMap.lookup, h, ih]

theorem GoMap.lookup_insert_ne (m : GoMap α) (k k2 : String) (v : α) (hne : k ≠ k2) :
    GoMap.lookup (GoMap.insert m k v) k2 = GoMap.lookup m k2 := by
  induction m with
  | nil => simp [GoMap.insert, GoMap.lookup, hne]
  | cons e m ih =>
    obtain ⟨k1, v1⟩ := e
    by_cases h : k1 = k
    · subst h
      simp [GoMap.insert, GoMap.lookup, hne]
    · by_cases h2 : k1 = k2
      · subst h2
        simp [GoMap.insert, GoMap.lookup, h]
      · simp [GoMap.insert, GoMap.lookup, h, h2, ih]

theorem GoMap.lookup_delete_self (m : GoMap α) (k : String) :
    GoMap.lookup (GoMap.delete m k) k = none := by
  induction m with
  | nil => simp [GoMap.delete, GoMap.lookup]
  | cons e m ih =>
    obtain ⟨k1, v1⟩ := e
    by_cases h : k1 = k
    · simp [GoMap.delete, h, ih]
    · simp [GoMap.delete, h, GoMap.lookup, ih]

theorem GoMap.lookup_delete_ne (m : GoMap α) (k k2 : String) (hne : k ≠ k2) :
    GoMap.lookup (GoMap.delete m k) k2 = GoMap.lookup m k2 := by
  induction m with
  | nil => simp [GoMap.delete, GoMap.lookup]
  | cons e m ih =>
    obtain ⟨k1, v1⟩ := e
    by_cases h : k1 = k
    · subst h
      simp [GoMap.delete, GoMap.lookup, hne, ih]
    · by_cases h2 : k1 = k2
      · subst h2
        simp [GoMap.delete, h, GoMap.lookup]
      · simp [GoMap.delete, h, GoMap.lookup, h2, ih]

theorem GoMap.delete_sublist (m : GoMap α) (k : String) : (GoMap.delete m k).Sublist m := by
  induction m with
  | nil => exact List.Sublist.slnil
  | cons e m ih =>
    obtain ⟨k1, v1⟩ := e
    by_cases h : k1 = k
    · simp only [GoMap.delete, h, if_true]
      exact List.Sublist.cons _ ih
    · simp only [GoMap.delete, h, if_false]
      exact List.Sublist.cons₂ _ ih

theorem GoMap.lookup_eq_none_of_not_mem (m : GoMap α) (k : String)
    (h : k ∉ GoMap.keys m) : GoMap.lookup m k = none := by
  induction m with
  | nil => rfl
  | cons e m ih =>
    obtain ⟨k1, v1⟩ := e
    simp only [GoMap.keys, List.map_cons, List.mem_cons, not_or] at h
    have hne : k1 ≠ k := fun hk => h.1 hk.symm
    simp only [GoMap.lookup, hne, if_false]
    exact ih h.2

theorem GoMap.mem_keys_of_lookup (m : GoMap α) (k : String) (v : α)
    (h : GoMap.lookup m k = some v) : k ∈ GoMap.keys m := by
  by_contra hk
  rw [GoMap.lookup_eq_none_of_not_mem m k hk] at h
  cases h

theorem GoMap.lookup_eq_some_iff (m : GoMap α) (hwf : GoMap.WF m) (k : String) (v : α) :
    GoMap.lookup m k = some v ↔ (k, v) ∈ m := by
  induction m with
  | nil => simp [GoMap.lookup]
  | cons e m ih =>
    obtain ⟨k1, v1⟩ := e
    have hnd : k1 ∉ GoMap.keys m ∧ GoMap.WF m := by
      simpa [GoMap.WF, GoMap.keys] using hwf
    by_cases h : k1 = k
    · subst h
      simp only [GoMap.lookup, if_true, List.mem_cons, Prod.mk.injEq, true_and, Option.some.injEq]
      constructor
      · intro hv
        exact Or.inl hv.symm
      · rintro (hv | hmem)
        · exact hv.symm
        · exact absurd (List.mem_map_of_mem Prod.fst hmem) hnd.1
    · simp only [GoMap.lookup, h, if_false, List.mem_cons, Prod.mk.injEq]
      rw [ih hnd.2]
      constructor
      · exact Or.inr
      · rintro (⟨hk, _⟩ | hmem)
        · exact absurd hk.symm h
        · exact hmem

theorem GoMap.WF_of_perm {l m : GoMap α} (hp : l.Perm m) (hwf : GoMap.WF m) : GoMap.WF l :=
  ((hp.map Prod.fst).nodup_iff).2 hwf

theorem GoMap.lookup_perm {l m : GoMap α} (hp : l.Perm m) (hwf : GoMap.WF m) (k : String) :
    GoMap.lookup l k = GoMap.lookup m k := by
  apply Option.ext
  intro v
  simp only [Option.mem_def]
  rw [GoMap.lookup_eq_some_iff l (GoMap.WF_of_perm hp hwf), GoMap.lookup_eq_some_iff m hwf]
  exact hp.mem_iff

theorem GoMap.keys_insert_of_mem (m : GoMap α) (k : String) (v : α) (h : k ∈ GoMap.keys m) :
    GoMap.keys (GoMap.insert m k v) = GoMap.keys m := by
  induction m with
  | nil => simp [GoMap.keys] at h
  | cons e m ih =>
    obtain ⟨k1, v1⟩ := e
    by_cases hk : k1 = k
    · simp [GoMap.insert, GoMap.keys, hk]
    · have hm : k ∈ GoMap.keys m := by
        simp only [GoMap.keys, List.map_cons, List.mem_cons] at h
        rcases h with h | h
        · exact absurd h.symm hk
        · exact h
      have := ih hm
      simp only [GoMap.keys] at this
      simp [GoMap.insert, GoMap.keys, hk, this]

theorem GoMap.keys_insert_of_not_mem (m : GoMap α) (k : String) (v : α)
    (h : k ∉ GoMap.keys m) : GoMap.keys (GoMap.insert m k v) = GoMap.keys m ++ [k] := by
  induction m with
  | nil => simp [GoMap.insert, GoMap.keys]
  | cons e m ih =>
    obtain ⟨k1, v1⟩ := e
    simp only [GoMap.keys, List.map_cons, List.mem_cons, not_or] at h
    have hk : k1 ≠ k := fun hk => h.1 hk.symm
    have := ih h.2
    simp only [GoMap.keys] at this
    simp [GoMap.insert, GoMap.keys, hk, this]

theorem GoMap.WF_insert (m : GoMap α) (k : String) (v : α) (hwf : GoMap.WF m) :
    GoMap.WF (GoMap.insert m k v) := by
  by_cases h : k ∈ GoMap.keys m
  · rw [GoMap.WF, GoMap.keys_insert_of_mem m k v h]
    exact hwf
  · rw [GoMap.WF, GoMap.keys_insert_of_not_mem m k v h]
    exact List.Nodup.append hwf (List.nodup_singleton k) (by simpa using h)

theorem GoMap.mem_insert (m : GoMap α) (k : String) (v : α) (e : String × α)
    (h : e ∈ GoMap.insert m k v) : e = (k, v) ∨ e ∈ m := by
  induction m with
  | nil =>
    simp only [GoMap.insert, List.mem_singleton] at h
    exact Or.inl h
  | cons e1 m ih =>
    obtain ⟨k1, v1⟩ := e1
    by_cases hk : k1 = k
    · simp only [GoMap.insert, hk, if_true, List.mem_cons] at h
      rcases h with h | h
      · exact Or.inl h
      · exact Or.inr (List.mem_cons_of_mem _ h)
    · simp only [GoMap.insert, hk, if_false, List.mem_cons] at h
      rcases h with h | h
      · exact Or.inr (by rw [h]; exact List.mem_cons_self _ _)
      · rcases ih h with h2 | h2
        · exact Or.inl h2
        · exact Or.inr (List.mem_cons_of_mem _ h2)

theorem GoMap.WF_delete (m : GoMap α) (k : String) (hwf : GoMap.WF m) :
    GoMap.WF (GoMap.delete m k) := by
  unfold GoMap.WF GoMap.keys
  exact List.Nodup.sublist (List.Sublist.map Prod.fst (GoMap.delete_sublist m k)) hwf

theorem GoMap.mem_delete (m : GoMap α) (k : String) (e : String × α)
    (h : e ∈ GoMap.delete m k) : e ∈ m :=
  (GoMap.delete_sublist m k).subset h

end GoMapLemmas

/-! ### Flush -/

section FlushLemmas

variable {K B W : Type}

theorem Flush_of_commit (c : ds.Batching K B W) (ord : RangeOrder (ds.op K))
    (d : autobatch.Datastore K W) (b b1 : B) (w w1 : W)
    (hB : c.Batch d.child = (Except.ok b, w))
    (hL : autobatch.flushLoop c (ord d.buffer) b w = (none, b1, w1)) :
    autobatch.Flush c ord d = ((c.batch.Commit b1 w1).1,
      { child := (c.batch.Commit b1 w1).2, buffer := [],
        maxBufferEntries := d.maxBufferEntries }) := by
  simp only [autobatch.Flush, hB, hL]

end FlushLemmas

/-- C1 (as stated, refuted): on a child whose batch fails to commit, `Flush` of a
two-entry buffer opens the batch, replays both ops, gets the commit error and
returns it, and the buffer afterwards is empty, not the buffer before. -/
theorem Flush_commit_error_keeps_buffer_counterexample :
    (sample.failingChild.batch.Commit
        (autobatch.flushLoop sample.failingChild sample.buffered.buffer
          (ds.NewBasicBatch (ds.failingStore (ds.Error.other "write failed")))
          sample.buffered.child).2.1
        sample.buffered.child).1 = some (ds.Error.other "write failed") ∧
    (autobatch.Flush sample.failingChild id sample.buffered).1
      = some (ds.Error.other "write failed") ∧
    (autobatch.Flush sample.failingChild id sample.buffered).2.buffer = [] ∧
    (autobatch.Flush sample.failingChild id sample.buffered).2.buffer ≠ sample.buffered.buffer := by
  decide

/-- C1 (amended): if `Flush` opens a batch, replays every buffered op into it and
the batch's `Commit` returns an error, then `Flush` returns that error, the child
is left as `Commit` left it, and the buffer after `Flush` is empty. -/
theorem Flush_commit_error_clears_buffer {K B W : Type} (c : ds.Batching K B W)
    (ord : RangeOrder (ds.op K)) (d : autobatch.Datastore K W) (b b1 : B) (w w1 : W)
    (err : ds.Error)
    (hB : c.Batch d.child = (Except.ok b, w))
    (hL : autobatch.flushLoop c (ord d.buffer) b w = (none, b1, w1))
    (hC : (c.batch.Commit b1 w1).1 = some err) :
    (autobatch.Flush c ord d).1 = some err ∧
    (autobatch.Flush c ord d).2.buffer = [] ∧
    (autobatch.Flush c ord d).2.child = (c.batch.Commit b1 w1).2 := by
  rw [Flush_of_commit c ord d b b1 w w1 hB hL]
  exact ⟨hC, rfl, rfl⟩

/-- Witness of C1 (amended) on the failing child and the two-entry buffer. -/
theorem Flush_commit_error_clears_buffer_witness :
    (autobatch.Flush sample.failingChild id sample.buffered).1
      = some (ds.Error.other "write failed") ∧
    (autobatch.Flush sample.failingChild id sample.buffered).2.buffer = [] ∧
    (autobatch.Flush sample.failingChild id sample.buffered).2.child
      = (sample.failingChild.batch.Commit
          (autobatch.flushLoop sample.failingChild (id sample.buffered.buffer)
            (ds.NewBasicBatch (ds.failingStore (ds.Error.other "write failed")))
            sample.buffered.child).2.1
          (autobatch.flushLoop sample.failingChild (id sample.buffered.buffer)
            (ds.NewBasicBatch (ds.failingStore (ds.Error.other "write failed")))
            sample.buffered.child).2.2).2 :=
  Flush_commit_error_clears_buffer sample.failingChild id sample.buffered
    (ds.NewBasicBatch (ds.failingStore (ds.Error.other "write failed")))
    (autobatch.flushLoop sample.failingChild (id sample.buffered.buffer)
      (ds.NewBasicBatch (ds.failingStore (ds.Error.other "write failed")))
      sample.buffered.child).2.1
    sample.buffered.child
    (autobatch.flushLoop sample.failingChild (id sample.buffered.buffer)
      (ds.NewBasicBatch (ds.failingStore (ds.Error.other "write failed")))
      sample.buffered.child).2.2
    (ds.Error.other "write failed") rfl rfl (by decide)

/-! ### Writes and reads through the buffer -/

section BufferLemmas

variable {K B W : Type} [Key K]

theorem GoMap.length_insert_of_mem {α : Type} (m : GoMap α) (k : String) (v : α)
    (h : k ∈ GoMap.keys m) : (GoMap.insert m k v).length = m.length := by
  have hk := congrArg List.length (GoMap.keys_insert_of_mem m k v h)
  simpa [GoMap.keys] using hk

theorem GoMap.length_insert_of_not_mem {α : Type} (m : GoMap α) (k : String) (v : α)
    (h : k ∉ GoMap.keys m) : (GoMap.insert m k v).length = m.length + 1 := by
  have hk := congrArg List.length (GoMap.keys_insert_of_not_mem m k v h)
  simpa [GoMap.keys] using hk

theorem GoMap.mem_keys_insert_self {α : Type} (m : GoMap α) (k : String) (v : α) :
    k ∈ GoMap.keys (GoMap.insert m k v) :=
  GoMap.mem_keys_of_lookup _ k v (GoMap.lookup_insert_self m k v)

theorem Put_of_le (c : ds.Batching K B W) (ord : RangeOrder (ds.op K)) (k : K) (val : ds.Bytes)
    (d : autobatch.Datastore K W)
    (h : ((GoMap.insert d.buffer (Key.String k)
      { key := k, delete := false, value := val }).length : Int) ≤ d.maxBufferEntries) :
    autobatch.Put c ord k val d = (none, { d with
      buffer := GoMap.insert d.buffer (Key.String k) { key := k, delete := false, value := val } }) := by
  simp only [autobatch.Put]
  rw [if_neg (not_lt.2 h)]

theorem Delete_of_le (c : ds.Batching K B W) (ord : RangeOrder (ds.op K)) (k : K)
    (d : autobatch.Datastore K W)
    (h : ((GoMap.insert d.buffer (Key.String k)
      { key := k, delete := true, value := [] }).length : Int) ≤ d.maxBufferEntries) :
    autobatch.Delete c ord k d = (none, { d with
      buffer := GoMap.insert d.buffer (Key.String k) { key := k, delete := true, value := [] } }) := by
  simp only [autobatch.Delete]
  rw [if_neg (not_lt.2 h)]

end BufferLemmas

/-- C4: last write wins for a delete over a value: for every key `k`, value `v1`
and child (whatever it holds), `Put(k, v1)` then `Delete(k)` then `Get(k)` fails
with `ErrNotFound` when no flush happens in between, that is when the buffer with
`k` inserted does not exceed `maxBufferEntries`. -/
theorem Put_Delete_Get_notFound {K B W : Type} [Key K] (c : ds.Batching K B W)
    (ordP ordD : RangeOrder (ds.op K)) (k : K) (v1 : ds.Bytes) (d : autobatch.Datastore K W)
    (hnf : ((GoMap.insert d.buffer (Key.String k)
      { key := k, delete := false, value := v1 }).length : Int) ≤ d.maxBufferEntries) :
    (autobatch.Get c k
      (autobatch.Delete c ordD k (autobatch.Put c ordP k v1 d).2).2).1
      = ([], some ds.Error.ErrNotFound) := by
  rw [Put_of_le c ordP k v1 d hnf]
  have hlen : ((GoMap.insert
      (GoMap.insert d.buffer (Key.String k) { key := k, delete := false, value := v1 })
      (Key.String k) { key := k, delete := true, value := [] }).length : Int)
      ≤ d.maxBufferEntries := by
    rw [GoMap.length_insert_of_mem _ _ _ (GoMap.mem_keys_insert_self _ _ _)]
    exact hnf
  rw [Delete_of_le c ordD k _ hlen]
  simp only [autobatch.Get, GoMap.lookup_insert_self]
  rfl

/-- Witness of C4: over a child that already holds `/a`, with `/a` and `/b`
buffered and room for four entries. -/
theorem Put_Delete_Get_notFound_witness :
    (autobatch.Get sample.mapChild (NewStrKey "/a")
      (autobatch.Delete sample.mapChild id (NewStrKey "/a")
        (autobatch.Put sample.mapChild id (NewStrKey "/a") [9] sample.buffered).2).2).1
      = ([], some ds.Error.ErrNotFound) :=
  Put_Delete_Get_notFound sample.mapChild id id (NewStrKey "/a") [9] sample.buffered (by decide)

/-- C6: reads of a buffered key are decided by the buffer alone: if the buffer holds
an op for `k`, then for a value op `Get`, `Has` and `GetSize` return the value,
`true` and its length with a nil error, for a delete op they return
`ErrNotFound`, `false` and `(-1, ErrNotFound)`; in both cases the decorator
(buffer and child) is unchanged. -/
theorem reads_of_buffered_key {K B W : Type} [Key K] (c : ds.Batching K B W) (k : K)
    (d : autobatch.Datastore K W) (o : ds.op K)
    (hbuf : GoMap.lookup d.buffer (Key.String k) = some o) :
    (o.delete = false →
      autobatch.Get c k d = ((o.value, none), d) ∧
      autobatch.Has c k d = ((true, none), d) ∧
      autobatch.GetSize c k d = (((o.value.length : Int), none), d)) ∧
    (o.delete = true →
      autobatch.Get c k d = (([], some ds.Error.ErrNotFound), d) ∧
      autobatch.Has c k d = ((false, none), d) ∧
      autobatch.GetSize c k d = ((-1, some ds.Error.ErrNotFound), d)) := by
  constructor
  · intro hd
    simp [autobatch.Get, autobatch.Has, autobatch.GetSize, hbuf, hd]
  · intro hd
    simp [autobatch.Get, autobatch.Has, autobatch.GetSize, hbuf, hd]

/-- Witness of C6: the buffered put of `/a` hides the child's value of `/a`. -/
theorem reads_of_buffered_key_witness :
    ((false = false →
      autobatch.Get sample.mapChild (NewStrKey "/a") sample.buffered
        = (([1, 2], none), sample.buffered) ∧
      autobatch.Has sample.mapChild (NewStrKey "/a") sample.buffered
        = ((true, none), sample.buffered) ∧
      autobatch.GetSize sample.mapChild (NewStrKey "/a") sample.buffered
        = ((2, none), sample.buffered)) ∧
    (false = true →
      autobatch.Get sample.mapChild (NewStrKey "/a") sample.buffered
        = (([], some ds.Error.ErrNotFound), sample.buffered) ∧
      autobatch.Has sample.mapChild (NewStrKey "/a") sample.buffered
        = ((false, none), sample.buffered) ∧
      autobatch.GetSize sample.mapChild (NewStrKey "/a") sample.buffered
        = ((-1, some ds.Error.ErrNotFound), sample.buffered))) :=
  reads_of_buffered_key sample.mapChild (NewStrKey "/a") sample.buffered
    { key := NewStrKey "/a", delete := false, value := [1, 2] } (by decide)

/-! ### Commit of a basic batch -/

section CommitLemmas

variable {K T : Type}

theorem recording_Put (tgt : ds.Datastore K T) (k : K) (v : ds.Bytes) (s : T × List (ds.Call K)) :
    (ds.recording tgt).Put k v s
      = ((tgt.Put k v s.1).1, ((tgt.Put k v s.1).2, s.2 ++ [ds.Call.Put k v (tgt.Put k v s.1).1])) :=
  rfl

theorem recording_Delete (tgt : ds.Datastore K T) (k : K) (s : T × List (ds.Call K)) :
    (ds.recording tgt).Delete k s
      = ((tgt.Delete k s.1).1, ((tgt.Delete k s.1).2, s.2 ++ [ds.Call.Delete k (tgt.Delete k s.1).1])) :=
  rfl

theorem commitLoop_recording (tgt : ds.Datastore K T) (L : List (String × ds.op K)) (t : T)
    (log : List (ds.Call K)) :
    ∃ calls : List (ds.Call K),
      ds.basicBatch.commitLoop (ds.recording tgt) L (t, log)
        = ((ds.basicBatch.commitLoop tgt L t).1,
            ((ds.basicBatch.commitLoop tgt L t).2, log ++ calls)) ∧
      List.Forall₂ (fun c e => ∃ err, c = ds.Call.ofOp e.2 err) calls (L.take calls.length) ∧
      (ds.basicBatch.commitLoop tgt L t).2 = calls.foldl (ds.Call.run tgt) t ∧
      ((ds.basicBatch.commitLoop tgt L t).1 = none →
        calls.length = L.length ∧ ∀ c ∈ calls, c.err = none) ∧
      (∀ err, (ds.basicBatch.commitLoop tgt L t).1 = some err →
        ∃ pre last, calls = pre ++ [last] ∧ last.err = some err ∧ ∀ x ∈ pre, x.err = none) := by
  induction L generalizing t log with
  | nil =>
    refine ⟨[], ?_, ?_, ?_, ?_, ?_⟩
    · simp [ds.basicBatch.commitLoop]
    · simp
    · simp [ds.basicBatch.commitLoop]
    · intro _
      simp
    · intro err h
      simp [ds.basicBatch.commitLoop] at h
  | cons e rest ih =>
    obtain ⟨s, o⟩ := e
    cases hd : o.delete with
    | true =>
      cases hr : tgt.Delete o.key t with
      | mk e1 t1 =>
        cases e1 with
        | some err1 =>
          refine ⟨[ds.Call.Delete o.key (some err1)], ?_, ?_, ?_, ?_, ?_⟩
          · simp [ds.basicBatch.commitLoop, recording_Put, recording_Delete, hd, hr]
          · simp [ds.Call.ofOp, hd]
          · simp [ds.basicBatch.commitLoop, hd, hr, ds.Call.run]
          · intro h
            simp [ds.basicBatch.commitLoop, hd, hr] at h
          · intro err h
            simp only [ds.basicBatch.commitLoop, hd, hr, if_true, Option.some.injEq] at h
            exact ⟨[], ds.Call.Delete o.key (some err1), rfl, by simp [ds.Call.err, h], by simp⟩
        | none =>
          obtain ⟨calls, h1, h2, h3, h4, h5⟩ := ih t1 (log ++ [ds.Call.Delete o.key none])
          refine ⟨ds.Call.Delete o.key none :: calls, ?_, ?_, ?_, ?_, ?_⟩
          · simp [ds.basicBatch.commitLoop, recording_Put, recording_Delete, hd, hr, h1]
          · simp only [List.length_cons, List.take_succ_cons]
            exact List.Forall₂.cons ⟨none, by simp [ds.Call.ofOp, hd]⟩ h2
          · simp [ds.basicBatch.commitLoop, hd, hr, ds.Call.run, h3]
          · intro h
            simp only [ds.basicBatch.commitLoop, hd, hr, if_true] at h
            obtain ⟨hl, hall⟩ := h4 h
            refine ⟨by simp [hl], ?_⟩
            intro c hc
            rcases List.mem_cons.1 hc with hc | hc
            · rw [hc]
              rfl
            · exact hall c hc
          · intro err h
            simp only [ds.basicBatch.commitLoop, hd, hr, if_true] at h
            obtain ⟨pre, last, hcalls, hlast, hpre⟩ := h5 err h
            refine ⟨ds.Call.Delete o.key none :: pre, last, by simp [hcalls], hlast, ?_⟩
            intro x hx
            rcases List.mem_cons.1 hx with hx | hx
            · rw [hx]
              rfl
            · exact hpre x hx
    | false =>
      cases hr : tgt.Put o.key o.value t with
      | mk e1 t1 =>
        cases e1 with
        | some err1 =>
          refine ⟨[ds.Call.Put o.key o.value (some err1)], ?_, ?_, ?_, ?_, ?_⟩
          · simp [ds.basicBatch.commitLoop, recording_Put, recording_Delete, hd, hr]
          · simp [ds.Call.ofOp, hd]
          · simp [ds.basicBatch.commitLoop, hd, hr, ds.Call.run]
          · intro h
            simp [ds.basicBatch.commitLoop, hd, hr] at h
          · intro err h
            simp only [ds.basicBatch.commitLoop, hd, hr, Bool.false_eq_true, if_false,
              Option.some.injEq] at h
            exact ⟨[], ds.Call.Put o.key o.value (some err1), rfl, by simp [ds.Call.err, h],
              by simp⟩
        | none =>
          obtain ⟨calls, h1, h2, h3, h4, h5⟩ := ih t1 (log ++ [ds.Call.Put o.key o.value none])
          refine ⟨ds.Call.Put o.key o.value none :: calls, ?_, ?_, ?_, ?_, ?_⟩
          · simp [ds.basicBatch.commitLoop, recording_Put, recording_Delete, hd, hr, h1]
          · simp only [List.length_cons, List.take_succ_cons]
            exact List.Forall₂.cons ⟨none, by simp [ds.Call.ofOp, hd]⟩ h2
          · simp [ds.basicBatch.commitLoop, hd, hr, ds.Call.run, h3]
          · intro h
            simp only [ds.basicBatch.commitLoop, hd, hr, Bool.false_eq_true, if_false] at h
            obtain ⟨hl, hall⟩ := h4 h
            refine ⟨by simp [hl], ?_⟩
            intro c hc
            rcases List.mem_cons.1 hc with hc | hc
            · rw [hc]
              rfl
            · exact hall c hc
          · intro err h
            simp only [ds.basicBatch.commitLoop, hd, hr, Bool.false_eq_true, if_false] at h
            obtain ⟨pre, last, hcalls, hlast, hpre⟩ := h5 err h
            refine ⟨ds.Call.Put o.key o.value none :: pre, last, by simp [hcalls], hlast, ?_⟩
            intro x hx
            rcases List.mem_cons.1 hx with hx | hx
            · rw [hx]
              rfl
            · exact hpre x hx

end CommitLemmas

/-- C8: `basicBatch.Commit` stops at the first error.  For every batch, range
order and target, observed through a recording target: the calls made are those
of an initial segment of the ops in range order and the target ends in the state
those calls leave; `Commit` returns nil iff every call it made succeeded, and then
it made a call for every op; if it returns an error, the last call made is the
one that returned exactly that error and every earlier call succeeded; and a call
that fails is the last call made, its error being the result of `Commit`. -/
theorem Commit_stops_at_first_error {K T : Type} (ord : RangeOrder (ds.op K))
    (bt : ds.basicBatch K T) (t : T) :
    ∃ calls : List (ds.Call K),
      ds.basicBatch.Commit ord { ops := bt.ops, target := ds.recording bt.target } (t, [])
        = ((ds.basicBatch.Commit ord bt t).1, ((ds.basicBatch.Commit ord bt t).2, calls)) ∧
      List.Forall₂ (fun c e => ∃ err, c = ds.Call.ofOp e.2 err) calls
        ((ord bt.ops).take calls.length) ∧
      (ds.basicBatch.Commit ord bt t).2 = calls.foldl (ds.Call.run bt.target) t ∧
      ((ds.basicBatch.Commit ord bt t).1 = none ↔ ∀ c ∈ calls, c.err = none) ∧
      ((ds.basicBatch.Commit ord bt t).1 = none → calls.length = (ord bt.ops).length) ∧
      (∀ err, (ds.basicBatch.Commit ord bt t).1 = some err →
        ∃ pre last, calls = pre ++ [last] ∧ last.err = some err ∧ ∀ x ∈ pre, x.err = none) ∧
      (∀ c ∈ calls, ∀ err, c.err = some err →
        (ds.basicBatch.Commit ord bt t).1 = some err ∧ ∃ pre, calls = pre ++ [c]) := by
  obtain ⟨calls, h1, h2, h3, h4, h5⟩ := commitLoop_recording bt.target (ord bt.ops) t []
  refine ⟨calls, ?_, h2, h3, ⟨fun h => (h4 h).2, ?_⟩, fun h => (h4 h).1, h5, ?_⟩
  · simpa [ds.basicBatch.Commit] using h1
  · intro hall
    cases hres : (ds.basicBatch.Commit ord bt t).1 with
    | none => rfl
    | some err =>
      obtain ⟨pre, last, hcalls, hlast, _⟩ := h5 err hres
      have hmem : last ∈ calls := by
        rw [hcalls]
        simp
      rw [hall last hmem] at hlast
      cases hlast
  · intro c hc err hcerr
    cases hres : (ds.basicBatch.Commit ord bt t).1 with
    | none =>
      have := (h4 hres).2 c hc
      rw [this] at hcerr
      cases hcerr
    | some err2 =>
      obtain ⟨pre, last, hcalls, hlast, hpre⟩ := h5 err2 hres
      rw [hcalls] at hc
      rcases List.mem_append.1 hc with hc | hc
      · rw [hpre c hc] at hcerr
        cases hcerr
      · simp only [List.mem_singleton] at hc
        subst hc
        rw [hlast] at hcerr
        exact ⟨hcerr, pre, hcalls⟩

/-! ### Commit into the map store -/

section MapCommitLemmas

variable {K : Type} [Key K]

theorem OpsWF_nil : ds.OpsWF ([] : GoMap (ds.op K)) := by
  refine ⟨?_, ?_⟩
  · simp [GoMap.WF, GoMap.keys]
  · intro e he
    cases he

theorem OpsWF_of_perm {l m : GoMap (ds.op K)} (hp : l.Perm m) (hwf : ds.OpsWF m) : ds.OpsWF l :=
  ⟨GoMap.WF_of_perm hp hwf.1, fun e he => hwf.2 e (hp.mem_iff.1 he)⟩

theorem OpsWF_tail {e : String × ds.op K} {m : GoMap (ds.op K)} (hwf : ds.OpsWF (e :: m)) :
    e.1 ∉ GoMap.keys m ∧ e.1 = Key.String e.2.key ∧ ds.OpsWF m := by
  obtain ⟨hnd, hkey⟩ := hwf
  have h : e.1 ∉ GoMap.keys m ∧ GoMap.WF m := by
    simpa [GoMap.WF, GoMap.keys] using hnd
  exact ⟨h.1, hkey e (List.mem_cons_self _ _), h.2, fun x hx => hkey x (List.mem_cons_of_mem _ hx)⟩

theorem OpsWF_insert (m : GoMap (ds.op K)) (o : ds.op K) (hwf : ds.OpsWF m) :
    ds.OpsWF (GoMap.insert m (Key.String o.key) o) := by
  refine ⟨GoMap.WF_insert m _ o hwf.1, ?_⟩
  intro e he
  rcases GoMap.mem_insert m _ o e he with h | h
  · rw [h]
  · exact hwf.2 e h

theorem OpsWF_delete (m : GoMap (ds.op K)) (k : String) (hwf : ds.OpsWF m) :
    ds.OpsWF (GoMap.delete m k) :=
  ⟨GoMap.WF_delete m k hwf.1, fun e he => hwf.2 e (GoMap.mem_delete m k e he)⟩

/-- One op applied to the map store. -/
theorem mapStore_apply (o : ds.op K) (s : ds.MapDatastore) :
    (if o.delete then (ds.MapDatastore.store (K := K)).Delete o.key s
      else (ds.MapDatastore.store (K := K)).Put o.key o.value s)
      = (none, if o.delete then GoMap.delete s (Key.String o.key)
          else GoMap.insert s (Key.String o.key) o.value) := by
  cases hd : o.delete <;> simp [ds.MapDatastore.store]

theorem mapStore_apply_lookup (o : ds.op K) (s : ds.MapDatastore) (ks : String) :
    GoMap.lookup (if o.delete then GoMap.delete s (Key.String o.key)
      else GoMap.insert s (Key.String o.key) o.value) ks
      = if Key.String o.key = ks then o.effect else GoMap.lookup s ks := by
  by_cases hk : Key.String o.key = ks
  · subst hk
    cases hd : o.delete <;>
      simp [ds.op.effect, hd, GoMap.lookup_delete_self, GoMap.lookup_insert_self]
  · cases hd : o.delete <;>
      simp [hk, GoMap.lookup_delete_ne _ _ _ hk, GoMap.lookup_insert_ne _ _ _ _ hk]

/-- Committing well-formed ops into the map store never fails and leaves, under
every key string, the effect of the op stored for it, or the old content. -/
theorem commitLoop_map (L : List (String × ds.op K)) (hwf : ds.OpsWF L) (s : ds.MapDatastore) :
    (ds.basicBatch.commitLoop (ds.MapDatastore.store (K := K)) L s).1 = none ∧
    ∀ ks, GoMap.lookup (ds.basicBatch.commitLoop (ds.MapDatastore.store (K := K)) L s).2 ks
      = match GoMap.lookup L ks with
        | some o => o.effect
        | none => GoMap.lookup s ks := by
  induction L generalizing s with
  | nil =>
    refine ⟨rfl, ?_⟩
    intro ks
    simp [ds.basicBatch.commitLoop, GoMap.lookup]
  | cons e rest ih =>
    obtain ⟨k1, o⟩ := e
    obtain ⟨hnot, hkey, hrest⟩ := OpsWF_tail hwf
    simp only at hnot hkey
    simp only [ds.basicBatch.commitLoop, mapStore_apply]
    obtain ⟨h1, h2⟩ := ih hrest
      (if o.delete then GoMap.delete s (Key.String o.key)
        else GoMap.insert s (Key.String o.key) o.value)
    refine ⟨h1, ?_⟩
    intro ks
    rw [h2 ks]
    by_cases hk : k1 = ks
    · subst hk
      rw [GoMap.lookup_eq_none_of_not_mem rest k1 hnot]
      simp only [GoMap.lookup, if_true]
      rw [mapStore_apply_lookup, if_pos hkey.symm]
    · simp only [GoMap.lookup, hk, if_false]
      cases hl : GoMap.lookup rest ks with
      | some o2 => rfl
      | none =>
        simp only
        rw [mapStore_apply_lookup, if_neg (by rw [← hkey]; exact hk)]

/-- Through the recording target, a commit into the map store makes exactly one
successful call per op, in range order. -/
theorem commitLoop_map_recording (L : List (String × ds.op K)) (s : ds.MapDatastore)
    (log : List (ds.Call K)) :
    ds.basicBatch.commitLoop (ds.recording (ds.MapDatastore.store (K := K))) L (s, log)
      = (none, ((ds.basicBatch.commitLoop (ds.MapDatastore.store (K := K)) L s).2,
          log ++ L.map (fun e => ds.Call.ofOp e.2 none))) := by
  induction L generalizing s log with
  | nil => simp [ds.basicBatch.commitLoop]
  | cons e rest ih =>
    obtain ⟨k1, o⟩ := e
    cases hd : o.delete with
    | true =>
      simp [ds.basicBatch.commitLoop, recording_Delete, hd, ds.MapDatastore.store, ds.Call.ofOp]
      have := ih (GoMap.delete s (Key.String o.key)) (log ++ [ds.Call.Delete o.key none])
      simpa [ds.MapDatastore.store] using this
    | false =>
      simp [ds.basicBatch.commitLoop, recording_Put, hd, ds.MapDatastore.store, ds.Call.ofOp]
      have := ih (GoMap.insert s (Key.String o.key) o.value)
        (log ++ [ds.Call.Put o.key o.value none])
      simpa [ds.MapDatastore.store] using this

end MapCommitLemmas

/-! ### Writes to a basic batch -/

theorem Write.op_key {K : Type} (w : ds.Write K) : w.op.key = w.key := by
  cases w <;> rfl

theorem Write.op_effect {K : Type} (w : ds.Write K) : w.op.effect = w.effect := by
  cases w <;> rfl

theorem Write.ofOp_op {K : Type} (w : ds.Write K) : ds.Call.ofOp w.op none = w.call := by
  cases w <;> rfl

section WritesLemmas

variable {K T : Type} [Key K]

theorem write_ops (bt : ds.basicBatch K T) (w : ds.Write K) :
    (ds.basicBatch.write bt w).ops = GoMap.insert bt.ops (Key.String w.key) w.op ∧
    (ds.basicBatch.write bt w).target = bt.target := by
  cases w <;> exact ⟨rfl, rfl⟩

theorem Write.call_keyString (w : ds.Write K) : w.call.keyString = Key.String w.key := by
  cases w <;> rfl

theorem writes_append (bt : ds.basicBatch K T) (ws : List (ds.Write K)) (w : ds.Write K) :
    ds.basicBatch.writes bt (ws ++ [w]) = ds.basicBatch.write (ds.basicBatch.writes bt ws) w := by
  simp [ds.basicBatch.writes, List.foldl_append]

theorem lastWrite_append (ws : List (ds.Write K)) (w : ds.Write K) (ks : String) :
    ds.lastWrite (ws ++ [w]) ks = if Key.String w.key = ks then some w else ds.lastWrite ws ks := by
  by_cases h : Key.String w.key = ks
  · simp [ds.lastWrite, List.find?, h]
  · simp [ds.lastWrite, List.find?, h]

theorem lastWrite_some (ws : List (ds.Write K)) (ks : String) (w : ds.Write K)
    (h : ds.lastWrite ws ks = some w) : Key.String w.key = ks ∧ w ∈ ws := by
  induction ws using List.reverseRecOn with
  | nil => simp [ds.lastWrite] at h
  | append_singleton ws w1 ih =>
    rw [lastWrite_append] at h
    by_cases hk : Key.String w1.key = ks
    · rw [if_pos hk] at h
      cases h
      exact ⟨hk, by simp⟩
    · rw [if_neg hk] at h
      obtain ⟨h1, h2⟩ := ih h
      exact ⟨h1, by simp [h2]⟩

theorem lastWrite_of_mem (ws : List (ds.Write K)) (w : ds.Write K) (h : w ∈ ws) :
    ∃ w2, ds.lastWrite ws (Key.String w.key) = some w2 := by
  induction ws using List.reverseRecOn with
  | nil => cases h
  | append_singleton ws w1 ih =>
    rw [lastWrite_append]
    by_cases hk : Key.String w1.key = Key.String w.key
    · exact ⟨w1, by rw [if_pos hk]⟩
    · rw [if_neg hk]
      rcases List.mem_append.1 h with h1 | h1
      · exact ih h1
      · simp only [List.mem_singleton] at h1
        rw [h1] at hk
        exact absurd rfl hk

/-- The ops of a batch after a sequence of writes on a new batch: a well-formed map
holding, for every key string, the op of the last write to it. -/
theorem writes_ops (tgt : ds.Datastore K T) (ws : List (ds.Write K)) :
    ds.OpsWF (ds.basicBatch.writes (ds.NewBasicBatch tgt) ws).ops ∧
    (ds.basicBatch.writes (ds.NewBasicBatch tgt) ws).target = tgt ∧
    ∀ ks, GoMap.lookup (ds.basicBatch.writes (ds.NewBasicBatch tgt) ws).ops ks
      = (ds.lastWrite ws ks).map ds.Write.op := by
  induction ws using List.reverseRecOn with
  | nil =>
    refine ⟨OpsWF_nil, rfl, ?_⟩
    intro ks
    simp [ds.basicBatch.writes, ds.NewBasicBatch, GoMap.lookup, ds.lastWrite]
  | append_singleton ws w ih =>
    obtain ⟨h1, h2, h3⟩ := ih
    rw [writes_append]
    obtain ⟨ho, ht⟩ := write_ops (ds.basicBatch.writes (ds.NewBasicBatch tgt) ws) w
    rw [ho, ht]
    refine ⟨?_, h2, ?_⟩
    · have := OpsWF_insert _ w.op h1
      rw [Write.op_key] at this
      exact this
    · intro ks
      rw [lastWrite_append]
      by_cases hk : Key.String w.key = ks
      · subst hk
        simp [GoMap.lookup_insert_self]
      · rw [GoMap.lookup_insert_ne _ _ _ _ hk, if_neg hk]
        exact h3 ks

theorem writes_ops_eq (tgt1 : ds.Datastore K T) {T2 : Type} (tgt2 : ds.Datastore K T2)
    (ws : List (ds.Write K)) :
    (ds.basicBatch.writes (ds.NewBasicBatch tgt1) ws).ops
      = (ds.basicBatch.writes (ds.NewBasicBatch tgt2) ws).ops := by
  induction ws using List.reverseRecOn with
  | nil => rfl
  | append_singleton ws w ih =>
    rw [writes_append, writes_append, (write_ops _ w).1, (write_ops _ w).1, ih]

end WritesLemmas

/-- C7: `basicBatch` collapses writes to the same key to the last write.  For every
sequence of `Put`/`Delete` calls on a new basic batch over a map store, every
content of the store and every range order: `Commit` returns nil; observed
through a recording target, it makes exactly one call per distinct key string of
the sequence, namely the successful call of the last write to that key string;
and the store afterwards holds, under a written key string, what its last write
leaves (the value, or nothing after a delete) and is unchanged elsewhere. -/
theorem Commit_last_write_wins {K : Type} [Key K] (ord : RangeOrder (ds.op K))
    (hord : RangeOrder.Valid ord) (ws : List (ds.Write K)) (s : ds.MapDatastore) :
    (ds.basicBatch.Commit ord
      (ds.basicBatch.writes (ds.NewBasicBatch ds.MapDatastore.store) ws) s).1 = none ∧
    (∃ calls : List (ds.Call K),
      ds.basicBatch.Commit ord
        (ds.basicBatch.writes (ds.NewBasicBatch (ds.recording ds.MapDatastore.store)) ws) (s, [])
        = (none, ((ds.basicBatch.Commit ord
            (ds.basicBatch.writes (ds.NewBasicBatch ds.MapDatastore.store) ws) s).2, calls)) ∧
      (calls.map ds.Call.keyString).Perm ((ws.map (fun w => Key.String w.key)).dedup) ∧
      ∀ c, c ∈ calls ↔ ∃ w, ds.lastWrite ws (Key.String w.key) = some w ∧ c = w.call) ∧
    (∀ ks, GoMap.lookup (ds.basicBatch.Commit ord
        (ds.basicBatch.writes (ds.NewBasicBatch ds.MapDatastore.store) ws) s).2 ks
      = ds.contentAfter ws ks (GoMap.lookup s ks)) := by
  obtain ⟨hwf, htgt, hlook⟩ := writes_ops (ds.MapDatastore.store (K := K)) ws
  obtain ⟨_, htgt2, _⟩ := writes_ops (ds.recording (ds.MapDatastore.store (K := K))) ws
  have hops := writes_ops_eq (ds.recording (ds.MapDatastore.store (K := K)))
    (ds.MapDatastore.store (K := K)) ws
  generalize hbt : ds.basicBatch.writes (ds.NewBasicBatch (ds.MapDatastore.store (K := K))) ws = bt
    at hwf htgt hlook hops
  have hperm := hord bt.ops
  have hwfL : ds.OpsWF (ord bt.ops) := OpsWF_of_perm hperm hwf
  have hlookL : ∀ ks, GoMap.lookup (ord bt.ops) ks = (ds.lastWrite ws ks).map ds.Write.op := by
    intro ks
    rw [GoMap.lookup_perm hperm hwf.1 ks]
    exact hlook ks
  obtain ⟨hnone, hfinal⟩ := commitLoop_map (ord bt.ops) hwfL s
  have hmemL : ∀ e, e ∈ ord bt.ops ↔
      ∃ w, ds.lastWrite ws (Key.String w.key) = some w ∧ e = (Key.String w.key, w.op) := by
    intro e
    obtain ⟨k1, o⟩ := e
    rw [← GoMap.lookup_eq_some_iff _ hwfL.1, hlookL]
    constructor
    · intro h
      cases hw : ds.lastWrite ws k1 with
      | none => simp [hw] at h
      | some w =>
        rw [hw] at h
        simp only [Option.map_some', Option.some.injEq] at h
        have hk := (lastWrite_some ws k1 w hw).1
        subst hk
        exact ⟨w, hw, by rw [h]⟩
    · rintro ⟨w, hw, he⟩
      simp only [Prod.mk.injEq] at he
      rw [he.1, hw, he.2]
      rfl
  refine ⟨?_, ⟨(ord bt.ops).map (fun e => ds.Call.ofOp e.2 none), ?_, ?_, ?_⟩, ?_⟩
  · simpa [ds.basicBatch.Commit, htgt] using hnone
  · have := commitLoop_map_recording (K := K) (ord bt.ops) s []
    simp only [ds.basicBatch.Commit, htgt, htgt2, hops]
    simpa using this
  · have hkeys : ((ord bt.ops).map (fun e => ds.Call.ofOp e.2 none)).map ds.Call.keyString
        = GoMap.keys (ord bt.ops) := by
      simp only [List.map_map, GoMap.keys]
      apply List.map_congr_left
      intro e he
      obtain ⟨w, _, hw⟩ := (hmemL e).1 he
      rw [hw]
      simp [Write.ofOp_op, Write.call_keyString]
    rw [hkeys]
    refine (List.perm_ext_iff_of_nodup hwfL.1 (List.nodup_dedup _)).2 ?_
    intro ks
    simp only [GoMap.keys, List.mem_map, List.mem_dedup]
    constructor
    · rintro ⟨e, he, hk⟩
      obtain ⟨w, hw, hew⟩ := (hmemL e).1 he
      refine ⟨w, (lastWrite_some ws _ w hw).2, ?_⟩
      rw [← hk, hew]
    · rintro ⟨w, hw, hk⟩
      obtain ⟨w2, hw2⟩ := lastWrite_of_mem ws w hw
      have hk2 := (lastWrite_some ws _ w2 hw2).1
      refine ⟨(Key.String w2.key, w2.op), (hmemL _).2 ⟨w2, ?_, rfl⟩, ?_⟩
      · rw [hk2]
        exact hw2
      · simp only
        rw [hk2, hk]
  · intro c
    simp only [List.mem_map]
    constructor
    · rintro ⟨e, he, hc⟩
      obtain ⟨w, hw, hew⟩ := (hmemL e).1 he
      refine ⟨w, hw, ?_⟩
      rw [← hc, hew]
      exact Write.ofOp_op w
    · rintro ⟨w, hw, hc⟩
      exact ⟨(Key.String w.key, w.op), (hmemL _).2 ⟨w, hw, rfl⟩, by rw [hc]; exact Write.ofOp_op w⟩
  · intro ks
    have := hfinal ks
    simp only [ds.basicBatch.Commit, htgt]
    rw [this, hlookL, ds.contentAfter]
    cases hw : ds.lastWrite ws ks with
    | none => rfl
    | some w => exact Write.op_effect w

/-- Witness of C7: `Put(/a, 1)`, `Put(/b, 2)`, `Delete(/a)` committed back to front
into a store holding `/a`. -/
theorem Commit_last_write_wins_witness :
    (ds.basicBatch.Commit sample.backwards
      (ds.basicBatch.writes (ds.NewBasicBatch ds.MapDatastore.store) sample.writes)
      [("/a", [7])]).1 = none ∧
    (∃ calls : List (ds.Call StrKey),
      ds.basicBatch.Commit sample.backwards
        (ds.basicBatch.writes (ds.NewBasicBatch (ds.recording ds.MapDatastore.store))
          sample.writes) ([("/a", [7])], [])
        = (none, ((ds.basicBatch.Commit sample.backwards
            (ds.basicBatch.writes (ds.NewBasicBatch ds.MapDatastore.store) sample.writes)
            [("/a", [7])]).2, calls)) ∧
      (calls.map ds.Call.keyString).Perm
        ((sample.writes.map (fun w => Key.String w.key)).dedup) ∧
      ∀ c, c ∈ calls ↔
        ∃ w, ds.lastWrite sample.writes (Key.String w.key) = some w ∧ c = w.call) ∧
    (∀ ks, GoMap.lookup (ds.basicBatch.Commit sample.backwards
        (ds.basicBatch.writes (ds.NewBasicBatch ds.MapDatastore.store) sample.writes)
        [("/a", [7])]).2 ks
      = ds.contentAfter sample.writes ks (GoMap.lookup [("/a", [7])] ks)) :=
  Commit_last_write_wins sample.backwards sample.backwards_valid sample.writes [("/a", [7])]

/-! ### The decorator over the map store -/

theorem op.write_op_effect {K : Type} (o : ds.op K) : o.write.op.effect = o.effect := by
  cases hd : o.delete <;> simp [ds.op.write, ds.Write.op, ds.op.effect, hd]

theorem op.write_key {K : Type} (o : ds.op K) : o.write.key = o.key := by
  cases hd : o.delete <;> simp [ds.op.write, ds.Write.key, hd]

section MapChildLemmas

variable {K : Type} [Key K]

theorem lastWrite_cons (w : ds.Write K) (ws : List (ds.Write K)) (ks : String) :
    ds.lastWrite (w :: ws) ks
      = (ds.lastWrite ws ks).or (if Key.String w.key = ks then some w else none) := by
  by_cases h : Key.String w.key = ks
  · simp [ds.lastWrite, List.find?_append, List.find?, h]
  · simp [ds.lastWrite, List.find?_append, List.find?, h]

/-- Over a store with basic batches, the loop of `Flush` never fails, leaves the
store alone and makes one batch write per entry. -/
theorem flushLoop_basic {T : Type} (st : ds.Datastore K T) (ordC : RangeOrder (ds.op K))
    (L : List (String × ds.op K)) (b : ds.basicBatch K T) (t : T) :
    autobatch.flushLoop (ds.basicBatching st ordC) L b t
      = (none, ds.basicBatch.writes b (L.map (fun e => e.2.write)), t) := by
  induction L generalizing b with
  | nil => rfl
  | cons e rest ih =>
    obtain ⟨k1, o⟩ := e
    cases hd : o.delete with
    | true =>
      simp only [autobatch.flushLoop, ds.basicBatching, hd, if_true, ds.basicBatch.Delete]
      have := ih (ds.basicBatch.Delete b o.key).2
      simp only [ds.basicBatching, ds.basicBatch.Delete] at this
      rw [this]
      simp [ds.basicBatch.writes, ds.op.write, hd, ds.basicBatch.write, ds.basicBatch.Delete]
    | false =>
      simp only [autobatch.flushLoop, ds.basicBatching, hd, Bool.false_eq_true, if_false,
        ds.basicBatch.Put]
      have := ih (ds.basicBatch.Put b o.key o.value).2
      simp only [ds.basicBatching, ds.basicBatch.Put] at this
      rw [this]
      simp [ds.basicBatch.writes, ds.op.write, hd, ds.basicBatch.write, ds.basicBatch.Put]

/-- In a well-formed list of ops the last write to a key string is the write of
the op stored under it. -/
theorem lastWrite_of_OpsWF (L : List (String × ds.op K)) (hwf : ds.OpsWF L) (ks : String) :
    ds.lastWrite (L.map (fun e => e.2.write)) ks = (GoMap.lookup L ks).map ds.op.write := by
  induction L with
  | nil => simp [ds.lastWrite, GoMap.lookup]
  | cons e rest ih =>
    obtain ⟨k1, o⟩ := e
    obtain ⟨hnot, hkey, hrest⟩ := OpsWF_tail hwf
    simp only at hnot hkey
    rw [List.map_cons, lastWrite_cons, ih hrest, op.write_key]
    by_cases hk : k1 = ks
    · subst hk
      rw [GoMap.lookup_eq_none_of_not_mem rest k1 hnot]
      simp [GoMap.lookup, hkey.symm]
    · have hk2 : ¬ Key.String o.key = ks := by
        rw [← hkey]
        exact hk
      simp only [GoMap.lookup, hk, hk2, if_false]
      cases GoMap.lookup rest ks <;> rfl

/-- A batch of the map store filled from a well-formed list of ops and committed:
nothing fails, and the store holds under every key string the effect of the op
listed for it, or its old content. -/
theorem commit_of_ops (ordC : RangeOrder (ds.op K)) (hC : RangeOrder.Valid ordC)
    (L : List (String × ds.op K)) (hwf : ds.OpsWF L) (s : ds.MapDatastore) :
    (ds.basicBatch.Commit ordC
      (ds.basicBatch.writes (ds.NewBasicBatch ds.MapDatastore.store)
        (L.map (fun e => e.2.write))) s).1 = none ∧
    ∀ ks, GoMap.lookup (ds.basicBatch.Commit ordC
      (ds.basicBatch.writes (ds.NewBasicBatch ds.MapDatastore.store)
        (L.map (fun e => e.2.write))) s).2 ks
      = match GoMap.lookup L ks with
        | some o => o.effect
        | none => GoMap.lookup s ks := by
  obtain ⟨hwfb, htgt, hlook⟩ :=
    writes_ops (ds.MapDatastore.store (K := K)) (L.map (fun e => e.2.write))
  generalize ds.basicBatch.writes (ds.NewBasicBatch (ds.MapDatastore.store (K := K)))
    (L.map (fun e => e.2.write)) = bt at hwfb htgt hlook
  have hperm := hC bt.ops
  obtain ⟨h1, h2⟩ := commitLoop_map (ordC bt.ops) (OpsWF_of_perm hperm hwfb) s
  simp only [ds.basicBatch.Commit, htgt]
  refine ⟨h1, ?_⟩
  intro ks
  rw [h2 ks, GoMap.lookup_perm hperm hwfb.1 ks, hlook ks, lastWrite_of_OpsWF L hwf ks]
  cases GoMap.lookup L ks with
  | none => rfl
  | some o => exact op.write_op_effect o

/-- `Flush` over the map store: it succeeds, empties the buffer and leaves the
child holding what the decorator showed before. -/
theorem Flush_map (ordB ordC : RangeOrder (ds.op K)) (hB : RangeOrder.Valid ordB)
    (hC : RangeOrder.Valid ordC) (d : autobatch.Datastore K ds.MapDatastore)
    (hwf : ds.OpsWF d.buffer) :
    (autobatch.Flush (ds.basicBatching ds.MapDatastore.store ordC) ordB d).1 = none ∧
    (autobatch.Flush (ds.basicBatching ds.MapDatastore.store ordC) ordB d).2.buffer = [] ∧
    (autobatch.Flush (ds.basicBatching ds.MapDatastore.store ordC) ordB d).2.maxBufferEntries
      = d.maxBufferEntries ∧
    ∀ ks, GoMap.lookup
      (autobatch.Flush (ds.basicBatching ds.MapDatastore.store ordC) ordB d).2.child ks
      = autobatch.view d ks := by
  have hperm := hB d.buffer
  obtain ⟨h1, h2⟩ := commit_of_ops ordC hC (ordB d.buffer) (OpsWF_of_perm hperm hwf) d.child
  have hF := Flush_of_commit (ds.basicBatching ds.MapDatastore.store ordC) ordB d
    (ds.NewBasicBatch ds.MapDatastore.store) _ d.child d.child rfl
    (flushLoop_basic ds.MapDatastore.store ordC (ordB d.buffer) _ d.child)
  rw [hF]
  refine ⟨h1, rfl, rfl, ?_⟩
  intro ks
  have := h2 ks
  rw [GoMap.lookup_perm hperm hwf.1 ks] at this
  exact this

end MapChildLemmas

/-! ### Sync over the map store -/

section SyncLemmas

variable {K : Type} [Key K]

theorem GoMap.lookup_isSome_of_mem_keys {α : Type} (m : GoMap α) (k : String)
    (h : k ∈ GoMap.keys m) : ∃ v, GoMap.lookup m k = some v := by
  cases hl : GoMap.lookup m k with
  | some v => exact ⟨v, rfl⟩
  | none =>
    exfalso
    induction m with
    | nil => simp [GoMap.keys] at h
    | cons e m ih =>
      obtain ⟨k1, v1⟩ := e
      by_cases hk : k1 = k
      · simp [GoMap.lookup, hk] at hl
      · simp only [GoMap.lookup, hk, if_false] at hl
        simp only [GoMap.keys, List.map_cons, List.mem_cons] at h
        rcases h with h | h
        · exact hk h.symm
        · exact ih h hl

theorem GoMap.lookup_foldl_delete {α β : Type} (D : List (String × β)) (buf : GoMap α)
    (ks : String) :
    GoMap.lookup (D.foldl (fun m e => GoMap.delete m e.1) buf) ks
      = if ks ∈ D.map Prod.fst then none else GoMap.lookup buf ks := by
  induction D generalizing buf with
  | nil => simp
  | cons e D ih =>
    simp only [List.foldl_cons, List.map_cons, List.mem_cons]
    rw [ih]
    by_cases h1 : ks ∈ D.map Prod.fst
    · simp [h1]
    · by_cases h2 : ks = e.1
      · subst h2
        simp [GoMap.lookup_delete_self]
      · simp only [h1, h2, or_self, if_false]
        exact GoMap.lookup_delete_ne buf e.1 ks (fun h => h2 h.symm)

theorem OpsWF_foldl_delete {β : Type} (D : List (String × β)) (buf : GoMap (ds.op K))
    (hwf : ds.OpsWF buf) : ds.OpsWF (D.foldl (fun m e => GoMap.delete m e.1) buf) := by
  induction D generalizing buf with
  | nil => exact hwf
  | cons e D ih => exact ih _ (OpsWF_delete buf e.1 hwf)

theorem OpsWF_filter (L : GoMap (ds.op K)) (p : String × ds.op K → Bool) (hwf : ds.OpsWF L) :
    ds.OpsWF (L.filter p) :=
  ⟨List.Nodup.sublist (List.Sublist.map Prod.fst (List.filter_sublist L)) hwf.1,
    fun e he => hwf.2 e (List.mem_of_mem_filter he)⟩

theorem GoMap.lookup_filter {α : Type} (L : GoMap α) (hwf : GoMap.WF L)
    (p : String × α → Bool) (ks : String) :
    GoMap.lookup (L.filter p) ks = (GoMap.lookup L ks).filter (fun v => p (ks, v)) := by
  induction L with
  | nil => simp [GoMap.lookup]
  | cons e L ih =>
    obtain ⟨k1, v1⟩ := e
    have hnd : k1 ∉ GoMap.keys L ∧ GoMap.WF L := by
      simpa [GoMap.WF, GoMap.keys] using hwf
    by_cases hk : k1 = ks
    · subst hk
      have hnone : GoMap.lookup L k1 = none := GoMap.lookup_eq_none_of_not_mem L k1 hnd.1
      cases hp : p (k1, v1) with
      | true => simp [List.filter_cons, hp, GoMap.lookup, Option.filter]
      | false =>
        simp only [List.filter_cons, hp, Bool.false_eq_true, if_false, GoMap.lookup, if_true]
        rw [ih hnd.2, hnone]
        simp [Option.filter, hp]
    · cases hp : p (k1, v1) with
      | true => simp [List.filter_cons, hp, GoMap.lookup, hk, ih hnd.2]
      | false => simp [List.filter_cons, hp, GoMap.lookup, hk, ih hnd.2]

/-- Over a store with basic batches, the loop of `Sync` never fails and leaves the
store alone: the entries at or under the prefix are deleted from the buffer and
written to the batch. -/
theorem syncLoop_basic {T : Type} (st : ds.Datastore K T) (ordC : RangeOrder (ds.op K))
    (pfx : Option K) (L : List (String × ds.op K)) (buf : GoMap (ds.op K))
    (b : ds.basicBatch K T) (t : T) :
    autobatch.syncLoop (ds.basicBatching st ordC) pfx L buf b t
      = (none,
          (L.filter (fun e => autobatch.atOrUnder pfx e.2.key)).foldl
            (fun m e => GoMap.delete m e.1) buf,
          ds.basicBatch.writes b
            ((L.filter (fun e => autobatch.atOrUnder pfx e.2.key)).map (fun e => e.2.write)),
          t) := by
  induction L generalizing buf b with
  | nil => rfl
  | cons e rest ih =>
    obtain ⟨k1, o⟩ := e
    cases hu : autobatch.atOrUnder pfx o.key with
    | false =>
      have hu2 : (Key.Equal o.key pfx || Key.IsDescendantOf o.key pfx) = false := hu
      simp only [autobatch.syncLoop, hu2, Bool.not_false, if_true, List.filter_cons, hu,
        Bool.false_eq_true, if_false]
      exact ih buf b
    | true =>
      have hu2 : (Key.Equal o.key pfx || Key.IsDescendantOf o.key pfx) = true := hu
      cases hd : o.delete with
      | true =>
        simp only [autobatch.syncLoop, hu2, Bool.not_true, Bool.false_eq_true, if_false,
          List.filter_cons, hu, if_true, ds.basicBatching, hd, ds.basicBatch.Delete]
        have := ih (GoMap.delete buf k1) (ds.basicBatch.Delete b o.key).2
        simp only [ds.basicBatching, ds.basicBatch.Delete] at this
        rw [this]
        simp [ds.basicBatch.writes, ds.op.write, hd, ds.basicBatch.write, ds.basicBatch.Delete]
      | false =>
        simp only [autobatch.syncLoop, hu2, Bool.not_true, Bool.false_eq_true, if_false,
          List.filter_cons, hu, if_true, ds.basicBatching, hd, ds.basicBatch.Put]
        have := ih (GoMap.delete buf k1) (ds.basicBatch.Put b o.key o.value).2
        simp only [ds.basicBatching, ds.basicBatch.Put] at this
        rw [this]
        simp [ds.basicBatch.writes, ds.op.write, hd, ds.basicBatch.write, ds.basicBatch.Put]

/-- `Sync` over the map store: it succeeds; the buffer keeps exactly the ops not
at or under the prefix; the child takes the effect of the ops at or under the
prefix and is unchanged under every other key string. -/
theorem Sync_map (ordB ordC : RangeOrder (ds.op K)) (hB : RangeOrder.Valid ordB)
    (hC : RangeOrder.Valid ordC) (pfx : Option K) (d : autobatch.Datastore K ds.MapDatastore)
    (hwf : ds.OpsWF d.buffer) :
    (autobatch.Sync (ds.basicBatching ds.MapDatastore.store ordC) ordB pfx d).1 = none ∧
    ds.OpsWF (autobatch.Sync (ds.basicBatching ds.MapDatastore.store ordC) ordB pfx d).2.buffer ∧
    (autobatch.Sync (ds.basicBatching ds.MapDatastore.store ordC) ordB pfx d).2.maxBufferEntries
      = d.maxBufferEntries ∧
    (∀ ks, GoMap.lookup
      (autobatch.Sync (ds.basicBatching ds.MapDatastore.store ordC) ordB pfx d).2.buffer ks
      = (GoMap.lookup d.buffer ks).filter (fun o => !autobatch.atOrUnder pfx o.key)) ∧
    (∀ ks, GoMap.lookup
      (autobatch.Sync (ds.basicBatching ds.MapDatastore.store ordC) ordB pfx d).2.child ks
      = match (GoMap.lookup d.buffer ks).filter (fun o => autobatch.atOrUnder pfx o.key) with
        | some o => o.effect
        | none => GoMap.lookup d.child ks) := by
  have hperm := hB d.buffer
  have hwfL : ds.OpsWF (ordB d.buffer) := OpsWF_of_perm hperm hwf
  have hwfF := OpsWF_filter (ordB d.buffer) (fun e => autobatch.atOrUnder pfx e.2.key) hwfL
  obtain ⟨h1, h2⟩ := commit_of_ops ordC hC _ hwfF d.child
  have hlookF : ∀ ks,
      GoMap.lookup ((ordB d.buffer).filter (fun e => autobatch.atOrUnder pfx e.2.key)) ks
        = (GoMap.lookup d.buffer ks).filter (fun o => autobatch.atOrUnder pfx o.key) := by
    intro ks
    rw [GoMap.lookup_filter _ hwfL.1, GoMap.lookup_perm hperm hwf.1 ks]
  have hS : autobatch.Sync (ds.basicBatching ds.MapDatastore.store ordC) ordB pfx d
      = ((ds.basicBatch.Commit ordC
            (ds.basicBatch.writes (ds.NewBasicBatch ds.MapDatastore.store)
              (((ordB d.buffer).filter (fun e => autobatch.atOrUnder pfx e.2.key)).map
                (fun e => e.2.write))) d.child).1,
          { child := (ds.basicBatch.Commit ordC
              (ds.basicBatch.writes (ds.NewBasicBatch ds.MapDatastore.store)
                (((ordB d.buffer).filter (fun e => autobatch.atOrUnder pfx e.2.key)).map
                  (fun e => e.2.write))) d.child).2
            buffer := ((ordB d.buffer).filter (fun e => autobatch.atOrUnder pfx e.2.key)).foldl
              (fun m e => GoMap.delete m e.1) d.buffer
            maxBufferEntries := d.maxBufferEntries }) := by
    have hB0 : (ds.basicBatching (ds.MapDatastore.store (K := K)) ordC).Batch d.child
        = (Except.ok (ds.NewBasicBatch ds.MapDatastore.store), d.child) := rfl
    simp only [autobatch.Sync, hB0, syncLoop_basic]
    rfl
  rw [hS]
  refine ⟨h1, OpsWF_foldl_delete _ _ hwf, rfl, ?_, ?_⟩
  · intro ks
    simp only
    rw [GoMap.lookup_foldl_delete]
    cases hl : GoMap.lookup d.buffer ks with
    | none =>
      simp [Option.filter]
    | some o =>
      have hF := hlookF ks
      rw [hl] at hF
      cases hu : autobatch.atOrUnder pfx o.key with
      | true =>
        have hF2 : GoMap.lookup
            ((ordB d.buffer).filter (fun e => autobatch.atOrUnder pfx e.2.key)) ks = some o := by
          rw [hF]
          simp [Option.filter, hu]
        have hmem := GoMap.mem_keys_of_lookup _ ks o hF2
        simp only [GoMap.keys] at hmem
        rw [if_pos hmem]
        simp [Option.filter, hu]
      | false =>
        have hF2 : GoMap.lookup
            ((ordB d.buffer).filter (fun e => autobatch.atOrUnder pfx e.2.key)) ks = none := by
          rw [hF]
          simp [Option.filter, hu]
        have hnot : ks ∉ ((ordB d.buffer).filter
            (fun e => autobatch.atOrUnder pfx e.2.key)).map Prod.fst := by
          intro hmem
          obtain ⟨v, hv⟩ := GoMap.lookup_isSome_of_mem_keys _ ks hmem
          rw [hF2] at hv
          cases hv
        rw [if_neg hnot]
        simp [Option.filter, hu]
  · intro ks
    have := h2 ks
    rw [hlookF ks] at this
    exact this

/-- `Sync` over the map store does not change what the decorator shows. -/
theorem Sync_map_view (ordB ordC : RangeOrder (ds.op K)) (hB : RangeOrder.Valid ordB)
    (hC : RangeOrder.Valid ordC) (pfx : Option K) (d : autobatch.Datastore K ds.MapDatastore)
    (hwf : ds.OpsWF d.buffer) (ks : String) :
    autobatch.view (autobatch.Sync (ds.basicBatching ds.MapDatastore.store ordC) ordB pfx d).2 ks
      = autobatch.view d ks := by
  obtain ⟨_, _, _, hb, hc⟩ := Sync_map ordB ordC hB hC pfx d hwf
  simp only [autobatch.view]
  rw [hb ks, hc ks]
  cases hl : GoMap.lookup d.buffer ks with
  | none => simp [Option.filter]
  | some o =>
    cases hu : autobatch.atOrUnder pfx o.key <;> simp [Option.filter, hu]

end SyncLemmas

/-! ### The buffer invariant -/

section InvariantLemmas

variable {K B W : Type} [Key K]

theorem OpsWF_Flush (c : ds.Batching K B W) (ord : RangeOrder (ds.op K))
    (d : autobatch.Datastore K W) (hwf : ds.OpsWF d.buffer) :
    ds.OpsWF (autobatch.Flush c ord d).2.buffer := by
  unfold autobatch.Flush
  split
  · exact hwf
  · split
    · exact hwf
    · exact OpsWF_nil

theorem OpsWF_syncLoop (c : ds.Batching K B W) (pfx : Option K) (L : List (String × ds.op K))
    (buf : GoMap (ds.op K)) (b : B) (w : W) (hwf : ds.OpsWF buf) :
    ds.OpsWF (autobatch.syncLoop c pfx L buf b w).2.1 := by
  induction L generalizing buf b w with
  | nil => exact hwf
  | cons e rest ih =>
    obtain ⟨k1, o⟩ := e
    unfold autobatch.syncLoop
    split
    · exact ih buf b w hwf
    · split
      · exact hwf
      · exact ih _ _ _ (OpsWF_delete buf k1 hwf)

theorem OpsWF_Sync (c : ds.Batching K B W) (ord : RangeOrder (ds.op K)) (pfx : Option K)
    (d : autobatch.Datastore K W) (hwf : ds.OpsWF d.buffer) :
    ds.OpsWF (autobatch.Sync c ord pfx d).2.buffer := by
  unfold autobatch.Sync
  split
  · exact hwf
  · rename_i b w _
    have h := OpsWF_syncLoop c pfx (ord d.buffer) d.buffer b w hwf
    split
    · rename_i heq
      rw [heq] at h
      exact h
    · rename_i heq
      rw [heq] at h
      exact h

theorem OpsWF_Put (c : ds.Batching K B W) (ord : RangeOrder (ds.op K)) (k : K) (val : ds.Bytes)
    (d : autobatch.Datastore K W) (hwf : ds.OpsWF d.buffer) :
    ds.OpsWF (autobatch.Put c ord k val d).2.buffer := by
  have h1 : ds.OpsWF (GoMap.insert d.buffer (Key.String k)
      ({ key := k, delete := false, value := val } : ds.op K)) :=
    OpsWF_insert d.buffer { key := k, delete := false, value := val } hwf
  simp only [autobatch.Put]
  split
  · exact OpsWF_Flush c ord _ h1
  · exact h1

theorem OpsWF_Delete (c : ds.Batching K B W) (ord : RangeOrder (ds.op K)) (k : K)
    (d : autobatch.Datastore K W) (hwf : ds.OpsWF d.buffer) :
    ds.OpsWF (autobatch.Delete c ord k d).2.buffer := by
  have h1 : ds.OpsWF (GoMap.insert d.buffer (Key.String k)
      ({ key := k, delete := true, value := [] } : ds.op K)) :=
    OpsWF_insert d.buffer { key := k, delete := true, value := [] } hwf
  simp only [autobatch.Delete]
  split
  · exact OpsWF_Flush c ord _ h1
  · exact h1

/-- The buffer invariant holds initially and is kept by every call, for every
child: it holds in every state the decorator reaches. -/
theorem OpsWF_run (c : Nat → ds.Batching K B W) (ord : Nat → RangeOrder (ds.op K)) (n : Nat)
    (cmds : List (autobatch.Cmd K)) (d : autobatch.Datastore K W) (hwf : ds.OpsWF d.buffer) :
    ds.OpsWF (autobatch.run c ord n cmds d).buffer := by
  induction cmds generalizing n d with
  | nil => exact hwf
  | cons cmd rest ih =>
    simp only [autobatch.run]
    apply ih
    cases cmd with
    | Put k val => exact OpsWF_Put (c n) (ord n) k val d hwf
    | Delete k => exact OpsWF_Delete (c n) (ord n) k d hwf
    | Flush => exact OpsWF_Flush (c n) (ord n) d hwf
    | Sync pfx => exact OpsWF_Sync (c n) (ord n) pfx d hwf

theorem OpsWF_NewAutoBatching (child : W) (size : Int) :
    ds.OpsWF (autobatch.NewAutoBatching (K := K) child size).buffer :=
  OpsWF_nil

end InvariantLemmas

/-- C3: `Sync(prefix)` flushes only the buffered entries under the prefix.  Over a
map-store child, for every well-formed buffer, prefix and range orders, `Sync`
succeeds, and for every buffered entry: if its key is neither equal to the prefix
nor a descendant of it, the entry is still buffered with the same op and the
child's content for that key is what it was before; if its key equals the prefix
or descends from it, the entry is gone from the buffer and the child holds the
op's effect (the value, or nothing after a delete). -/
theorem Sync_flushes_only_under {K : Type} [Key K] (ordB ordC : RangeOrder (ds.op K))
    (hB : RangeOrder.Valid ordB) (hC : RangeOrder.Valid ordC) (pfx : Option K)
    (d : autobatch.Datastore K ds.MapDatastore) (hwf : ds.OpsWF d.buffer)
    (e : String × ds.op K) (he : e ∈ d.buffer) :
    (autobatch.Sync (ds.basicBatching ds.MapDatastore.store ordC) ordB pfx d).1 = none ∧
    (autobatch.atOrUnder pfx e.2.key = false →
      GoMap.lookup
        (autobatch.Sync (ds.basicBatching ds.MapDatastore.store ordC) ordB pfx d).2.buffer
        (Key.String e.2.key) = some e.2 ∧
      GoMap.lookup
        (autobatch.Sync (ds.basicBatching ds.MapDatastore.store ordC) ordB pfx d).2.child
        (Key.String e.2.key) = GoMap.lookup d.child (Key.String e.2.key)) ∧
    (autobatch.atOrUnder pfx e.2.key = true →
      GoMap.lookup
        (autobatch.Sync (ds.basicBatching ds.MapDatastore.store ordC) ordB pfx d).2.buffer
        (Key.String e.2.key) = none ∧
      GoMap.lookup
        (autobatch.Sync (ds.basicBatching ds.MapDatastore.store ordC) ordB pfx d).2.child
        (Key.String e.2.key) = e.2.effect) := by
  obtain ⟨h1, _, _, hb, hc⟩ := Sync_map ordB ordC hB hC pfx d hwf
  have hl : GoMap.lookup d.buffer (Key.String e.2.key) = some e.2 := by
    rw [GoMap.lookup_eq_some_iff d.buffer hwf.1, ← hwf.2 e he]
    exact he
  refine ⟨h1, ?_, ?_⟩
  · intro hu
    rw [hb, hc, hl]
    simp [Option.filter, hu]
  · intro hu
    rw [hb, hc, hl]
    simp [Option.filter, hu]

/-- Witness of C3: with a put of `/a` and a delete of `/b` buffered over a child
holding `/a`, `Sync(/b)` leaves the entry of `/a` alone. -/
theorem Sync_flushes_only_under_witness :
    (autobatch.Sync (ds.basicBatching ds.MapDatastore.store sample.backwards) id
      (some (NewStrKey "/b")) sample.buffered).1 = none ∧
    (autobatch.atOrUnder (some (NewStrKey "/b")) (NewStrKey "/a") = false →
      GoMap.lookup
        (autobatch.Sync (ds.basicBatching ds.MapDatastore.store sample.backwards) id
          (some (NewStrKey "/b")) sample.buffered).2.buffer
        (Key.String (NewStrKey "/a"))
        = some { key := NewStrKey "/a", delete := false, value := [1, 2] } ∧
      GoMap.lookup
        (autobatch.Sync (ds.basicBatching ds.MapDatastore.store sample.backwards) id
          (some (NewStrKey "/b")) sample.buffered).2.child
        (Key.String (NewStrKey "/a"))
        = GoMap.lookup sample.buffered.child (Key.String (NewStrKey "/a"))) ∧
    (autobatch.atOrUnder (some (NewStrKey "/b")) (NewStrKey "/a") = true →
      GoMap.lookup
        (autobatch.Sync (ds.basicBatching ds.MapDatastore.store sample.backwards) id
          (some (NewStrKey "/b")) sample.buffered).2.buffer
        (Key.String (NewStrKey "/a")) = none ∧
      GoMap.lookup
        (autobatch.Sync (ds.basicBatching ds.MapDatastore.store sample.backwards) id
          (some (NewStrKey "/b")) sample.buffered).2.child
        (Key.String (NewStrKey "/a"))
        = ds.op.effect { key := NewStrKey "/a", delete := false, value := [1, 2] }) :=
  Sync_flushes_only_under id sample.backwards RangeOrder.id_valid sample.backwards_valid
    (some (NewStrKey "/b")) sample.buffered sample.buffered_wf
    ("/a", { key := NewStrKey "/a", delete := false, value := [1, 2] }) (by decide)

/-! ### Reads through the decorator and the plain map store -/

theorem view_insert {K : Type} (d : autobatch.Datastore K ds.MapDatastore) (k : String) (o : ds.op K)
    (ks : String) :
    autobatch.view { d with buffer := GoMap.insert d.buffer k o } ks
      = if k = ks then o.effect else autobatch.view d ks := by
  by_cases h : k = ks
  · subst h
    simp [autobatch.view, GoMap.lookup_insert_self]
  · simp [autobatch.view, GoMap.lookup_insert_ne _ _ _ _ h, h]

section RefinementLemmas

variable {K : Type} [Key K]

theorem view_Flush (ordB ordC : RangeOrder (ds.op K)) (hB : RangeOrder.Valid ordB)
    (hC : RangeOrder.Valid ordC) (d : autobatch.Datastore K ds.MapDatastore)
    (hwf : ds.OpsWF d.buffer) (ks : String) :
    autobatch.view (autobatch.Flush (ds.basicBatching ds.MapDatastore.store ordC) ordB d).2 ks
      = autobatch.view d ks := by
  obtain ⟨_, hb, _, hc⟩ := Flush_map ordB ordC hB hC d hwf
  rw [← hc ks]
  simp [autobatch.view, hb, GoMap.lookup]

theorem view_Put (ordB ordC : RangeOrder (ds.op K)) (hB : RangeOrder.Valid ordB)
    (hC : RangeOrder.Valid ordC) (k : K) (val : ds.Bytes)
    (d : autobatch.Datastore K ds.MapDatastore) (hwf : ds.OpsWF d.buffer) (ks : String) :
    autobatch.view
      (autobatch.Put (ds.basicBatching ds.MapDatastore.store ordC) ordB k val d).2 ks
      = if Key.String k = ks then some val else autobatch.view d ks := by
  have h1 : ds.OpsWF (GoMap.insert d.buffer (Key.String k)
      ({ key := k, delete := false, value := val } : ds.op K)) :=
    OpsWF_insert d.buffer { key := k, delete := false, value := val } hwf
  have hv := view_insert d (Key.String k) { key := k, delete := false, value := val } ks
  simp only [autobatch.Put]
  split
  · rw [view_Flush ordB ordC hB hC _ h1 ks, hv]
    rfl
  · rw [hv]
    rfl

theorem view_Delete (ordB ordC : RangeOrder (ds.op K)) (hB : RangeOrder.Valid ordB)
    (hC : RangeOrder.Valid ordC) (k : K)
    (d : autobatch.Datastore K ds.MapDatastore) (hwf : ds.OpsWF d.buffer) (ks : String) :
    autobatch.view
      (autobatch.Delete (ds.basicBatching ds.MapDatastore.store ordC) ordB k d).2 ks
      = if Key.String k = ks then none else autobatch.view d ks := by
  have h1 : ds.OpsWF (GoMap.insert d.buffer (Key.String k)
      ({ key := k, delete := true, value := [] } : ds.op K)) :=
    OpsWF_insert d.buffer { key := k, delete := true, value := [] } hwf
  have hv := view_insert d (Key.String k) { key := k, delete := true, value := [] } ks
  simp only [autobatch.Delete]
  split
  · rw [view_Flush ordB ordC hB hC _ h1 ks, hv]
    rfl
  · rw [hv]
    rfl

/-- After the same calls, the decorator over a map store shows under every key
string what the plain map store holds. -/
theorem view_run (ordB ordC : Nat → RangeOrder (ds.op K)) (hB : ∀ n, RangeOrder.Valid (ordB n))
    (hC : ∀ n, RangeOrder.Valid (ordC n)) (cmds : List (autobatch.Cmd K)) (n : Nat)
    (d : autobatch.Datastore K ds.MapDatastore) (s : ds.MapDatastore)
    (hwf : ds.OpsWF d.buffer) (hview : ∀ ks, autobatch.view d ks = GoMap.lookup s ks) (ks : String) :
    autobatch.view (autobatch.run (autobatch.mapChild ordC) ordB n cmds d) ks
      = GoMap.lookup (autobatch.plain cmds s) ks := by
  induction cmds generalizing n d s with
  | nil => exact hview ks
  | cons cmd rest ih =>
    cases cmd with
    | Put k val =>
      simp only [autobatch.run, autobatch.plain, autobatch.Cmd.step, autobatch.mapChild]
      apply ih
      · exact OpsWF_Put _ _ k val d hwf
      · intro ks2
        rw [view_Put (ordB n) (ordC n) (hB n) (hC n) k val d hwf ks2]
        by_cases h : Key.String k = ks2
        · subst h
          simp [ds.MapDatastore.store, GoMap.lookup_insert_self]
        · simp [ds.MapDatastore.store, GoMap.lookup_insert_ne _ _ _ _ h, h, hview ks2]
    | Delete k =>
      simp only [autobatch.run, autobatch.plain, autobatch.Cmd.step, autobatch.mapChild]
      apply ih
      · exact OpsWF_Delete _ _ k d hwf
      · intro ks2
        rw [view_Delete (ordB n) (ordC n) (hB n) (hC n) k d hwf ks2]
        by_cases h : Key.String k = ks2
        · subst h
          simp [ds.MapDatastore.store, GoMap.lookup_delete_self]
        · simp [ds.MapDatastore.store, GoMap.lookup_delete_ne _ _ _ h, h, hview ks2]
    | Flush =>
      simp only [autobatch.run, autobatch.plain, autobatch.Cmd.step, autobatch.mapChild]
      apply ih
      · exact OpsWF_Flush _ _ d hwf
      · intro ks2
        rw [view_Flush (ordB n) (ordC n) (hB n) (hC n) d hwf ks2]
        exact hview ks2
    | Sync pfx =>
      simp only [autobatch.run, autobatch.plain, autobatch.Cmd.step, autobatch.mapChild]
      apply ih
      · exact OpsWF_Sync _ _ pfx d hwf
      · intro ks2
        rw [Sync_map_view (ordB n) (ordC n) (hB n) (hC n) pfx d hwf ks2]
        exact hview ks2

/-- The three reads through the decorator over a map store are the reads of a map
store holding what the decorator shows. -/
theorem reads_of_view (ordC : RangeOrder (ds.op K)) (k : K)
    (d : autobatch.Datastore K ds.MapDatastore) (s : ds.MapDatastore)
    (hview : autobatch.view d (Key.String k) = GoMap.lookup s (Key.String k)) :
    (autobatch.Get (ds.basicBatching ds.MapDatastore.store ordC) k d).1
      = ((ds.MapDatastore.store (K := K)).Get k s).1 ∧
    (autobatch.Has (ds.basicBatching ds.MapDatastore.store ordC) k d).1
      = ((ds.MapDatastore.store (K := K)).Has k s).1 ∧
    (autobatch.GetSize (ds.basicBatching ds.MapDatastore.store ordC) k d).1
      = ((ds.MapDatastore.store (K := K)).GetSize k s).1 := by
  simp only [autobatch.view] at hview
  cases hb : GoMap.lookup d.buffer (Key.String k) with
  | some o =>
    rw [hb] at hview
    cases hd : o.delete with
    | true =>
      have hs : GoMap.lookup s (Key.String k) = none := by
        rw [← hview]
        simp [ds.op.effect, hd]
      simp [autobatch.Get, autobatch.Has, autobatch.GetSize, hb, hd, ds.MapDatastore.store, hs]
    | false =>
      have hs : GoMap.lookup s (Key.String k) = some o.value := by
        rw [← hview]
        simp [ds.op.effect, hd]
      simp [autobatch.Get, autobatch.Has, autobatch.GetSize, hb, hd, ds.MapDatastore.store, hs]
  | none =>
    rw [hb] at hview
    simp only at hview
    cases hs : GoMap.lookup s (Key.String k) with
    | none =>
      rw [hs] at hview
      simp [autobatch.Get, autobatch.Has, autobatch.GetSize, hb, ds.MapDatastore.store,
        ds.basicBatching, hs, hview]
    | some v =>
      rw [hs] at hview
      simp [autobatch.Get, autobatch.Has, autobatch.GetSize, hb, ds.MapDatastore.store,
        ds.basicBatching, hs, hview]

end RefinementLemmas

/-- C2: the auto-batching decorator is observationally equivalent to its child.
For every `maxBufferEntries`, every initial content of a map-store child, every
finite sequence of `Put`, `Delete`, `Flush` and `Sync(prefix)` calls and all
range orders, a following `Get(k)`, `Has(k)` or `GetSize(k)` on the decorator
returns exactly what the same read returns on a plain map store that received
the same `Put`/`Delete` calls directly. -/
theorem autobatch_refines_plain_store {K : Type} [Key K]
    (ordB ordC : Nat → RangeOrder (ds.op K)) (hB : ∀ n, RangeOrder.Valid (ordB n))
    (hC : ∀ n, RangeOrder.Valid (ordC n)) (size : Int) (child : ds.MapDatastore)
    (cmds : List (autobatch.Cmd K)) (k : K) :
    (autobatch.Get (autobatch.mapChild ordC cmds.length) k
        (autobatch.run (autobatch.mapChild ordC) ordB 0 cmds
          (autobatch.NewAutoBatching child size))).1
      = ((ds.MapDatastore.store (K := K)).Get k (autobatch.plain cmds child)).1 ∧
    (autobatch.Has (autobatch.mapChild ordC cmds.length) k
        (autobatch.run (autobatch.mapChild ordC) ordB 0 cmds
          (autobatch.NewAutoBatching child size))).1
      = ((ds.MapDatastore.store (K := K)).Has k (autobatch.plain cmds child)).1 ∧
    (autobatch.GetSize (autobatch.mapChild ordC cmds.length) k
        (autobatch.run (autobatch.mapChild ordC) ordB 0 cmds
          (autobatch.NewAutoBatching child size))).1
      = ((ds.MapDatastore.store (K := K)).GetSize k (autobatch.plain cmds child)).1 := by
  apply reads_of_view
  apply view_run ordB ordC hB hC cmds 0 _ child (OpsWF_NewAutoBatching child size)
  intro ks
  simp [autobatch.view, autobatch.NewAutoBatching, GoMap.lookup]

/-- Witness of C2: with room for one entry over a child holding `/a`, after
`Put(/a)`, `Put(/b)` (which flushes), `Delete(/a)`, `Sync(/a)`, `Put(/c)`. -/
theorem autobatch_refines_plain_store_witness :
    (autobatch.Get (autobatch.mapChild (fun _ => sample.backwards) sample.cmds.length)
        (NewStrKey "/a")
        (autobatch.run (autobatch.mapChild (fun _ => sample.backwards)) (fun _ => id) 0
          sample.cmds (autobatch.NewAutoBatching [("/a", [7])] 1))).1
      = ((ds.MapDatastore.store (K := StrKey)).Get (NewStrKey "/a")
          (autobatch.plain sample.cmds [("/a", [7])])).1 ∧
    (autobatch.Has (autobatch.mapChild (fun _ => sample.backwards) sample.cmds.length)
        (NewStrKey "/a")
        (autobatch.run (autobatch.mapChild (fun _ => sample.backwards)) (fun _ => id) 0
          sample.cmds (autobatch.NewAutoBatching [("/a", [7])] 1))).1
      = ((ds.MapDatastore.store (K := StrKey)).Has (NewStrKey "/a")
          (autobatch.plain sample.cmds [("/a", [7])])).1 ∧
    (autobatch.GetSize (autobatch.mapChild (fun _ => sample.backwards) sample.cmds.length)
        (NewStrKey "/a")
        (autobatch.run (autobatch.mapChild (fun _ => sample.backwards)) (fun _ => id) 0
          sample.cmds (autobatch.NewAutoBatching [("/a", [7])] 1))).1
      = ((ds.MapDatastore.store (K := StrKey)).GetSize (NewStrKey "/a")
          (autobatch.plain sample.cmds [("/a", [7])])).1 :=
  autobatch_refines_plain_store (fun _ => id) (fun _ => sample.backwards)
    (fun _ => RangeOrder.id_valid) (fun _ => sample.backwards_valid) 1 [("/a", [7])]
    sample.cmds (NewStrKey "/a")

/-! ### The flush threshold -/

section ThresholdLemmas

variable {K : Type} [Key K]

theorem GoMap.length_insert_le {α : Type} (m : GoMap α) (k : String) (v : α) :
    (GoMap.insert m k v).length ≤ m.length + 1 := by
  by_cases h : k ∈ GoMap.keys m
  · rw [GoMap.length_insert_of_mem m k v h]
    exact Nat.le_succ _
  · rw [GoMap.length_insert_of_not_mem m k v h]

theorem run_append {B W : Type} (c : Nat → ds.Batching K B W) (ord : Nat → RangeOrder (ds.op K))
    (n : Nat) (l1 l2 : List (autobatch.Cmd K)) (d : autobatch.Datastore K W) :
    autobatch.run c ord n (l1 ++ l2) d
      = autobatch.run c ord (n + l1.length) l2 (autobatch.run c ord n l1 d) := by
  induction l1 generalizing n d with
  | nil => rfl
  | cons cmd rest ih =>
    show autobatch.run c ord (n + 1) (rest ++ l2) (autobatch.Cmd.step (c n) (ord n) cmd d).2
      = autobatch.run c ord (n + (rest.length + 1)) l2
          (autobatch.run c ord (n + 1) rest (autobatch.Cmd.step (c n) (ord n) cmd d).2)
    rw [ih]
    congr 1
    omega

/-- Puts that leave the buffer within its bound only fill the buffer. -/
theorem run_puts_below {B W : Type} (c : Nat → ds.Batching K B W)
    (ord : Nat → RangeOrder (ds.op K)) (n : Nat) (l : List (K × ds.Bytes))
    (d : autobatch.Datastore K W)
    (hlen : ((d.buffer.length + l.length : Nat) : Int) ≤ d.maxBufferEntries) :
    autobatch.run c ord n (l.map (fun kv => autobatch.Cmd.Put kv.1 kv.2)) d
      = { d with buffer := l.foldl (fun m kv => GoMap.insert m (Key.String kv.1)
            ({ key := kv.1, delete := false, value := kv.2 } : ds.op K)) d.buffer } := by
  induction l generalizing n d with
  | nil => rfl
  | cons kv rest ih =>
    have h1 := GoMap.length_insert_le d.buffer (Key.String kv.1)
      ({ key := kv.1, delete := false, value := kv.2 } : ds.op K)
    have hle : ((GoMap.insert d.buffer (Key.String kv.1)
        ({ key := kv.1, delete := false, value := kv.2 } : ds.op K)).length : Int)
        ≤ d.maxBufferEntries := by
      simp only [List.length_cons] at hlen
      omega
    simp only [List.map_cons, autobatch.run, autobatch.Cmd.step, List.foldl_cons]
    rw [Put_of_le (c n) (ord n) kv.1 kv.2 d hle]
    rw [ih]
    simp only [List.length_cons] at hlen
    simp only
    omega

/-- The buffer filled by puts to keys with pairwise distinct strings: well-formed,
and it holds every put under its key string. -/
theorem foldl_insert_puts (l : List (K × ds.Bytes)) (buf : GoMap (ds.op K))
    (hwf : ds.OpsWF buf) (hnd : (l.map (fun kv => Key.String kv.1)).Nodup) :
    ds.OpsWF (l.foldl (fun m kv => GoMap.insert m (Key.String kv.1)
      ({ key := kv.1, delete := false, value := kv.2 } : ds.op K)) buf) ∧
    (∀ ks, ks ∉ l.map (fun kv => Key.String kv.1) →
      GoMap.lookup (l.foldl (fun m kv => GoMap.insert m (Key.String kv.1)
        ({ key := kv.1, delete := false, value := kv.2 } : ds.op K)) buf) ks
        = GoMap.lookup buf ks) ∧
    (∀ kv ∈ l, GoMap.lookup (l.foldl (fun m kv => GoMap.insert m (Key.String kv.1)
        ({ key := kv.1, delete := false, value := kv.2 } : ds.op K)) buf) (Key.String kv.1)
        = some { key := kv.1, delete := false, value := kv.2 }) := by
  induction l generalizing buf with
  | nil =>
    refine ⟨hwf, fun _ _ => rfl, ?_⟩
    intro kv hkv
    cases hkv
  | cons kv rest ih =>
    simp only [List.map_cons, List.nodup_cons] at hnd
    obtain ⟨h1, h2, h3⟩ := ih (GoMap.insert buf (Key.String kv.1)
      ({ key := kv.1, delete := false, value := kv.2 } : ds.op K))
      (OpsWF_insert buf { key := kv.1, delete := false, value := kv.2 } hwf) hnd.2
    simp only [List.foldl_cons]
    refine ⟨h1, ?_, ?_⟩
    · intro ks hks
      simp only [List.map_cons, List.mem_cons, not_or] at hks
      rw [h2 ks hks.2]
      exact GoMap.lookup_insert_ne _ _ _ _ (fun h => hks.1 h.symm)
    · intro kv2 hkv2
      rcases List.mem_cons.1 hkv2 with h | h
      · subst h
        rw [h2 _ hnd.1]
        exact GoMap.lookup_insert_self _ _ _
      · exact h3 kv2 h

theorem length_ge_of_lookups (l : List (K × ds.Bytes)) (buf : GoMap (ds.op K))
    (hnd : (l.map (fun kv => Key.String kv.1)).Nodup)
    (hl : ∀ kv ∈ l, ∃ o, GoMap.lookup buf (Key.String kv.1) = some o) :
    l.length ≤ buf.length := by
  have hsub : l.map (fun kv => Key.String kv.1) ⊆ GoMap.keys buf := by
    intro ks hks
    obtain ⟨kv, hkv, rfl⟩ := List.mem_map.1 hks
    obtain ⟨o, ho⟩ := hl kv hkv
    exact GoMap.mem_keys_of_lookup buf _ o ho
  have := (List.subperm_of_subset hnd hsub).length_le
  simpa [GoMap.keys] using this

end ThresholdLemmas

/-- C5: the auto-flush threshold.  For every `N ≥ 1`, starting from
`NewAutoBatching(child, N-1)` over a map-store child (any content, any range
orders), after `N` puts to pairwise distinct keys the buffer holds at most
`maxBufferEntries = N-1` entries, and `Get` on the child store returns every one
of the `N` values. -/
theorem autoflush_threshold {K : Type} [Key K]
    (ordB ordC : Nat → RangeOrder (ds.op K)) (hB : ∀ n, RangeOrder.Valid (ordB n))
    (hC : ∀ n, RangeOrder.Valid (ordC n)) (child : ds.MapDatastore)
    (kvs : List (K × ds.Bytes)) (hN : 1 ≤ kvs.length)
    (hinj : Function.Injective (Key.String : K → String))
    (hdist : (kvs.map Prod.fst).Nodup) :
    (autobatch.run (autobatch.mapChild ordC) ordB 0
        (kvs.map (fun kv => autobatch.Cmd.Put kv.1 kv.2))
        (autobatch.NewAutoBatching child ((kvs.length : Int) - 1))).maxBufferEntries
      = (kvs.length : Int) - 1 ∧
    (((autobatch.run (autobatch.mapChild ordC) ordB 0
        (kvs.map (fun kv => autobatch.Cmd.Put kv.1 kv.2))
        (autobatch.NewAutoBatching child ((kvs.length : Int) - 1))).buffer.length : Int)
      ≤ (kvs.length : Int) - 1) ∧
    ∀ kv ∈ kvs,
      ((ds.MapDatastore.store (K := K)).Get kv.1
        (autobatch.run (autobatch.mapChild ordC) ordB 0
          (kvs.map (fun kv => autobatch.Cmd.Put kv.1 kv.2))
          (autobatch.NewAutoBatching child ((kvs.length : Int) - 1))).child).1
        = (kv.2, none) := by
  have hnd : (kvs.map (fun kv => Key.String kv.1)).Nodup := by
    have := List.Nodup.map hinj hdist
    simpa [List.map_map, Function.comp_def] using this
  have hne : kvs ≠ [] := by
    intro h
    rw [h] at hN
    simp at hN
  obtain ⟨init, last, hkvs⟩ : ∃ init last, kvs = init ++ [last] :=
    ⟨kvs.dropLast, kvs.getLast hne, (List.dropLast_append_getLast hne).symm⟩
  have hlen : kvs.length = init.length + 1 := by
    rw [hkvs]
    simp
  have hfold := foldl_insert_puts kvs ([] : GoMap (ds.op K)) OpsWF_nil hnd
  -- the first N-1 puts only fill the buffer
  have hrun1 := run_puts_below (autobatch.mapChild ordC) ordB 0 init
    (autobatch.NewAutoBatching child ((kvs.length : Int) - 1))
    (by simp only [autobatch.NewAutoBatching, List.length_nil]; omega)
  -- the N-th put fills the buffer beyond the bound and flushes
  have hbuf : GoMap.insert
      (init.foldl (fun m kv => GoMap.insert m (Key.String kv.1)
        ({ key := kv.1, delete := false, value := kv.2 } : ds.op K)) [])
      (Key.String last.1) ({ key := last.1, delete := false, value := last.2 } : ds.op K)
      = kvs.foldl (fun m kv => GoMap.insert m (Key.String kv.1)
        ({ key := kv.1, delete := false, value := kv.2 } : ds.op K)) [] := by
    rw [hkvs, List.foldl_append]
    rfl
  have hge : kvs.length ≤ (kvs.foldl (fun m kv => GoMap.insert m (Key.String kv.1)
      ({ key := kv.1, delete := false, value := kv.2 } : ds.op K)) []).length :=
    length_ge_of_lookups kvs _ hnd (fun kv hkv => ⟨_, hfold.2.2 kv hkv⟩)
  have hfinal : autobatch.run (autobatch.mapChild ordC) ordB 0
      (kvs.map (fun kv => autobatch.Cmd.Put kv.1 kv.2))
      (autobatch.NewAutoBatching child ((kvs.length : Int) - 1))
      = (autobatch.Flush (ds.basicBatching ds.MapDatastore.store (ordC init.length))
          (ordB init.length)
          { child := child
            buffer := kvs.foldl (fun m kv => GoMap.insert m (Key.String kv.1)
              ({ key := kv.1, delete := false, value := kv.2 } : ds.op K)) []
            maxBufferEntries := (kvs.length : Int) - 1 }).2 := by
    have hmap : kvs.map (fun kv => autobatch.Cmd.Put kv.1 kv.2)
        = init.map (fun kv => autobatch.Cmd.Put kv.1 kv.2)
          ++ [autobatch.Cmd.Put last.1 last.2] := by
      rw [hkvs]
      simp
    rw [hmap, run_append, hrun1]
    simp only [autobatch.run, autobatch.Cmd.step, autobatch.Put,
      autobatch.NewAutoBatching, List.length_map, Nat.zero_add, autobatch.mapChild]
    rw [hbuf, if_pos (by omega)]
  obtain ⟨_, hb, hm, hc⟩ := Flush_map (ordB init.length) (ordC init.length) (hB _) (hC _)
    { child := child
      buffer := kvs.foldl (fun m kv => GoMap.insert m (Key.String kv.1)
        ({ key := kv.1, delete := false, value := kv.2 } : ds.op K)) []
      maxBufferEntries := (kvs.length : Int) - 1 } hfold.1
  rw [hfinal]
  generalize (autobatch.Flush (ds.basicBatching ds.MapDatastore.store (ordC init.length))
    (ordB init.length)
    { child := child
      buffer := kvs.foldl (fun m kv => GoMap.insert m (Key.String kv.1)
        ({ key := kv.1, delete := false, value := kv.2 } : ds.op K)) []
      maxBufferEntries := (kvs.length : Int) - 1 }).2 = X at hb hm hc
  refine ⟨hm, ?_, ?_⟩
  · rw [hb]
    simp only [List.length_nil]
    omega
  · intro kv hkv
    have hv : GoMap.lookup X.child (Key.String kv.1) = some kv.2 := by
      rw [hc (Key.String kv.1)]
      simp only [autobatch.view, hfold.2.2 kv hkv]
      rfl
    simp only [ds.MapDatastore.store, hv]

/-- Witness of C5: three puts to `/a`, `/b`, `/c` with room for two entries. -/
theorem autoflush_threshold_witness :
    (autobatch.run (autobatch.mapChild (fun _ => sample.backwards)) (fun _ => id) 0
        (sample.puts.map (fun kv => autobatch.Cmd.Put kv.1 kv.2))
        (autobatch.NewAutoBatching [("/a", [7])] ((sample.puts.length : Int) - 1))).maxBufferEntries
      = (sample.puts.length : Int) - 1 ∧
    (((autobatch.run (autobatch.mapChild (fun _ => sample.backwards)) (fun _ => id) 0
        (sample.puts.map (fun kv => autobatch.Cmd.Put kv.1 kv.2))
        (autobatch.NewAutoBatching [("/a", [7])] ((sample.puts.length : Int) - 1))).buffer.length
        : Int)
      ≤ (sample.puts.length : Int) - 1) ∧
    ∀ kv ∈ sample.puts,
      ((ds.MapDatastore.store (K := StrKey)).Get kv.1
        (autobatch.run (autobatch.mapChild (fun _ => sample.backwards)) (fun _ => id) 0
          (sample.puts.map (fun kv => autobatch.Cmd.Put kv.1 kv.2))
          (autobatch.NewAutoBatching [("/a", [7])] ((sample.puts.length : Int) - 1))).child).1
        = (kv.2, none) :=
  autoflush_threshold (fun _ => id) (fun _ => sample.backwards)
    (fun _ => RangeOrder.id_valid) (fun _ => sample.backwards_valid) [("/a", [7])]
    sample.puts (by decide) strKey_String_injective (by decide)

/-! ### Join -/

theorem joinLoop_append {K : Type} [KeyChild K] (key0 : K) (p : List K) (k : K) :
    key.KeySlice.joinLoop key0 (p ++ [k])
      = KeyChild.Child (key.KeySlice.joinLoop key0 p) (some k) := by
  induction p generalizing key0 with
  | nil => rfl
  | cons k1 rest ih => exact ih (KeyChild.Child key0 (some k1))

/-- C11: `KeySlice.Join` is a left fold with `Child`: `Join` of the empty slice is
the empty text key `NewStrKey("")`, `Join` of the one-element slice `[k]` is `k`,
and for every non-empty slice `p` and key `k`, `Join(p ++ [k]) = Join(p).Child(k)`. -/
theorem Join_left_fold {K : Type} [KeyChild K] (p : key.KeySlice K) (k : K) (hp : p ≠ []) :
    key.KeySlice.Join ([] : key.KeySlice K) = KeyChild.ofStrKey (NewStrKey "") ∧
    key.KeySlice.Join [k] = k ∧
    key.KeySlice.Join (p ++ [k]) = KeyChild.Child (key.KeySlice.Join p) (some k) := by
  refine ⟨rfl, rfl, ?_⟩
  cases p with
  | nil => exact absurd rfl hp
  | cons k0 rest => exact joinLoop_append k0 rest k

/-- Witness of C11 on the slice `[/a, /b]` and the key `/c`. -/
theorem Join_left_fold_witness :
    key.KeySlice.Join ([] : key.KeySlice StrKey) = KeyChild.ofStrKey (NewStrKey "") ∧
    key.KeySlice.Join [NewStrKey "/c"] = NewStrKey "/c" ∧
    key.KeySlice.Join (sample.keys ++ [NewStrKey "/c"])
      = KeyChild.Child (key.KeySlice.Join sample.keys) (some (NewStrKey "/c")) :=
  Join_left_fold sample.keys (NewStrKey "/c") (by decide)

/-! ### Close -/

/-- C12: `Close` gives the flush error priority and always closes the child.  For
every child and state, `Close` runs `Flush` and then the child's `Close` on the
child as `Flush` left it, also when `Flush` failed; it returns the `Flush` error if
there is one, otherwise the error of the child's `Close`, otherwise nil. -/
theorem Close_flush_error_first {K B W : Type} (c : ds.Batching K B W)
    (ord : RangeOrder (ds.op K)) (d : autobatch.Datastore K W) :
    (autobatch.Close c ord d).2
      = { child := (c.Close (autobatch.Flush c ord d).2.child).2
          buffer := (autobatch.Flush c ord d).2.buffer
          maxBufferEntries := (autobatch.Flush c ord d).2.maxBufferEntries } ∧
    (autobatch.Close c ord d).1
      = ((autobatch.Flush c ord d).1).or (c.Close (autobatch.Flush c ord d).2.child).1 ∧
    (∀ err1, (autobatch.Flush c ord d).1 = some err1 → (autobatch.Close c ord d).1 = some err1) ∧
    ((autobatch.Flush c ord d).1 = none →
      (autobatch.Close c ord d).1 = (c.Close (autobatch.Flush c ord d).2.child).1) := by
  have hstate : (autobatch.Close c ord d).2
      = { child := (c.Close (autobatch.Flush c ord d).2.child).2
          buffer := (autobatch.Flush c ord d).2.buffer
          maxBufferEntries := (autobatch.Flush c ord d).2.maxBufferEntries } := by
    simp only [autobatch.Close]
    split
    · rfl
    · split <;> rfl
  have herr : (autobatch.Close c ord d).1
      = ((autobatch.Flush c ord d).1).or (c.Close (autobatch.Flush c ord d).2.child).1 := by
    simp only [autobatch.Close]
    cases h1 : (autobatch.Flush c ord d).1 with
    | some e1 => simp
    | none =>
      cases h2 : (c.Close (autobatch.Flush c ord d).2.child).1 with
      | some e2 => simp [h2]
      | none => simp [h2]
  refine ⟨hstate, herr, ?_, ?_⟩
  · intro err1 h1
    rw [herr, h1]
    rfl
  · intro h1
    rw [herr, h1]
    cases (c.Close (autobatch.Flush c ord d).2.child).1 <;> rfl

/-! ### Sync and a failing commit -/

/-- C19: prefix-scoped `Sync` can lose writes on commit failure.  There are a
child whose batch fails to commit, a buffer, a prefix and a buffered put under the
prefix such that `Sync(prefix)` replays the op into the batch without error, gets
the commit error and returns it; afterwards the op is absent from the buffer, the
child is what it was before and does not hold the op's value. -/
theorem Sync_commit_failure_loses_write :
    ∃ (c : ds.Batching StrKey (ds.basicBatch StrKey ds.MapDatastore) ds.MapDatastore)
      (d : autobatch.Datastore StrKey ds.MapDatastore) (pfx : StrKey)
      (e : String × ds.op StrKey) (err : ds.Error),
      e ∈ d.buffer ∧ e.1 = Key.String e.2.key ∧
      autobatch.atOrUnder (some pfx) e.2.key = true ∧
      (autobatch.syncLoop c (some pfx) d.buffer d.buffer
        (ds.NewBasicBatch (ds.failingStore err)) d.child).1 = none ∧
      (c.batch.Commit
        (autobatch.syncLoop c (some pfx) d.buffer d.buffer
          (ds.NewBasicBatch (ds.failingStore err)) d.child).2.2.1
        (autobatch.syncLoop c (some pfx) d.buffer d.buffer
          (ds.NewBasicBatch (ds.failingStore err)) d.child).2.2.2).1 = some err ∧
      (autobatch.Sync c id (some pfx) d).1 = some err ∧
      GoMap.lookup (autobatch.Sync c id (some pfx) d).2.buffer e.1 = none ∧
      (autobatch.Sync c id (some pfx) d).2.child = d.child ∧
      GoMap.lookup (autobatch.Sync c id (some pfx) d).2.child e.1 ≠ e.2.effect :=
  ⟨sample.failingChild, sample.buffered, NewStrKey "/a",
    ("/a", { key := NewStrKey "/a", delete := false, value := [1, 2] }),
    ds.Error.other "write failed", by decide⟩

/-! ### Writes below the threshold -/

section ThresholdFrameLemmas

variable {K B W : Type}

theorem GoMap.length_insert_congr {α : Type} (m : GoMap α) (k : String) (v1 v2 : α) :
    (GoMap.insert m k v1).length = (GoMap.insert m k v2).length := by
  by_cases h : k ∈ GoMap.keys m
  · rw [GoMap.length_insert_of_mem m k v1 h, GoMap.length_insert_of_mem m k v2 h]
  · rw [GoMap.length_insert_of_not_mem m k v1 h, GoMap.length_insert_of_not_mem m k v2 h]

theorem flushLoop_countingBatches (c : ds.Batching K B W) (L : List (String × ds.op K)) (b : B)
    (w : W) (n : Nat) :
    autobatch.flushLoop (ds.countingBatches c) L b (w, n)
      = ((autobatch.flushLoop c L b w).1, (autobatch.flushLoop c L b w).2.1,
          ((autobatch.flushLoop c L b w).2.2, n)) := by
  induction L generalizing b w with
  | nil => rfl
  | cons e rest ih =>
    obtain ⟨k1, o⟩ := e
    cases hd : o.delete with
    | true =>
      cases hr : c.batch.Delete o.key b w with
      | mk e1 r =>
        obtain ⟨b1, w1⟩ := r
        cases e1 with
        | some err => simp [autobatch.flushLoop, ds.countingBatches, hd, hr]
        | none =>
          have := ih b1 w1
          simp only [autobatch.flushLoop, ds.countingBatches, hd, hr, if_true] at this ⊢
          exact this
    | false =>
      cases hr : c.batch.Put o.key o.value b w with
      | mk e1 r =>
        obtain ⟨b1, w1⟩ := r
        cases e1 with
        | some err => simp [autobatch.flushLoop, ds.countingBatches, hd, hr]
        | none =>
          have := ih b1 w1
          simp only [autobatch.flushLoop, ds.countingBatches, hd, hr, Bool.false_eq_true,
            if_false] at this ⊢
          exact this

/-- `Flush` opens exactly one batch on the child. -/
theorem Flush_countingBatches (c : ds.Batching K B W) (ord : RangeOrder (ds.op K))
    (d : autobatch.Datastore K W) (n : Nat) :
    autobatch.Flush (ds.countingBatches c) ord (autobatch.counted d n)
      = ((autobatch.Flush c ord d).1, autobatch.counted (autobatch.Flush c ord d).2 (n + 1)) := by
  cases hB : c.Batch d.child with
  | mk r w =>
    cases r with
    | error err =>
      simp [autobatch.Flush, autobatch.counted, ds.countingBatches, hB]
    | ok b =>
      have hB2 : (ds.countingBatches c).Batch (d.child, n) = (Except.ok b, (w, n + 1)) := by
        simp [ds.countingBatches, hB]
      have hL := flushLoop_countingBatches c (ord d.buffer) b w (n + 1)
      cases hl : autobatch.flushLoop c (ord d.buffer) b w with
      | mk e1 r =>
        obtain ⟨b1, w1⟩ := r
        rw [hl] at hL
        cases e1 with
        | some err =>
          simp only [autobatch.Flush, autobatch.counted, hB2, hB, hL, hl]
        | none =>
          simp only [autobatch.Flush, autobatch.counted, hB2, hB, hL, hl]
          rfl

end ThresholdFrameLemmas

/-- C20: writes below the threshold stay in memory.  For every child, state, key
and value, with `sizeAfter` the buffer size right after the entry of the key is
assigned: if it is at most `maxBufferEntries`, `Put` and `Delete` return nil and
leave the decorator with only that assignment made; the assignment leaves the
child and every other entry of the buffer unchanged; if it exceeds
`maxBufferEntries`, `Put` and `Delete` return what `Flush` returns; and over a
child that counts its batches, `Put` and `Delete` open one batch exactly when the
size exceeds `maxBufferEntries`, and none otherwise. -/
theorem writes_below_threshold_stay_buffered {K B W : Type} [Key K] (c : ds.Batching K B W)
    (ord : RangeOrder (ds.op K)) (k : K) (val : ds.Bytes) (d : autobatch.Datastore K W)
    (n : Nat) :
    (autobatch.sizeAfter d k ≤ d.maxBufferEntries →
      autobatch.Put c ord k val d = (none, autobatch.afterPut d k val) ∧
      autobatch.Delete c ord k d = (none, autobatch.afterDelete d k)) ∧
    ((autobatch.afterPut d k val).child = d.child ∧
      (autobatch.afterDelete d k).child = d.child ∧
      GoMap.lookup (autobatch.afterPut d k val).buffer (Key.String k)
        = some { key := k, delete := false, value := val } ∧
      GoMap.lookup (autobatch.afterDelete d k).buffer (Key.String k)
        = some { key := k, delete := true, value := [] } ∧
      ∀ ks, ks ≠ Key.String k →
        GoMap.lookup (autobatch.afterPut d k val).buffer ks = GoMap.lookup d.buffer ks ∧
        GoMap.lookup (autobatch.afterDelete d k).buffer ks = GoMap.lookup d.buffer ks) ∧
    (d.maxBufferEntries < autobatch.sizeAfter d k →
      autobatch.Put c ord k val d = autobatch.Flush c ord (autobatch.afterPut d k val) ∧
      autobatch.Delete c ord k d = autobatch.Flush c ord (autobatch.afterDelete d k)) ∧
    ((autobatch.Put (ds.countingBatches c) ord k val (autobatch.counted d n)).2.child.2
        = (if d.maxBufferEntries < autobatch.sizeAfter d k then n + 1 else n) ∧
      (autobatch.Delete (ds.countingBatches c) ord k (autobatch.counted d n)).2.child.2
        = (if d.maxBufferEntries < autobatch.sizeAfter d k then n + 1 else n)) := by
  have hsz : ∀ (o : ds.op K),
      ((GoMap.insert d.buffer (Key.String k) o).length : Int) = autobatch.sizeAfter d k := by
    intro o
    simp only [autobatch.sizeAfter]
    rw [GoMap.length_insert_congr d.buffer (Key.String k) o]
  have hput : ∀ {W2 : Type} (c2 : ds.Batching K B W2) (d2 : autobatch.Datastore K W2),
      d2.buffer = d.buffer → d2.maxBufferEntries = d.maxBufferEntries →
      autobatch.Put c2 ord k val d2
        = if d.maxBufferEntries < autobatch.sizeAfter d k then
            autobatch.Flush c2 ord (autobatch.afterPut d2 k val)
          else (none, autobatch.afterPut d2 k val) := by
    intro W2 c2 d2 hb hm
    simp only [autobatch.Put, autobatch.afterPut, hb, hm, hsz, gt_iff_lt]
  have hdel : ∀ {W2 : Type} (c2 : ds.Batching K B W2) (d2 : autobatch.Datastore K W2),
      d2.buffer = d.buffer → d2.maxBufferEntries = d.maxBufferEntries →
      autobatch.Delete c2 ord k d2
        = if d.maxBufferEntries < autobatch.sizeAfter d k then
            autobatch.Flush c2 ord (autobatch.afterDelete d2 k)
          else (none, autobatch.afterDelete d2 k) := by
    intro W2 c2 d2 hb hm
    simp only [autobatch.Delete, autobatch.afterDelete, hb, hm, hsz, gt_iff_lt]
  refine ⟨?_, ⟨rfl, rfl, GoMap.lookup_insert_self _ _ _, GoMap.lookup_insert_self _ _ _, ?_⟩,
    ?_, ?_, ?_⟩
  · intro hle
    exact ⟨by rw [hput c d rfl rfl, if_neg (not_lt.2 hle)],
      by rw [hdel c d rfl rfl, if_neg (not_lt.2 hle)]⟩
  · intro ks hks
    exact ⟨GoMap.lookup_insert_ne _ _ _ _ (fun h => hks h.symm),
      GoMap.lookup_insert_ne _ _ _ _ (fun h => hks h.symm)⟩
  · intro hlt
    exact ⟨by rw [hput c d rfl rfl, if_pos hlt], by rw [hdel c d rfl rfl, if_pos hlt]⟩
  · rw [hput (ds.countingBatches c) (autobatch.counted d n) rfl rfl]
    by_cases hlt : d.maxBufferEntries < autobatch.sizeAfter d k
    · rw [if_pos hlt, if_pos hlt]
      have := Flush_countingBatches c ord (autobatch.afterPut d k val) n
      simp only [autobatch.counted, autobatch.afterPut] at this ⊢
      rw [this]
    · rw [if_neg hlt, if_neg hlt]
      rfl
  · rw [hdel (ds.countingBatches c) (autobatch.counted d n) rfl rfl]
    by_cases hlt : d.maxBufferEntries < autobatch.sizeAfter d k
    · rw [if_pos hlt, if_pos hlt]
      have := Flush_countingBatches c ord (autobatch.afterDelete d k) n
      simp only [autobatch.counted, autobatch.afterDelete] at this ⊢
      rw [this]
    · rw [if_neg hlt, if_neg hlt]
      rfl

/-! ### The delay injector -/

/-- C14: the delay injector forwards unmodified after exactly one wait.  For every
inner store, argument and world, each of `Put`, `Get`, `Has`, `GetSize`,
`Delete`, `Query`, `Sync` and `DiskUsage` of the wrapper returns the result and
error of the inner store's operation and leaves the inner store as that
operation leaves it, and the trace grows by one wait followed by one inner call
of the same operation with the same arguments. -/
theorem Delayed_forwards_after_one_wait {K Q R T : Type} (st : delayed.Store K Q R T) (k : K)
    (v : ds.Bytes) (q : Q) (pfx : Option K) (t : T) (log : List (delayed.Event K Q)) :
    (delayed.tracedDelayed st).Put k v (t, log)
      = ((st.Put k v t).1, ((st.Put k v t).2,
          log ++ [delayed.Event.Wait, delayed.Event.Put k v])) ∧
    (delayed.tracedDelayed st).Get k (t, log)
      = ((st.Get k t).1, ((st.Get k t).2, log ++ [delayed.Event.Wait, delayed.Event.Get k])) ∧
    (delayed.tracedDelayed st).Has k (t, log)
      = ((st.Has k t).1, ((st.Has k t).2, log ++ [delayed.Event.Wait, delayed.Event.Has k])) ∧
    (delayed.tracedDelayed st).GetSize k (t, log)
      = ((st.GetSize k t).1, ((st.GetSize k t).2,
          log ++ [delayed.Event.Wait, delayed.Event.GetSize k])) ∧
    (delayed.tracedDelayed st).Delete k (t, log)
      = ((st.Delete k t).1, ((st.Delete k t).2,
          log ++ [delayed.Event.Wait, delayed.Event.Delete k])) ∧
    (delayed.tracedDelayed st).Query q (t, log)
      = ((st.Query q t).1, ((st.Query q t).2,
          log ++ [delayed.Event.Wait, delayed.Event.Query q])) ∧
    (delayed.tracedDelayed st).Sync pfx (t, log)
      = ((st.Sync pfx t).1, ((st.Sync pfx t).2,
          log ++ [delayed.Event.Wait, delayed.Event.Sync pfx])) ∧
    (delayed.tracedDelayed st).DiskUsage (t, log)
      = ((st.DiskUsage t).1, ((st.DiskUsage t).2,
          log ++ [delayed.Event.Wait, delayed.Event.DiskUsage])) := by
  refine ⟨?_, ?_, ?_, ?_, ?_, ?_, ?_, ?_⟩ <;>
    simp [delayed.tracedDelayed, delayed.New, delayed.traced, delayed.tracedWait,
      delayed.Delayed.Put, delayed.Delayed.Get, delayed.Delayed.Has, delayed.Delayed.GetSize,
      delayed.Delayed.Delete, delayed.Delayed.Query, delayed.Delayed.Sync,
      delayed.Delayed.DiskUsage]

section DelayedBatchLemmas

variable {K Q R T : Type}

theorem tracedDelayed_Put (st : delayed.Store K Q R T) (k : K) (v : ds.Bytes)
    (s : T × List (delayed.Event K Q)) :
    (delayed.tracedDelayed st).asDatastore.Put k v s
      = ((st.Put k v s.1).1, ((st.Put k v s.1).2,
          s.2 ++ [delayed.Event.Wait, delayed.Event.Put k v])) := by
  simp [delayed.tracedDelayed, delayed.New, delayed.traced, delayed.tracedWait,
    delayed.Delayed.Put, delayed.Delayed.asDatastore]

theorem tracedDelayed_Delete (st : delayed.Store K Q R T) (k : K)
    (s : T × List (delayed.Event K Q)) :
    (delayed.tracedDelayed st).asDatastore.Delete k s
      = ((st.Delete k s.1).1, ((st.Delete k s.1).2,
          s.2 ++ [delayed.Event.Wait, delayed.Event.Delete k])) := by
  simp [delayed.tracedDelayed, delayed.New, delayed.traced, delayed.tracedWait,
    delayed.Delayed.Delete, delayed.Delayed.asDatastore]

/-- A commit through the wrapper returns what the commit into the inner store
returns, and when that is nil it leaves the inner store as that commit does and
adds to the trace, for every op in range order, a wait and the inner call. -/
theorem commitLoop_tracedDelayed (st : delayed.Store K Q R T) (L : List (String × ds.op K))
    (t : T) (log : List (delayed.Event K Q)) :
    (ds.basicBatch.commitLoop (delayed.tracedDelayed st).asDatastore L (t, log)).1
      = (ds.basicBatch.commitLoop st.toDatastore L t).1 ∧
    ((ds.basicBatch.commitLoop st.toDatastore L t).1 = none →
      ds.basicBatch.commitLoop (delayed.tracedDelayed st).asDatastore L (t, log)
        = (none, ((ds.basicBatch.commitLoop st.toDatastore L t).2,
            log ++ L.flatMap (fun e => [delayed.Event.Wait, delayed.Event.ofOp e.2])))) := by
  induction L generalizing t log with
  | nil => simp [ds.basicBatch.commitLoop]
  | cons e rest ih =>
    obtain ⟨k1, o⟩ := e
    cases hd : o.delete with
    | true =>
      cases hr : st.Delete o.key t with
      | mk e1 t1 =>
        cases e1 with
        | some err =>
          simp [ds.basicBatch.commitLoop, tracedDelayed_Delete, hd, hr]
        | none =>
          obtain ⟨h1, h2⟩ := ih t1 (log ++ [delayed.Event.Wait, delayed.Event.Delete o.key])
          simp only [ds.basicBatch.commitLoop, tracedDelayed_Delete, hd, hr, if_true]
          refine ⟨h1, ?_⟩
          intro hnone
          rw [h2 hnone]
          simp [delayed.Event.ofOp, hd]
    | false =>
      cases hr : st.Put o.key o.value t with
      | mk e1 t1 =>
        cases e1 with
        | some err =>
          simp [ds.basicBatch.commitLoop, tracedDelayed_Put, hd, hr]
        | none =>
          obtain ⟨h1, h2⟩ := ih t1 (log ++ [delayed.Event.Wait, delayed.Event.Put o.key o.value])
          simp only [ds.basicBatch.commitLoop, tracedDelayed_Put, hd, hr, Bool.false_eq_true,
            if_false]
          refine ⟨h1, ?_⟩
          intro hnone
          rw [h2 hnone]
          simp [delayed.Event.ofOp, hd]

theorem countP_isWait_flatMap (L : List (String × ds.op K)) :
    ((L.flatMap (fun e => [delayed.Event.Wait, delayed.Event.ofOp (Q := Q) e.2])).countP
      delayed.Event.isWait) = L.length := by
  induction L with
  | nil => rfl
  | cons e rest ih =>
    have hof : delayed.Event.isWait (delayed.Event.ofOp (Q := Q) e.2) = false := by
      simp only [delayed.Event.ofOp]
      split <;> rfl
    have hw : delayed.Event.isWait (delayed.Event.Wait : delayed.Event K Q) = true := rfl
    simp only [List.flatMap_cons, List.countP_append, ih, List.length_cons, List.countP_cons,
      List.countP_nil, hof, hw]
    simp only [Bool.false_eq_true, if_false, if_true]
    omega

end DelayedBatchLemmas

/-- C13: a batch obtained from the delay injector incurs the delay once per
committed operation.  `Batch()` returns, with a nil error and the world
untouched (no wait, no inner call), a basic batch whose target is the wrapper;
`Put` and `Delete` on that batch leave the world untouched; and a `Commit` that
succeeds on a batch of `n` entries leaves the inner store as the direct commit of
the ops does and adds to the trace, for each op in range order, one wait followed
by the inner `Put` or `Delete`: `n` waits in all. -/
theorem Delayed_batch_waits_per_op {K Q R T : Type} [Key K] (st : delayed.Store K Q R T)
    (ord : RangeOrder (ds.op K)) (hord : RangeOrder.Valid ord) (ops : GoMap (ds.op K)) (t : T)
    (log : List (delayed.Event K Q))
    (hok : (ds.basicBatch.Commit ord
      { ops := ops, target := (delayed.tracedDelayed st).asDatastore } (t, log)).1 = none) :
    (delayed.tracedDelayed st).Batch (t, log)
      = ((ds.NewBasicBatch (delayed.tracedDelayed st).asDatastore, none), (t, log)) ∧
    (∀ (b : ds.basicBatch K (T × List (delayed.Event K Q))) (k : K) (v : ds.Bytes),
      ((ds.basicBatching (delayed.tracedDelayed st).asDatastore ord).batch.Put k v b
        (t, log)).2.2 = (t, log) ∧
      ((ds.basicBatching (delayed.tracedDelayed st).asDatastore ord).batch.Delete k b
        (t, log)).2.2 = (t, log)) ∧
    (ds.basicBatch.Commit ord
      { ops := ops, target := (delayed.tracedDelayed st).asDatastore } (t, log)).2
      = ((ds.basicBatch.commitLoop st.toDatastore (ord ops) t).2,
          log ++ (ord ops).flatMap (fun e => [delayed.Event.Wait, delayed.Event.ofOp e.2])) ∧
    ((ds.basicBatch.Commit ord
      { ops := ops, target := (delayed.tracedDelayed st).asDatastore } (t, log)).2.2.countP
        delayed.Event.isWait)
      = log.countP delayed.Event.isWait + ops.length := by
  obtain ⟨h1, h2⟩ := commitLoop_tracedDelayed st (ord ops) t log
  have hok2 : (ds.basicBatch.commitLoop st.toDatastore (ord ops) t).1 = none := by
    rw [← h1]
    exact hok
  have hC : ds.basicBatch.Commit ord
      { ops := ops, target := (delayed.tracedDelayed st).asDatastore } (t, log)
      = (none, ((ds.basicBatch.commitLoop st.toDatastore (ord ops) t).2,
          log ++ (ord ops).flatMap (fun e => [delayed.Event.Wait, delayed.Event.ofOp e.2]))) :=
    h2 hok2
  refine ⟨rfl, fun _ _ _ => ⟨rfl, rfl⟩, ?_, ?_⟩
  · rw [hC]
  · rw [hC]
    simp only [List.countP_append, countP_isWait_flatMap]
    rw [(hord ops).length_eq]

/-- Witness of C13: a batch with a put of `/a` and a delete of `/b` committed
through the wrapper into a map store holding `/a`. -/
theorem Delayed_batch_waits_per_op_witness :
    (delayed.tracedDelayed sample.fullMapStore).Batch ([("/a", [7])], [])
      = ((ds.NewBasicBatch (delayed.tracedDelayed sample.fullMapStore).asDatastore, none),
          ([("/a", [7])], [])) ∧
    (∀ (b : ds.basicBatch StrKey (ds.MapDatastore × List (delayed.Event StrKey Unit)))
        (k : StrKey) (v : ds.Bytes),
      ((ds.basicBatching (delayed.tracedDelayed sample.fullMapStore).asDatastore
        sample.backwards).batch.Put k v b ([("/a", [7])], [])).2.2 = ([("/a", [7])], []) ∧
      ((ds.basicBatching (delayed.tracedDelayed sample.fullMapStore).asDatastore
        sample.backwards).batch.Delete k b ([("/a", [7])], [])).2.2 = ([("/a", [7])], [])) ∧
    (ds.basicBatch.Commit sample.backwards
      { ops := sample.buffered.buffer
        target := (delayed.tracedDelayed sample.fullMapStore).asDatastore }
      ([("/a", [7])], [])).2
      = ((ds.basicBatch.commitLoop sample.fullMapStore.toDatastore
            (sample.backwards sample.buffered.buffer) [("/a", [7])]).2,
          [] ++ (sample.backwards sample.buffered.buffer).flatMap
            (fun e => [delayed.Event.Wait, delayed.Event.ofOp e.2])) ∧
    ((ds.basicBatch.Commit sample.backwards
      { ops := sample.buffered.buffer
        target := (delayed.tracedDelayed sample.fullMapStore).asDatastore }
      ([("/a", [7])], [])).2.2.countP delayed.Event.isWait)
      = ([] : List (delayed.Event StrKey Unit)).countP delayed.Event.isWait
        + sample.buffered.buffer.length :=
  Delayed_batch_waits_per_op sample.fullMapStore sample.backwards sample.backwards_valid
    sample.buffered.buffer [("/a", [7])] [] (by decide)

/-! ### The retry wrapper -/

section RetryLemmas

variable {S α β : Type}

theorem attempts_mapVal (temp : ds.Error → Bool) (f : α → β)
    (op : S → (α × Option ds.Error) × S) (n : Nat) (s : S) :
    retrystore.attempts temp (retrystore.mapVal f op) n s
      = retrystore.mapVal f (retrystore.attempts temp op n) s := by
  induction n generalizing s with
  | zero =>
    simp only [retrystore.attempts, retrystore.mapVal]
    cases h : (op s).1.2 with
    | none => simp [h]
    | some err =>
      by_cases ht : temp err = true
      · simp [ht]
      · simp [ht, h]
  | succ n ih =>
    simp only [retrystore.attempts]
    cases h : (op s).1.2 with
    | none => simp [retrystore.mapVal, h]
    | some err =>
      by_cases ht : temp err = true
      · simp only [retrystore.mapVal, h, ht, if_true]
        have := ih (op s).2
        simp only [retrystore.mapVal] at this
        rw [this]
      · simp [retrystore.mapVal, h, ht]

theorem countedOp_apply (op : S → (α × Option ds.Error) × S) (s : S) (n0 : Nat) :
    retrystore.countedOp op (s, n0) = ((op s).1, ((op s).2, n0 + 1)) :=
  rfl

/-- When every invocation fails with a transient error, a call with `n` retries
invokes the operation `n + 1` times and fails with `errRetries` of the last
error. -/
theorem attempts_exhausted (temp : ds.Error → Bool) (op : S → (α × Option ds.Error) × S)
    (hfail : ∀ s, ∃ err, (op s).1.2 = some err ∧ temp err = true) (n : Nat) (s : S) (n0 : Nat) :
    ∃ err, (op (retrystore.stateAfter op n s)).1.2 = some err ∧
      retrystore.attempts temp (retrystore.countedOp op) n (s, n0)
        = (((op (retrystore.stateAfter op n s)).1.1, some (retrystore.errRetries err)),
            ((op (retrystore.stateAfter op n s)).2, n0 + n + 1)) := by
  induction n generalizing s n0 with
  | zero =>
    obtain ⟨err, herr, ht⟩ := hfail s
    refine ⟨err, herr, ?_⟩
    simp [retrystore.attempts, countedOp_apply, retrystore.stateAfter, herr, ht]
  | succ n ih =>
    obtain ⟨err, herr, ht⟩ := hfail s
    obtain ⟨err2, herr2, h2⟩ := ih (op s).2 (n0 + 1)
    refine ⟨err2, herr2, ?_⟩
    simp only [retrystore.attempts, countedOp_apply, herr, ht, if_true]
    rw [h2]
    simp only [retrystore.stateAfter]
    congr 2
    omega

/-- When the first `j` invocations fail with transient errors and the next one,
within the budget, returns an error that is not transient, the call returns that
invocation's result unchanged and invokes the operation `j + 1` times. -/
theorem attempts_passthrough (temp : ds.Error → Bool) (op : S → (α × Option ds.Error) × S)
    (j n : Nat) (hj : j ≤ n) (s : S) (n0 : Nat)
    (htemp : ∀ i, i < j →
      ∃ e, (op (retrystore.stateAfter op i s)).1.2 = some e ∧ temp e = true)
    (err : ds.Error) (hreal : (op (retrystore.stateAfter op j s)).1.2 = some err)
    (hnt : temp err = false) :
    retrystore.attempts temp (retrystore.countedOp op) n (s, n0)
      = ((op (retrystore.stateAfter op j s)).1,
          ((op (retrystore.stateAfter op j s)).2, n0 + j + 1)) := by
  induction j generalizing n s n0 with
  | zero =>
    simp only [retrystore.stateAfter] at hreal
    cases n with
    | zero =>
      simp [retrystore.attempts, countedOp_apply, retrystore.stateAfter, hreal, hnt]
    | succ n =>
      simp [retrystore.attempts, countedOp_apply, retrystore.stateAfter, hreal, hnt]
  | succ j ih =>
    cases n with
    | zero => omega
    | succ n =>
      obtain ⟨e, he, het⟩ := htemp 0 (Nat.succ_pos j)
      simp only [retrystore.stateAfter] at he
      have h2 := ih n (Nat.le_of_succ_le_succ hj) (op s).2 (n0 + 1)
        (fun i hi => htemp (i + 1) (Nat.succ_lt_succ hi)) hreal
      simp only [retrystore.attempts, countedOp_apply, he, het, if_true]
      rw [h2]
      simp only [retrystore.stateAfter]
      congr 2
      omega

end RetryLemmas

section RetryCallLemmas

variable {K T : Type}

theorem invoke_counting (st : ds.Datastore K T) (o : retrystore.Op K) :
    o.invoke (retrystore.counting st) = retrystore.countedOp (o.invoke st) := by
  cases o <;> rfl

/-- A call on the wrapper is the retry policy applied to the invocation of the
operation on the wrapped store. -/
theorem call_eq_attempts (d : retrystore.Datastore K T) (o : retrystore.Op K) (t : T) :
    d.call o t = retrystore.attempts d.TempErrFunc (o.invoke d.Batching) d.Retries t := by
  cases o with
  | Get k =>
    simp only [retrystore.Datastore.call, retrystore.Op.invoke, attempts_mapVal]
    rfl
  | Has k =>
    simp only [retrystore.Datastore.call, retrystore.Op.invoke, attempts_mapVal]
    rfl
  | GetSize k =>
    simp only [retrystore.Datastore.call, retrystore.Op.invoke, attempts_mapVal]
    rfl
  | Put k v =>
    simp only [retrystore.Datastore.call, retrystore.Op.invoke, attempts_mapVal]
    rfl
  | Delete k =>
    simp only [retrystore.Datastore.call, retrystore.Op.invoke, attempts_mapVal]
    rfl

theorem errRetries_ne (err : ds.Error) : retrystore.errRetries err ≠ err := by
  intro h
  have := congrArg sizeOf h
  simp only [retrystore.errRetries, ds.Error.wrapped.sizeOf_spec] at this
  omega

end RetryCallLemmas

/-- C15: retry budget exhaustion.  For every `Retries = N`, every operation
(`Get`, `Has`, `GetSize`, `Put`, `Delete`) and a backend on which that operation
fails at every invocation with an error `TempErrFunc` classifies as transient,
the call on the wrapper invokes the backend exactly `N + 1` times and fails
with the distinct error `errRetries` that wraps the error of the last
invocation. -/
theorem retry_budget_exhausted {K T : Type} (st : ds.Datastore K T) (temp : ds.Error → Bool)
    (N : Nat) (o : retrystore.Op K) (t : T) (n0 : Nat)
    (hfail : ∀ s, ∃ err, (o.invoke st s).1.2 = some err ∧ temp err = true) :
    ∃ err,
      (o.invoke st (retrystore.stateAfter (o.invoke st) N t)).1.2 = some err ∧
      retrystore.errRetries err ≠ err ∧
      retrystore.Datastore.call
          { Batching := retrystore.counting st, Retries := N, TempErrFunc := temp } o (t, n0)
        = (((o.invoke st (retrystore.stateAfter (o.invoke st) N t)).1.1,
              some (retrystore.errRetries err)),
            ((o.invoke st (retrystore.stateAfter (o.invoke st) N t)).2, n0 + N + 1)) := by
  obtain ⟨err, herr, h⟩ := attempts_exhausted temp (o.invoke st) hfail N t n0
  refine ⟨err, herr, errRetries_ne err, ?_⟩
  rw [call_eq_attempts, invoke_counting]
  exact h

/-- Witness of C15: `TestRetryFailure`, `Get` with `Retries = 5` over a store that
always fails with the transient `myErr`: six invocations. -/
theorem retry_budget_exhausted_witness :
    ∃ err,
      ((retrystore.Op.Get (NewStrKey "test")).invoke sample.alwaysFailing
        (retrystore.stateAfter
          ((retrystore.Op.Get (NewStrKey "test")).invoke sample.alwaysFailing) 5 [])).1.2
        = some err ∧
      retrystore.errRetries err ≠ err ∧
      retrystore.Datastore.call
          { Batching := retrystore.counting sample.alwaysFailing, Retries := 5,
            TempErrFunc := fun e => decide (e = sample.myErr) }
          (retrystore.Op.Get (NewStrKey "test")) ([], 0)
        = ((((retrystore.Op.Get (NewStrKey "test")).invoke sample.alwaysFailing
              (retrystore.stateAfter
                ((retrystore.Op.Get (NewStrKey "test")).invoke sample.alwaysFailing) 5 [])).1.1,
              some (retrystore.errRetries err)),
            (((retrystore.Op.Get (NewStrKey "test")).invoke sample.alwaysFailing
              (retrystore.stateAfter
                ((retrystore.Op.Get (NewStrKey "test")).invoke sample.alwaysFailing) 5 [])).2,
              0 + 5 + 1)) :=
  retry_budget_exhausted sample.alwaysFailing (fun e => decide (e = sample.myErr)) 5
    (retrystore.Op.Get (NewStrKey "test")) [] 0 (fun _ => ⟨sample.myErr, rfl, by decide⟩)

/-- C16: the retry wrapper passes non-transient errors through.  For every
operation, if the first `j` invocations of the backend fail with transient
errors and invocation `j + 1`, within the budget (`j ≤ Retries`), returns an error
`TempErrFunc` does not classify as transient, the call on the wrapper returns
exactly the result of that invocation, the error unchanged (not wrapped), after
exactly `j + 1` invocations (one invocation when `j = 0`). -/
theorem nontransient_error_passes_through {K T : Type} (st : ds.Datastore K T)
    (temp : ds.Error → Bool) (N : Nat) (o : retrystore.Op K) (t : T) (n0 j : Nat) (hj : j ≤ N)
    (htemp : ∀ i, i < j →
      ∃ e, (o.invoke st (retrystore.stateAfter (o.invoke st) i t)).1.2 = some e ∧ temp e = true)
    (err : ds.Error)
    (hreal : (o.invoke st (retrystore.stateAfter (o.invoke st) j t)).1.2 = some err)
    (hnt : temp err = false) :
    retrystore.Datastore.call
        { Batching := retrystore.counting st, Retries := N, TempErrFunc := temp } o (t, n0)
      = ((o.invoke st (retrystore.stateAfter (o.invoke st) j t)).1,
          ((o.invoke st (retrystore.stateAfter (o.invoke st) j t)).2, n0 + j + 1)) ∧
    (retrystore.Datastore.call
        { Batching := retrystore.counting st, Retries := N, TempErrFunc := temp } o
        (t, n0)).1.2 = some err := by
  have h := attempts_passthrough temp (o.invoke st) j N hj t n0 htemp err hreal hnt
  rw [call_eq_attempts, invoke_counting]
  refine ⟨h, ?_⟩
  rw [h]
  exact hreal

/-- Witness of C16: `TestRealErrorAfterTemp`, `Get` with `Retries = 5` over a store
that fails twice with the transient `tempErr` and then with `myErr`: `myErr` comes
back after three invocations. -/
theorem nontransient_error_passes_through_witness :
    retrystore.Datastore.call
        { Batching := retrystore.counting sample.flaky, Retries := 5,
          TempErrFunc := fun e => decide (e = sample.tempErr) }
        (retrystore.Op.Get (NewStrKey "test")) (0, 0)
      = (((retrystore.Op.Get (NewStrKey "test")).invoke sample.flaky
            (retrystore.stateAfter
              ((retrystore.Op.Get (NewStrKey "test")).invoke sample.flaky) 2 0)).1,
          (((retrystore.Op.Get (NewStrKey "test")).invoke sample.flaky
            (retrystore.stateAfter
              ((retrystore.Op.Get (NewStrKey "test")).invoke sample.flaky) 2 0)).2,
            0 + 2 + 1)) ∧
    (retrystore.Datastore.call
        { Batching := retrystore.counting sample.flaky, Retries := 5,
          TempErrFunc := fun e => decide (e = sample.tempErr) }
        (retrystore.Op.Get (NewStrKey "test")) (0, 0)).1.2 = some sample.myErr :=
  nontransient_error_passes_through sample.flaky (fun e => decide (e = sample.tempErr)) 5
    (retrystore.Op.Get (NewStrKey "test")) 0 0 2 (by decide)
    (fun i hi => by
      have hi2 : i = 0 ∨ i = 1 := by omega
      rcases hi2 with rfl | rfl
      · exact ⟨sample.tempErr, rfl, by decide⟩
      · exact ⟨sample.tempErr, rfl, by decide⟩)
    sample.myErr rfl (by decide)

/-! ### The namespace translator -/

/-- C17: namespace translator round trip.  For every prefix key `p`, key `k`,
value `v` and content of a map store, `Put(k, v)` through the wrapper with prefix
`p` returns nil, and afterwards `Get(p.Child(k))` on the child store returns `v`
and `Get(k)` through the wrapper returns `v`. -/
theorem namespace_round_trip {K : Type} [Key K] [KeyChild K] (p k : K) (v : ds.Bytes)
    (s : ds.MapDatastore) :
    ((nsds.Wrap ds.MapDatastore.store p).Put k v s).1 = none ∧
    ((ds.MapDatastore.store (K := K)).Get (KeyChild.Child p (some k))
      ((nsds.Wrap ds.MapDatastore.store p).Put k v s).2).1 = (v, none) ∧
    ((nsds.Wrap ds.MapDatastore.store p).Get k
      ((nsds.Wrap ds.MapDatastore.store p).Put k v s).2).1 = (v, none) := by
  have hl : GoMap.lookup (GoMap.insert s (Key.String (KeyChild.Child p (some k))) v)
      (Key.String (KeyChild.Child p (some k))) = some v := GoMap.lookup_insert_self _ _ _
  refine ⟨rfl, ?_, ?_⟩
  · simp only [nsds.Datastore.Put, nsds.Wrap, nsds.Datastore.ConvertKey, ds.MapDatastore.store, hl]
  · simp only [nsds.Datastore.Put, nsds.Datastore.Get, nsds.Wrap, nsds.Datastore.ConvertKey,
      ds.MapDatastore.store, hl]

/-- Witness of C17: the example of the namespace package, prefix `/foo/bar`, key
`/beep` and value `boop`, read back from the child under `/foo/bar/beep`. -/
theorem namespace_round_trip_witness :
    ((nsds.Wrap ds.MapDatastore.store (NewStrKey "/foo/bar")).Put (NewStrKey "/beep")
      [98, 111, 111, 112] []).1 = none ∧
    ((ds.MapDatastore.store (K := StrKey)).Get (NewStrKey "/foo/bar/beep")
      ((nsds.Wrap ds.MapDatastore.store (NewStrKey "/foo/bar")).Put (NewStrKey "/beep")
        [98, 111, 111, 112] []).2).1 = ([98, 111, 111, 112], none) ∧
    ((nsds.Wrap ds.MapDatastore.store (NewStrKey "/foo/bar")).Get (NewStrKey "/beep")
      ((nsds.Wrap ds.MapDatastore.store (NewStrKey "/foo/bar")).Put (NewStrKey "/beep")
        [98, 111, 111, 112] []).2).1 = ([98, 111, 111, 112], none) :=
  namespace_round_trip (NewStrKey "/foo/bar") (NewStrKey "/beep") [98, 111, 111, 112] []

/-! ### Query ordering -/

theorem strKey_less_trans (a b c : StrKey) (hab : Key.Less a (some b) = true)
    (hbc : Key.Less b (some c) = true) : Key.Less a (some c) = true := by
  have h1 : a.string.data < b.string.data := of_decide_eq_true hab
  have h2 : b.string.data < c.string.data := of_decide_eq_true hbc
  exact decide_eq_true (lt_trans h1 h2)

theorem NaiveOrder_perm {K : Type} (es : List (query.Entry K)) (orders : List (query.Order K)) :
    (query.NaiveOrder es orders).Perm es := by
  cases orders with
  | nil => exact List.Perm.refl es
  | cons o rest => exact List.perm_insertionSort _ es

section OrderLemmas

variable {K : Type} [Key K]

theorem Less_OrderByKey (h : LawfulKey K) (a b : query.Entry K) :
    query.Less [query.OrderByKey] a b = Key.Less a.Key (some b.Key) := by
  simp only [query.Less, query.OrderByKey]
  rcases Compare_some_some_cases h a.Key b.Key with
    ⟨hab, hc⟩ | ⟨_, hl, _, hc⟩ | ⟨_, hl, _, hc⟩
  · rw [hab] at hc
    simp [hc, hab, h.less_irrefl]
  · simp [hc, hl]
  · simp [hc, hl]

theorem Less_OrderByKeyDescending (h : LawfulKey K) (a b : query.Entry K) :
    query.Less [query.OrderByKeyDescending] a b = Key.Less b.Key (some a.Key) := by
  simp only [query.Less, query.OrderByKeyDescending]
  rcases Compare_some_some_cases h a.Key b.Key with
    ⟨hab, hc⟩ | ⟨_, _, hl, hc⟩ | ⟨_, _, hl, hc⟩
  · rw [hab] at hc
    simp [hc, hab, h.less_irrefl]
  · simp [hc, hl]
  · simp [hc, hl]

/-- "Not above" is transitive for a lawful, transitive `Less`. -/
theorem not_less_trans (h : LawfulKey K)
    (htrans : ∀ a b c : K, Key.Less a (some b) = true → Key.Less b (some c) = true →
      Key.Less a (some c) = true)
    (a b c : K) (hab : Key.Less b (some a) = false) (hbc : Key.Less c (some b) = false) :
    Key.Less c (some a) = false := by
  cases hca : Key.Less c (some a) with
  | false => rfl
  | true =>
    exfalso
    by_cases hbceq : b = c
    · subst hbceq
      rw [hca] at hab
      cases hab
    · rcases h.less_total b c hbceq with hl | hl
      · have := htrans b c a hl hca
        rw [this] at hab
        cases hab
      · rw [hl] at hbc
        cases hbc

theorem NaiveOrder_asc_sorted (h : LawfulKey K)
    (htrans : ∀ a b c : K, Key.Less a (some b) = true → Key.Less b (some c) = true →
      Key.Less a (some c) = true)
    (es : List (query.Entry K)) :
    (query.NaiveOrder es [query.OrderByKey]).Pairwise
      (fun a b => Key.Less b.Key (some a.Key) = false) := by
  haveI : IsTotal (query.Entry K) (fun a b => query.Less [query.OrderByKey] b a = false) :=
    ⟨fun a b => by
      simp only [Less_OrderByKey h]
      cases hl : Key.Less b.Key (some a.Key) with
      | false => exact Or.inl rfl
      | true => exact Or.inr (h.less_asymm _ _ hl)⟩
  haveI : IsTrans (query.Entry K) (fun a b => query.Less [query.OrderByKey] b a = false) :=
    ⟨fun a b c hab hbc => by
      simp only [Less_OrderByKey h] at hab hbc ⊢
      exact not_less_trans h htrans a.Key b.Key c.Key hab hbc⟩
  have hs := List.sorted_insertionSort
    (fun a b : query.Entry K => query.Less [query.OrderByKey] b a = false) es
  refine List.Pairwise.imp ?_ hs
  intro a b hab
  simpa only [Less_OrderByKey h] using hab

theorem NaiveOrder_desc_sorted (h : LawfulKey K)
    (htrans : ∀ a b c : K, Key.Less a (some b) = true → Key.Less b (some c) = true →
      Key.Less a (some c) = true)
    (es : List (query.Entry K)) :
    (query.NaiveOrder es [query.OrderByKeyDescending]).Pairwise
      (fun a b => Key.Less a.Key (some b.Key) = false) := by
  haveI : IsTotal (query.Entry K)
      (fun a b => query.Less [query.OrderByKeyDescending] b a = false) :=
    ⟨fun a b => by
      simp only [Less_OrderByKeyDescending h]
      cases hl : Key.Less a.Key (some b.Key) with
      | false => exact Or.inl rfl
      | true => exact Or.inr (h.less_asymm _ _ hl)⟩
  haveI : IsTrans (query.Entry K)
      (fun a b => query.Less [query.OrderByKeyDescending] b a = false) :=
    ⟨fun a b c hab hbc => by
      simp only [Less_OrderByKeyDescending h] at hab hbc ⊢
      exact not_less_trans h htrans c.Key b.Key a.Key hbc hab⟩
  have hs := List.sorted_insertionSort
    (fun a b : query.Entry K => query.Less [query.OrderByKeyDescending] b a = false) es
  refine List.Pairwise.imp ?_ hs
  intro a b hab
  simpa only [Less_OrderByKeyDescending h] using hab

/-- A list sorted "not above" whose keys are pairwise distinct is strictly
sorted. -/
theorem strict_of_sorted_nodup (h : LawfulKey K) (l : List (query.Entry K))
    (hs : l.Pairwise (fun a b => Key.Less a.Key (some b.Key) = false))
    (hnd : (l.map query.Entry.Key).Nodup) :
    l.Pairwise (fun a b => Key.Less b.Key (some a.Key) = true) := by
  have hne : l.Pairwise (fun a b => a.Key ≠ b.Key) := List.pairwise_map.1 hnd
  refine List.Pairwise.imp ?_ (hs.and hne)
  intro a b hab
  rcases h.less_total a.Key b.Key hab.2 with hl | hl
  · rw [hl] at hab
    cases hab.1
  · exact hl

end OrderLemmas

/-- C18: query ordering by key.  For a lawful, transitive key order and every
finite list of entries: `NaiveOrder` with `OrderByKey` returns a permutation of
the input in which no entry's key is `Less` than the key of an earlier entry, and
in which the entries of any one key are in their input order; and when the keys
of the input are pairwise distinct, `NaiveOrder` with `OrderByKeyDescending`
returns the exact reverse of the ascending result. -/
theorem NaiveOrder_by_key {K : Type} [Key K] (h : LawfulKey K)
    (htrans : ∀ a b c : K, Key.Less a (some b) = true → Key.Less b (some c) = true →
      Key.Less a (some c) = true)
    (es : List (query.Entry K)) :
    (query.NaiveOrder es [query.OrderByKey]).Perm es ∧
    (query.NaiveOrder es [query.OrderByKey]).Pairwise
      (fun a b => Key.Less b.Key (some a.Key) = false) ∧
    (∀ k : K, (query.NaiveOrder es [query.OrderByKey]).filter
        (fun e => Key.Equal e.Key (some k))
      = es.filter (fun e => Key.Equal e.Key (some k))) ∧
    ((es.map query.Entry.Key).Nodup →
      query.NaiveOrder es [query.OrderByKeyDescending]
        = (query.NaiveOrder es [query.OrderByKey]).reverse) := by
  have hpA := NaiveOrder_perm es [query.OrderByKey]
  have hpD := NaiveOrder_perm es [query.OrderByKeyDescending]
  have hsA := NaiveOrder_asc_sorted h htrans es
  have hsD := NaiveOrder_desc_sorted h htrans es
  refine ⟨hpA, hsA, ?_, ?_⟩
  · intro k
    have hc : (es.filter (fun e => Key.Equal e.Key (some k))).Pairwise
        (fun a b => query.Less [query.OrderByKey] b a = false) := by
      rw [List.pairwise_iff_forall_sublist]
      intro a b hab
      have ha : a ∈ es.filter (fun e => Key.Equal e.Key (some k)) :=
        hab.subset (List.mem_cons_self _ _)
      have hb : b ∈ es.filter (fun e => Key.Equal e.Key (some k)) :=
        hab.subset (List.mem_cons_of_mem _ (List.mem_cons_self _ _))
      have hak : a.Key = k := (h.equal_iff _ _).1 (List.mem_filter.1 ha).2
      have hbk : b.Key = k := (h.equal_iff _ _).1 (List.mem_filter.1 hb).2
      rw [Less_OrderByKey h, hak, hbk]
      exact h.less_irrefl k
    have hsub : List.Sublist (es.filter (fun e => Key.Equal e.Key (some k)))
        (query.NaiveOrder es [query.OrderByKey]) :=
      List.sublist_insertionSort hc (List.filter_sublist es)
    have hsub2 := hsub.filter (fun e => Key.Equal e.Key (some k))
    rw [List.filter_filter] at hsub2
    simp only [Bool.and_self] at hsub2
    have hlen := (hpA.filter (fun e => Key.Equal e.Key (some k))).length_eq
    exact (hsub2.eq_of_length hlen.symm).symm
  · intro hnd
    have hndD : ((query.NaiveOrder es [query.OrderByKeyDescending]).map query.Entry.Key).Nodup :=
      ((hpD.map query.Entry.Key).nodup_iff).2 hnd
    have hndA : ((query.NaiveOrder es [query.OrderByKey]).reverse.map query.Entry.Key).Nodup :=
      ((((List.reverse_perm _).trans hpA).map query.Entry.Key).nodup_iff).2 hnd
    have hsAr : (query.NaiveOrder es [query.OrderByKey]).reverse.Pairwise
        (fun a b => Key.Less a.Key (some b.Key) = false) :=
      List.pairwise_reverse.2 hsA
    have h1 := strict_of_sorted_nodup h _ hsD hndD
    have h2 := strict_of_sorted_nodup h _ hsAr hndA
    refine List.Perm.eq_of_sorted ?_ h1 h2
      (hpD.trans (hpA.symm.trans (List.reverse_perm _).symm))
    intro a b _ _ hab hba
    have := h.less_asymm _ _ hab
    rw [this] at hba
    cases hba

/-- Witness of C18: six entries with the keys of the ordering tests. -/
theorem NaiveOrder_by_key_witness :
    (query.NaiveOrder sample.entries [query.OrderByKey]).Perm sample.entries ∧
    (query.NaiveOrder sample.entries [query.OrderByKey]).Pairwise
      (fun a b => Key.Less b.Key (some a.Key) = false) ∧
    (∀ k : StrKey, (query.NaiveOrder sample.entries [query.OrderByKey]).filter
        (fun e => Key.Equal e.Key (some k))
      = sample.entries.filter (fun e => Key.Equal e.Key (some k))) ∧
    ((sample.entries.map query.Entry.Key).Nodup →
      query.NaiveOrder sample.entries [query.OrderByKeyDescending]
        = (query.NaiveOrder sample.entries [query.OrderByKey]).reverse) :=
  NaiveOrder_by_key strKey_lawful strKey_less_trans sample.entries

/-- Witness of C20: over a child holding `/a`, with two entries buffered and room
for four, a put and a delete of `/c` only assign the entry of `/c`. -/
theorem writes_below_threshold_stay_buffered_witness :
    autobatch.Put sample.mapChild id (NewStrKey "/c") [3] sample.buffered
      = (none, autobatch.afterPut sample.buffered (NewStrKey "/c") [3]) ∧
    autobatch.Delete sample.mapChild id (NewStrKey "/c") sample.buffered
      = (none, autobatch.afterDelete sample.buffered (NewStrKey "/c")) :=
  (writes_below_threshold_stay_buffered sample.mapChild id (NewStrKey "/c") [3]
    sample.buffered 0).1 (by decide)
